import Mathlib

/-!
# Memtx tree index (src/box/memtx_tree.cc) and its neighbours

A shallow embedding of the tree index of the memtx engine: the constructor,
`findByKey`, `replace`, the iterator functions (`tree_iterator_start`,
`tree_iterator_next`, `tree_iterator_prev`, `tree_iterator_next_equal`,
`tree_iterator_prev_equal`, `tree_iterator_free`), `initIterator`, the bulk
build (`reserve`, `buildNext`, `endBuild`) and the snapshot iterator, over a
tree container that is a list of tuples kept in comparator order.

The tree container itself (the B+*-tree behind `treeProxy` / `memtx_tree_*`),
the key comparator with its treatment of NULL, `qsort_arg` and
`replace_check_dup` are not part of `memtx_tree.cc`; they are modelled from
the specification and marked as such.

Three smaller parts follow, each in its own namespace: the checkpoint
iterator (src/box/checkpoint.cc), the safety-level keywords and the pragma
lookup (src/box/sql/pragma.c), and the key definition check of the vinyl
engine (src/box/vinyl_engine.cc).
-/

set_option linter.dupNamespace false

namespace memtx

/-! ## Data model -/

/-- Modelled from the spec: the Record Reference (`struct tuple *`, declared
outside `memtx_tree.cc`): `addr` is the identity of the allocation (two
records with the same fields are still two records), `fields` are the field
values the comparator reads, `none` being NULL. -/
structure tuple where
  addr : Nat
  fields : List (Option Int)
deriving DecidableEq, Repr

/-- Modelled from the spec: the key definition (`struct key_def`, declared
outside `memtx_tree.cc`): the field number of every part, in order, the
nullability flag the constructor of the index reads, and the number of
leading parts that carry the uniqueness constraint (all of them, unless the
definition is the extended one of a unique index). -/
structure key_def where
  parts : List Nat
  is_nullable : Bool
  unique_part_count : Nat
deriving DecidableEq, Repr

/-- Modelled from the spec: the index options (`index_def->opts`), of which
the source reads `is_unique`. -/
structure index_opts where
  is_unique : Bool
deriving DecidableEq, Repr

/-- Modelled from the spec: the index definition (`struct index_def`,
declared outside `memtx_tree.cc`): the user-visible key definition `key_def`
and the extended comparison definition `cmp_def`. -/
structure index_def where
  opts : index_opts
  key_def : memtx.key_def
  cmp_def : memtx.key_def
deriving DecidableEq, Repr

/-- Modelled from the spec: the search key of an iterator
(`struct memtx_tree_key_data`, declared outside `memtx_tree.cc`):
`key = none` is the null pointer, `part_count` the number of parts
supplied. -/
structure memtx_tree_key_data where
  key : Option (List (Option Int))
  part_count : Nat
deriving DecidableEq, Repr

/-- Modelled from the spec: the scan types (`enum iterator_type`, declared
outside `memtx_tree.cc`), the seven that `tree_iterator_set_next_method`
handles. -/
inductive iterator_type where
  | ITER_EQ
  | ITER_REQ
  | ITER_ALL
  | ITER_LT
  | ITER_LE
  | ITER_GE
  | ITER_GT
deriving DecidableEq, Repr

/-- Modelled from the spec: `iterator_type_is_reverse` (declared outside
`memtx_tree.cc`); the reverse-direction scans are LT, LE and REQ. -/
def iterator_type_is_reverse (type : iterator_type) : Bool :=
  match type with
  | .ITER_REQ => true
  | .ITER_LT => true
  | .ITER_LE => true
  | _ => false

/-! ## Key comparator (modelled) -/

/-- Modelled from the spec: the comparison of two field values; NULL
(`none`) is below every value and equal to NULL. -/
def compare_field : Option Int → Option Int → Int
  | none, none => 0
  | none, some _ => -1
  | some _, none => 1
  | some a, some b => if a < b then -1 else if b < a then 1 else 0

/-- Modelled from the spec: the part-by-part three-way comparison behind
`compare(a, b, key_def)`; parts are compared in order and the first
difference decides, over the parts both sides have. -/
def compare_parts : List (Option Int) → List (Option Int) → Int
  | a :: as, b :: bs =>
    if compare_field a b ≠ 0 then compare_field a b else compare_parts as bs
  | _, _ => 0

/-- Modelled from the spec: the values of the parts of `d` in a record (a
field the record does not have reads as NULL). -/
def tuple_extract_key (t : tuple) (d : key_def) : List (Option Int) :=
  d.parts.map (fun f => t.fields.getD f none)

/-- Modelled from the spec: the comparison of two extracted keys whose first
`u` parts carry the uniqueness constraint: those parts decide; when they are
equal, the remaining parts (the hidden tiebreaker) are compared only if a
NULL was met among the first `u`, so that NULL-bearing keys do not compare
equal while keys without NULL do. -/
def compare_keys (u : Nat) (ka kb : List (Option Int)) : Int :=
  if compare_parts (ka.take u) (kb.take u) ≠ 0 then compare_parts (ka.take u) (kb.take u)
  else if (ka.take u).contains none then compare_parts (ka.drop u) (kb.drop u)
  else 0

/-- Modelled from the spec: `compare(a, b, key_def)` of the Key Comparator,
record against record. -/
def tuple_compare (a b : tuple) (d : key_def) : Int :=
  compare_keys d.unique_part_count (tuple_extract_key a d) (tuple_extract_key b d)

/-- Modelled from the spec: `compare(a, key, key_def)` of the Key Comparator,
record against a search key of `part_count` parts. -/
def tuple_compare_with_key (t : tuple) (key : List (Option Int)) (part_count : Nat)
    (d : key_def) : Int :=
  compare_parts (tuple_extract_key t d) (key.take part_count)

/-- Modelled from the spec: the method `compare(key_data, key_def)` of a tree
entry, used by the iterators: record against the iterator's search key. -/
def compare_key_data (t : tuple) (kd : memtx_tree_key_data) (d : key_def) : Int :=
  tuple_compare_with_key t (kd.key.getD []) kd.part_count d

/-! ## Tree container (modelled) -/

/-- Modelled from the spec: the Tree Container behind `treeProxy`: the
comparator argument given to `tree.create` and the entries in comparator
order. A position is `some i` (the i-th entry) or `none` (invalid). -/
structure memtx_tree where
  arg : key_def
  elems : List tuple
deriving DecidableEq, Repr

/-- Modelled from the spec: `tree.size()`. -/
def memtx_tree.size (t : memtx_tree) : Nat :=
  t.elems.length

/-- Modelled from the spec: `tree.invalid()`, the invalid position. -/
def memtx_tree.invalid (_t : memtx_tree) : Option Nat :=
  none

/-- Modelled from the spec: `tree.first()`, the position of the first entry,
invalid on an empty tree. -/
def memtx_tree.first (t : memtx_tree) : Option Nat :=
  if 0 < t.elems.length then some 0 else none

/-- Modelled from the spec: `tree.last()`, the position of the last entry,
invalid on an empty tree. -/
def memtx_tree.last (t : memtx_tree) : Option Nat :=
  if 0 < t.elems.length then some (t.elems.length - 1) else none

/-- Modelled from the spec: `tree.get(pos)`, the entry at a position, null
when the position is invalid or no longer inside the tree. -/
def memtx_tree.get (t : memtx_tree) (pos : Option Nat) : Option tuple :=
  match pos with
  | none => none
  | some i => t.elems[i]?

/-- Modelled from the spec: `tree.next(pos)`: one step forward; stepping off
the last entry gives the invalid position, stepping from the invalid
position gives the first entry. -/
def memtx_tree.next (t : memtx_tree) (pos : Option Nat) : Option Nat :=
  match pos with
  | none => t.first
  | some i => if i + 1 < t.elems.length then some (i + 1) else none

/-- Modelled from the spec: `tree.prev(pos)`: one step backward; stepping
off the first entry gives the invalid position, stepping from the invalid
position gives the last entry (the comment in `tree_iterator_start` relies
on this). -/
def memtx_tree.prev (t : memtx_tree) (pos : Option Nat) : Option Nat :=
  match pos with
  | none => t.last
  | some i => if i = 0 then none else some (i - 1)

/-- Modelled from the spec: the position a bound search returns for index
`i`, invalid when `i` is past the last entry. -/
def memtx_tree.position (t : memtx_tree) (i : Nat) : Option Nat :=
  if i < t.elems.length then some i else none

/-- Modelled from the spec: `lower_bound(key) -> (position, exact)`: the
position of the first entry that is not below the key, and whether the key
was found. -/
def memtx_tree.lowerBound (t : memtx_tree) (kd : memtx_tree_key_data) :
    Option Nat × Bool :=
  (t.position (t.elems.findIdx (fun e => decide (0 ≤ compare_key_data e kd t.arg))),
   t.elems.any (fun e => decide (compare_key_data e kd t.arg = 0)))

/-- Modelled from the spec: `upper_bound(key) -> (position, exact)`: the
position of the first entry that is above the key, and whether the key was
found. -/
def memtx_tree.upperBound (t : memtx_tree) (kd : memtx_tree_key_data) :
    Option Nat × Bool :=
  (t.position (t.elems.findIdx (fun e => decide (0 < compare_key_data e kd t.arg))),
   t.elems.any (fun e => decide (compare_key_data e kd t.arg = 0)))

/-- Modelled from the spec: `lowerBound(elem, NULL)`: the position of the
first entry that is not below the given entry. -/
def memtx_tree.lowerBound_elem (t : memtx_tree) (x : tuple) : Option Nat :=
  t.position (t.elems.findIdx (fun e => decide (0 ≤ tuple_compare e x t.arg)))

/-- Modelled from the spec: `upperBound(elem, NULL)`: the position of the
first entry that is above the given entry. -/
def memtx_tree.upperBound_elem (t : memtx_tree) (x : tuple) : Option Nat :=
  t.position (t.elems.findIdx (fun e => decide (0 < tuple_compare e x t.arg)))

/-- Modelled from the spec: `find(key) -> Entry | none`, the exact lookup of
the Tree Container: the entry that compares equal to the key, if any. -/
def memtx_tree.find (t : memtx_tree) (kd : memtx_tree_key_data) : Option tuple :=
  t.elems.find? (fun e => decide (compare_key_data e kd t.arg = 0))

/-- Modelled from the spec: `bulk_load(sorted_array)` (`memtx_tree_build`):
the contents of the tree become the given array, in its order. -/
def memtx_tree_build (t : memtx_tree) (sorted_array : List tuple) : memtx_tree :=
  { t with elems := sorted_array }

/-- Modelled from the spec: `qsort_arg` (third-party code): the array sorted
by the comparison under the given key definition, records that compare equal
keeping their relative order. -/
def qsort_arg (build_array : List tuple) (c : key_def) : List tuple :=
  build_array.insertionSort (fun a b => tuple_compare a b c ≤ 0)

/-- Modelled from the spec: ordered insertion into the entries of the Tree
Container: the new entry goes before the first greater entry; an entry that
compares equal is displaced and reported. -/
def insert_elems (d : key_def) (x : tuple) : List tuple → List tuple × Option tuple
  | [] => ([x], none)
  | y :: ys =>
    if tuple_compare x y d < 0 then (x :: y :: ys, none)
    else if tuple_compare x y d = 0 then (x :: ys, some y)
    else ((y :: (insert_elems d x ys).1), (insert_elems d x ys).2)

/-- Modelled from the spec: removal of the entry that compares equal to `x`
from the entries of the Tree Container. -/
def delete_elems (d : key_def) (x : tuple) : List tuple → List tuple
  | [] => []
  | y :: ys => if tuple_compare x y d = 0 then ys else y :: delete_elems d x ys

/-- Modelled from the spec: `insert(entry) -> (success | duplicate_found)`
(`memtx_tree_insert(tree, tuple, &dup)`): returns the status (non-zero on
allocation failure, which leaves the container unchanged), the tree and the
displaced equal-keyed entry. `extent_fail` says whether the extent allocator
fails during this call. -/
def memtx_tree_insert (t : memtx_tree) (x : tuple) (extent_fail : Bool) :
    Int × memtx_tree × Option tuple :=
  if extent_fail then (-1, t, none)
  else (0, { t with elems := (insert_elems t.arg x t.elems).1 },
        (insert_elems t.arg x t.elems).2)

/-- Modelled from the spec: `delete(entry)` (`memtx_tree_delete`): removes
the matching entry, no-op if absent. -/
def memtx_tree_delete (t : memtx_tree) (x : tuple) : memtx_tree :=
  { t with elems := delete_elems t.arg x t.elems }

/-! ## The index object -/

/-- The `MemtxTree` object: index definition, the comparison definition the
constructor selected, the tree, and the staging buffer of the bulk build
(`none` is the null pointer). -/
structure MemtxTree where
  index_def : memtx.index_def
  cmp_def : key_def
  tree : memtx_tree
  build_array : Option (List tuple)
  build_array_size : Nat
  build_array_alloc_size : Nat
deriving DecidableEq, Repr

/-- The constructor `MemtxTree::MemtxTree`: the user key definition is the
comparator for a unique index without nullable parts, the extended one
otherwise; the tree is created empty with that comparator. -/
def MemtxTree.create (index_def_arg : memtx.index_def) : MemtxTree :=
  let cmp_def :=
    if index_def_arg.opts.is_unique && !index_def_arg.key_def.is_nullable then
      index_def_arg.key_def
    else
      index_def_arg.cmp_def
  { index_def := index_def_arg
    cmp_def := cmp_def
    tree := { arg := cmp_def, elems := [] }
    build_array := none
    build_array_size := 0
    build_array_alloc_size := 0 }

/-- The method `MemtxTree::size`. -/
def MemtxTree.size (idx : MemtxTree) : Nat :=
  idx.tree.size

/-- The method `MemtxTree::findByKey`: the record found, or none, together
with the index as the call leaves it (the method is const). The assertion at
its top (unique index, full key) is the precondition of the theorems about
it. -/
def MemtxTree.findByKey (idx : MemtxTree) (key : Option (List (Option Int)))
    (part_count : Nat) : Option tuple × MemtxTree :=
  let key_data : memtx_tree_key_data := { key := key, part_count := part_count }
  (idx.tree.find key_data, idx)

/-! ## Replace -/

/-- Modelled from the spec: the three modes of `replace`
(`enum dup_replace_mode`, declared outside `memtx_tree.cc`). -/
inductive dup_replace_mode where
  | DUP_REPLACE_OR_INSERT
  | DUP_INSERT
  | DUP_REPLACE
deriving DecidableEq, Repr

/-- Modelled from the spec: the error code of a duplicate found where none is
allowed (declared outside `memtx_tree.cc`; any non-zero value serves). -/
def ER_TUPLE_FOUND : Nat := 3

/-- Modelled from the spec: the error code of a missing record where one is
required (declared outside `memtx_tree.cc`; any non-zero value serves). -/
def ER_TUPLE_NOT_FOUND : Nat := 4

/-- Modelled from the spec: `replace_check_dup` (declared outside
`memtx_tree.cc`): insert-only fails if a duplicate exists unless it is
literally the old record, replace-only fails if there is no existing match,
insert-or-replace accepts; 0 means acceptable. -/
def replace_check_dup (old_tuple dup_tuple : Option tuple) (mode : dup_replace_mode) : Nat :=
  match dup_tuple with
  | none => if mode = .DUP_REPLACE then ER_TUPLE_NOT_FOUND else 0
  | some d => if mode = .DUP_INSERT ∧ old_tuple ≠ some d then ER_TUPLE_FOUND else 0

/-- What `replace` raises. -/
inductive index_error where
  | OutOfMemory
  | ClientError (errcode : Nat)
deriving DecidableEq, Repr

/-- The method `MemtxTree::replace`: the outcome (the returned record, or
the error raised) together with the index as the call leaves it.
`extent_fail` says whether the extent allocator fails in the optimistic
insert. The re-insert of the displaced duplicate on the roll-back path has
its status discarded by the source; it fills the place the delete before it
has just vacated and is taken not to allocate. -/
def MemtxTree.replace (idx : MemtxTree) (old_tuple new_tuple : Option tuple)
    (mode : dup_replace_mode) (extent_fail : Bool) :
    Except index_error (Option tuple) × MemtxTree :=
  let finish (idx : MemtxTree) : Except index_error (Option tuple) × MemtxTree :=
    match old_tuple with
    | some o => (.ok old_tuple, { idx with tree := memtx_tree_delete idx.tree o })
    | none => (.ok old_tuple, idx)
  match new_tuple with
  | some n =>
    let ins := memtx_tree_insert idx.tree n extent_fail
    let tree_res := ins.1
    let dup_tuple := ins.2.2
    if tree_res ≠ 0 then
      (.error .OutOfMemory, { idx with tree := ins.2.1 })
    else
      let errcode := replace_check_dup old_tuple dup_tuple mode
      if errcode ≠ 0 then
        let tree1 := memtx_tree_delete ins.2.1 n
        let tree2 :=
          match dup_tuple with
          | some d => (memtx_tree_insert tree1 d false).2.1
          | none => tree1
        (.error (.ClientError errcode), { idx with tree := tree2 })
      else
        match dup_tuple with
        | some d => (.ok (some d), { idx with tree := ins.2.1 })
        | none => finish { idx with tree := ins.2.1 }
  | none => finish idx

/-! ## Bulk build -/

/-- Modelled from the spec: the size in bytes of one extent
(`MEMTX_EXTENT_SIZE`, declared outside `memtx_tree.cc`). -/
def MEMTX_EXTENT_SIZE : Nat := 16 * 1024

/-- Modelled from the spec: the size in bytes of one record reference
(`sizeof(struct tuple *)`). -/
def sizeof_tuple_ptr : Nat := 8

/-- The staged records: the first `build_array_size` slots of the staging
buffer. -/
def MemtxTree.staged (idx : MemtxTree) : List tuple :=
  (idx.build_array.getD []).take idx.build_array_size

/-- The method `MemtxTree::beginBuild`: only the assertion that the tree is
empty. -/
def MemtxTree.beginBuild (idx : MemtxTree) : MemtxTree :=
  idx

/-- The method `MemtxTree::reserve`. `realloc_fail` says whether `realloc`
returns null; a successful `realloc` keeps the contents up to the new
capacity. -/
def MemtxTree.reserve (idx : MemtxTree) (size_hint : Nat) (realloc_fail : Bool) :
    Except index_error Unit × MemtxTree :=
  if size_hint < idx.build_array_alloc_size then
    (.ok (), idx)
  else if realloc_fail then
    (.error .OutOfMemory, idx)
  else
    (.ok (),
     { idx with
       build_array := some ((idx.build_array.getD []).take size_hint)
       build_array_alloc_size := size_hint })

/-- The last statement of `buildNext`, `build_array[build_array_size++] =
tuple`: the record is stored in slot `build_array_size` and the count goes
up by one. -/
def MemtxTree.store_next (idx : MemtxTree) (t : tuple) : MemtxTree :=
  { idx with
    build_array := some ((idx.build_array.getD []).take idx.build_array_size ++ [t])
    build_array_size := idx.build_array_size + 1 }

/-- The method `MemtxTree::buildNext`. `malloc_fail` and `realloc_fail` say
whether the first allocation and the growth return null. The recorded
capacity is raised before the result of `realloc` is tested, as in the
source. -/
def MemtxTree.buildNext (idx : MemtxTree) (t : tuple) (malloc_fail realloc_fail : Bool) :
    Except index_error Unit × MemtxTree :=
  if idx.build_array = none ∧ malloc_fail = true then
    (.error .OutOfMemory, idx)
  else
    let idx1 :=
      if idx.build_array = none then
        { idx with
          build_array := some []
          build_array_alloc_size := MEMTX_EXTENT_SIZE / sizeof_tuple_ptr }
      else idx
    if idx1.build_array_size = idx1.build_array_alloc_size then
      let idx2 :=
        { idx1 with
          build_array_alloc_size :=
            idx1.build_array_alloc_size + idx1.build_array_alloc_size / 2 }
      if realloc_fail then
        (.error .OutOfMemory, idx2)
      else
        (.ok (),
         MemtxTree.store_next
           { idx2 with
             build_array :=
               some ((idx2.build_array.getD []).take idx2.build_array_alloc_size) } t)
    else
      (.ok (), MemtxTree.store_next idx1 t)

/-- The key definition `endBuild` sorts the staged array with: the user key
definition for a unique index, the extended one otherwise. -/
def endBuild_cmp_def (d : index_def) : key_def :=
  if d.opts.is_unique then d.key_def else d.cmp_def

/-- The method `MemtxTree::endBuild`: the staged records are sorted, bulk
loaded into the tree, and the staging buffer is freed and reset. -/
def MemtxTree.endBuild (idx : MemtxTree) : MemtxTree :=
  let cmp_def := endBuild_cmp_def idx.index_def
  let sorted := qsort_arg idx.staged cmp_def
  { idx with
    tree := memtx_tree_build idx.tree sorted
    build_array := none
    build_array_size := 0
    build_array_alloc_size := 0 }

/-- The bulk build of a list of records when no allocation fails:
`buildNext` on each record in order. -/
def MemtxTree.build_all (idx : MemtxTree) : List tuple → MemtxTree
  | [] => idx
  | t :: ts => MemtxTree.build_all (idx.buildNext t false false).2 ts

/-- The records inserted one at a time with `replace` in insert-only mode,
no allocation failing. -/
def MemtxTree.insert_all (idx : MemtxTree) : List tuple → MemtxTree
  | [] => idx
  | t :: ts => MemtxTree.insert_all (idx.replace none (some t) .DUP_INSERT false).2 ts

/-! ## Iterators -/

/-- The function `base.next` currently points to. -/
inductive next_method where
  | start
  | dummie
  | next
  | prev
  | next_equal
  | prev_equal
deriving DecidableEq, Repr

/-- The iterator object (`struct tree_iterator`). The tree and the index
definition it points to are the arguments of every call; `tree_iterator` is
the position in the tree, `current` the last returned record (`none` is
null). -/
structure tree_iterator where
  next : next_method
  tree_iterator : Option Nat
  type : iterator_type
  key_data : memtx_tree_key_data
  current : Option tuple
deriving DecidableEq, Repr

/-- The function `tree_iterator_dummie`: no result, no change. -/
def tree_iterator_dummie (it : tree_iterator) : Option tuple × tree_iterator :=
  (none, it)

/-- The function `tree_iterator_next`. With `current` null the assertion at
its top fails; that state is not reachable from `initIterator` and is
modelled as no result and no change. -/
def tree_iterator_next (idx : MemtxTree) (it : tree_iterator) : Option tuple × tree_iterator :=
  match it.current with
  | none => (none, it)
  | some cur =>
    let check := idx.tree.get it.tree_iterator
    let it1 :=
      if check = none ∨ check ≠ some cur then
        { it with tree_iterator := idx.tree.upperBound_elem cur }
      else
        { it with tree_iterator := idx.tree.next it.tree_iterator }
    let it2 := { it1 with current := none }
    match idx.tree.get it2.tree_iterator with
    | none => (none, { it2 with next := .dummie })
    | some res => (some res, { it2 with current := some res })

/-- The function `tree_iterator_prev` (see `tree_iterator_next` for a null
`current`). -/
def tree_iterator_prev (idx : MemtxTree) (it : tree_iterator) : Option tuple × tree_iterator :=
  match it.current with
  | none => (none, it)
  | some cur =>
    let check := idx.tree.get it.tree_iterator
    let it0 :=
      if check = none ∨ check ≠ some cur then
        { it with tree_iterator := idx.tree.lowerBound_elem cur }
      else it
    let it1 := { it0 with tree_iterator := idx.tree.prev it0.tree_iterator }
    let it2 := { it1 with current := none }
    match idx.tree.get it2.tree_iterator with
    | none => (none, { it2 with next := .dummie })
    | some res => (some res, { it2 with current := some res })

/-- The function `tree_iterator_next_equal`: as `tree_iterator_next`, and
the new entry must match the search key under the user key definition. -/
def tree_iterator_next_equal (idx : MemtxTree) (it : tree_iterator) :
    Option tuple × tree_iterator :=
  match it.current with
  | none => (none, it)
  | some cur =>
    let check := idx.tree.get it.tree_iterator
    let it1 :=
      if check = none ∨ check ≠ some cur then
        { it with tree_iterator := idx.tree.upperBound_elem cur }
      else
        { it with tree_iterator := idx.tree.next it.tree_iterator }
    let it2 := { it1 with current := none }
    match idx.tree.get it2.tree_iterator with
    | none => (none, { it2 with next := .dummie })
    | some res =>
      if compare_key_data res it2.key_data idx.index_def.key_def ≠ 0 then
        (none, { it2 with next := .dummie })
      else (some res, { it2 with current := some res })

/-- The function `tree_iterator_prev_equal`: as `tree_iterator_prev`, and
the new entry must match the search key under the user key definition. -/
def tree_iterator_prev_equal (idx : MemtxTree) (it : tree_iterator) :
    Option tuple × tree_iterator :=
  match it.current with
  | none => (none, it)
  | some cur =>
    let check := idx.tree.get it.tree_iterator
    let it0 :=
      if check = none ∨ check ≠ some cur then
        { it with tree_iterator := idx.tree.lowerBound_elem cur }
      else it
    let it1 := { it0 with tree_iterator := idx.tree.prev it0.tree_iterator }
    let it2 := { it1 with current := none }
    match idx.tree.get it2.tree_iterator with
    | none => (none, { it2 with next := .dummie })
    | some res =>
      if compare_key_data res it2.key_data idx.index_def.key_def ≠ 0 then
        (none, { it2 with next := .dummie })
      else (some res, { it2 with current := some res })

/-- The function `tree_iterator_set_next_method`. -/
def tree_iterator_set_next_method (it : tree_iterator) : tree_iterator :=
  match it.type with
  | .ITER_EQ => { it with next := .next_equal }
  | .ITER_REQ => { it with next := .prev_equal }
  | .ITER_ALL => { it with next := .next }
  | .ITER_LT => { it with next := .prev }
  | .ITER_LE => { it with next := .prev }
  | .ITER_GE => { it with next := .next }
  | .ITER_GT => { it with next := .next }

/-- The end of `tree_iterator_start`, from the read of the entry under the
position on: no entry gives no result, else the entry becomes current and
the advance method is installed. -/
def tree_iterator_start_finish (idx : MemtxTree) (it : tree_iterator) :
    Option tuple × tree_iterator :=
  match idx.tree.get it.tree_iterator with
  | none => (none, it)
  | some res => (some res, tree_iterator_set_next_method { it with current := some res })

/-- The function `tree_iterator_start`, the first call after
`initIterator`: the dummy method is installed first, the position is set
from the scan type and the key, and the two early returns (EQ after the
lower bound, REQ after the upper bound, when the key was not found) leave
the iterator exhausted. -/
def tree_iterator_start (idx : MemtxTree) (it : tree_iterator) : Option tuple × tree_iterator :=
  let it0 := { it with next := .dummie }
  let type := it0.type
  if it0.key_data.key = none then
    if iterator_type_is_reverse it0.type then
      tree_iterator_start_finish idx { it0 with tree_iterator := idx.tree.last }
    else
      tree_iterator_start_finish idx { it0 with tree_iterator := idx.tree.first }
  else if type = .ITER_ALL ∨ type = .ITER_EQ ∨ type = .ITER_GE ∨ type = .ITER_LT then
    let bound := idx.tree.lowerBound it0.key_data
    let it1 := { it0 with tree_iterator := bound.1 }
    if type = .ITER_EQ ∧ bound.2 = false then
      (none, it1)
    else if iterator_type_is_reverse type then
      tree_iterator_start_finish idx { it1 with tree_iterator := idx.tree.prev it1.tree_iterator }
    else
      tree_iterator_start_finish idx it1
  else
    let bound := idx.tree.upperBound it0.key_data
    let it1 := { it0 with tree_iterator := bound.1 }
    if type = .ITER_REQ ∧ bound.2 = false then
      (none, it1)
    else if iterator_type_is_reverse type then
      tree_iterator_start_finish idx { it1 with tree_iterator := idx.tree.prev it1.tree_iterator }
    else
      tree_iterator_start_finish idx it1

/-- The method `MemtxTree::initIterator` for the seven scan types of the
tree (the guard for other types is outside this model). -/
def MemtxTree.initIterator (idx : MemtxTree) (it : tree_iterator) (type : iterator_type)
    (key : Option (List (Option Int))) (part_count : Nat) : tree_iterator :=
  let type1 :=
    if part_count = 0 then
      (if iterator_type_is_reverse type then iterator_type.ITER_LE else iterator_type.ITER_GE)
    else type
  let key1 := if part_count = 0 then none else key
  { it with
    current := none
    type := type1
    key_data := { key := key1, part_count := part_count }
    next := .start
    tree_iterator := idx.tree.invalid }

/-- A call of `iterator->next(iterator)`: dispatch on the method the
iterator currently carries. -/
def iterator_next (idx : MemtxTree) (it : tree_iterator) : Option tuple × tree_iterator :=
  match it.next with
  | .start => tree_iterator_start idx it
  | .dummie => tree_iterator_dummie it
  | .next => tree_iterator_next idx it
  | .prev => tree_iterator_prev idx it
  | .next_equal => tree_iterator_next_equal idx it
  | .prev_equal => tree_iterator_prev_equal idx it

/-- The results of `n` successive calls of `next()` on an index that does
not change in between. -/
def iterate (idx : MemtxTree) : Nat → tree_iterator → List (Option tuple)
  | 0, _ => []
  | n + 1, it => (iterator_next idx it).1 :: iterate idx n (iterator_next idx it).2

/-- The results of successive calls of `next()` where the index is in the
given state at each call (any change may happen between two calls). -/
def iterate_live : List MemtxTree → tree_iterator → List (Option tuple)
  | [], _ => []
  | idx :: rest, it => (iterator_next idx it).1 :: iterate_live rest (iterator_next idx it).2

/-! ## Specification vocabulary -/

/-- The key a record is ordered by: the unique parts, followed by the other
parts when a unique part is NULL and by as many NULLs otherwise. -/
def ordering_key (u : Nat) (k : List (Option Int)) : List (Option Int) :=
  k.take u ++ (if (k.take u).contains none then k.drop u
               else List.replicate (k.drop u).length none)

/-- The first `n` results of a scan that yields the records of `out`, in
order, and then no-result on every further call. -/
def yields : Nat → List tuple → List (Option tuple)
  | 0, _ => []
  | n + 1, [] => none :: yields n []
  | n + 1, x :: xs => some x :: yields n xs

/-- The tree invariant: the entries are in strictly ascending order of the
tree's comparator. -/
def tree_sorted (t : memtx_tree) : Prop :=
  t.elems.Pairwise (fun a b => tuple_compare a b t.arg < 0)

instance (t : memtx_tree) : Decidable (tree_sorted t) := by
  unfold tree_sorted
  infer_instance

/-- The states from which no call yields: the method is the dummy, or an
advance method is installed over a null `current`. -/
def dead_iterator (it : tree_iterator) : Prop :=
  it.next = .dummie ∨ (it.next ≠ .start ∧ it.current = none)

/-- Record `r` is the least entry of the tree with property `p`; no-result
stands for "no entry has the property". -/
def least_entry (t : memtx_tree) (p : tuple → Prop) (r : Option tuple) : Prop :=
  match r with
  | some x => x ∈ t.elems ∧ p x ∧ ∀ y ∈ t.elems, p y → tuple_compare x y t.arg ≤ 0
  | none => ∀ y ∈ t.elems, ¬ p y

/-- Record `r` is the greatest entry of the tree with property `p`;
no-result stands for "no entry has the property". -/
def greatest_entry (t : memtx_tree) (p : tuple → Prop) (r : Option tuple) : Prop :=
  match r with
  | some x => x ∈ t.elems ∧ p x ∧ ∀ y ∈ t.elems, p y → tuple_compare y x t.arg ≤ 0
  | none => ∀ y ∈ t.elems, ¬ p y

/-- The entry list `l` minus the record `old`, when one is given. -/
def minus_old (l : List tuple) (old : Option tuple) : List tuple :=
  match old with
  | some o => l.erase o
  | none => l

/-- The entries whose key equals the search key under the user key
definition, in tree order. -/
def matching_entries (idx : MemtxTree) (key : List (Option Int)) (part_count : Nat) : List tuple :=
  idx.tree.elems.filter
    (fun t => decide (tuple_compare_with_key t key part_count idx.index_def.key_def = 0))

/-! ## Concrete scenario -/

/-- A one-part key definition over field 0. -/
def kd_field0 : key_def := { parts := [0], is_nullable := false, unique_part_count := 1 }

/-- A unique, non-nullable index over field 0. -/
def unique_index_def : index_def :=
  { opts := { is_unique := true }, key_def := kd_field0, cmp_def := kd_field0 }

/-- The record with key `k` (its address is `k` too). -/
def rec_key (k : Nat) : tuple := { addr := k, fields := [some (k : Int)] }

/-- Insert the record with key `k` in insert-only mode. -/
def insert_key (idx : MemtxTree) (k : Nat) : MemtxTree :=
  (idx.replace none (some (rec_key k)) .DUP_INSERT false).2

/-- The index after inserting the keys 5, 1, 3 one at a time. -/
def idx531 : MemtxTree :=
  insert_key (insert_key (insert_key (MemtxTree.create unique_index_def) 5) 1) 3

/-- A freshly allocated iterator. -/
def fresh_iterator : tree_iterator :=
  { next := .dummie, tree_iterator := none, type := .ITER_EQ,
    key_data := { key := none, part_count := 0 }, current := none }

/-- A non-unique index over field 0 whose comparison definition is extended
with field 1 (the primary key). -/
def nonunique_index_def : index_def :=
  { opts := { is_unique := false }, key_def := kd_field0,
    cmp_def := { parts := [0, 1], is_nullable := false, unique_part_count := 2 } }

/-- The record with secondary key `k` and primary key `pk` (its address is
`pk`). -/
def rec_pair (k pk : Nat) : tuple :=
  { addr := pk, fields := [some (k : Int), some (pk : Int)] }

/-- Insert a record in insert-or-replace mode. -/
def insert_rec (idx : MemtxTree) (t : tuple) : MemtxTree :=
  (idx.replace none (some t) .DUP_REPLACE_OR_INSERT false).2

/-- The non-unique index after inserting (7,2), (8,3), (7,1), (6,4). -/
def idx_pairs : MemtxTree :=
  insert_rec (insert_rec (insert_rec (insert_rec (MemtxTree.create nonunique_index_def)
    (rec_pair 7 2)) (rec_pair 8 3)) (rec_pair 7 1)) (rec_pair 6 4)

/-- The index `idx531` after the record with key 1 is deleted. -/
def idx531_without_1 : MemtxTree :=
  (idx531.replace (some (rec_key 1)) none .DUP_REPLACE_OR_INSERT false).2

/-- A unique index over field 0 that allows NULL there; its comparison
definition is extended with field 1 (the primary key) as the tiebreaker. -/
def unique_nullable_index_def : index_def :=
  { opts := { is_unique := true },
    key_def := { parts := [0], is_nullable := true, unique_part_count := 1 },
    cmp_def := { parts := [0, 1], is_nullable := true, unique_part_count := 1 } }

/-- The record whose field 0 is NULL and whose primary key is `pk` (its
address is `pk`). -/
def rec_null (pk : Nat) : tuple := { addr := pk, fields := [none, some (pk : Int)] }

/-! ## Sequences of bulk-build calls -/

/-- A call of the bulk-build interface. -/
inductive build_op where
  | reserve (size_hint : Nat)
  | buildNext (t : tuple)
  | endBuild
deriving DecidableEq, Repr

/-- The call `op` on the index when no allocation fails: the outcome and the
state after it. -/
def MemtxTree.build_step (idx : MemtxTree) : build_op → Except index_error Unit × MemtxTree
  | .reserve size_hint => idx.reserve size_hint false
  | .buildNext t => idx.buildNext t false false
  | .endBuild => (.ok (), idx.endBuild)

/-- The state after the calls `ops`, in order, none of them failing. -/
def MemtxTree.build_run (idx : MemtxTree) : List build_op → MemtxTree
  | [] => idx
  | op :: ops => MemtxTree.build_run (idx.build_step op).2 ops

/-- The staging state with four slots, all of them taken: `reserve(4)` on a
fresh index and the records 1, 2, 3, 4 staged. -/
def full_staging : MemtxTree :=
  (MemtxTree.create unique_index_def).build_run
    [.reserve 4, .buildNext (rec_key 1), .buildNext (rec_key 2), .buildNext (rec_key 3),
     .buildNext (rec_key 4)]

/-- The index `idx531` after the record with key 5 is deleted. -/
def idx531_without_5 : MemtxTree :=
  (idx531.replace (some (rec_key 5)) none .DUP_REPLACE_OR_INSERT false).2

/-! ## Snapshot iterator -/

/-- Modelled from the spec: a position of the Tree Container as the
snapshot iterator holds it (`struct memtx_tree_iterator`): the position and,
once the iterator is frozen, the version of the tree it reads (`none`: it
reads the live tree). -/
structure memtx_tree_iterator where
  pos : Option Nat
  frozen : Option memtx_tree
deriving DecidableEq, Repr

/-- Modelled from the spec: the version of the tree an iterator reads: the
one it was frozen at, the live tree otherwise. -/
def memtx_tree_iterator.view (it : memtx_tree_iterator) (tree : memtx_tree) : memtx_tree :=
  it.frozen.getD tree

/-- Modelled from the spec: `memtx_tree_iterator_first`, the position of the
first entry. -/
def memtx_tree_iterator_first (tree : memtx_tree) : memtx_tree_iterator :=
  { pos := tree.first, frozen := none }

/-- Modelled from the spec: `memtx_tree_iterator_freeze`: from this call on
the iterator reads the tree as it is now, whatever is inserted into or
deleted from the live tree later. -/
def memtx_tree_iterator_freeze (tree : memtx_tree) (it : memtx_tree_iterator) :
    memtx_tree_iterator :=
  { it with frozen := some tree }

/-- Modelled from the spec: `memtx_tree_iterator_get_elem`, the entry under
the position, null when the position is invalid. -/
def memtx_tree_iterator_get_elem (tree : memtx_tree) (it : memtx_tree_iterator) :
    Option tuple :=
  (it.view tree).get it.pos

/-- Modelled from the spec: `memtx_tree_iterator_next`, one step forward. -/
def memtx_tree_iterator_next (tree : memtx_tree) (it : memtx_tree_iterator) :
    memtx_tree_iterator :=
  { it with pos := (it.view tree).next it.pos }

/-- The snapshot iterator (`struct tree_snapshot_iterator`); the tree its
`tree` field points to is the argument of every call. -/
structure tree_snapshot_iterator where
  tree_iterator : memtx_tree_iterator
deriving DecidableEq, Repr

/-- The function `tree_snapshot_iterator_next`: null when there is no entry
under the position, else the position advances and the record under the old
position is returned (its data range, in the source). -/
def tree_snapshot_iterator_next (tree : memtx_tree) (it : tree_snapshot_iterator) :
    Option tuple × tree_snapshot_iterator :=
  match memtx_tree_iterator_get_elem tree it.tree_iterator with
  | none => (none, it)
  | some res =>
    (some res, { it with tree_iterator := memtx_tree_iterator_next tree it.tree_iterator })

/-- The method `MemtxTree::createSnapshotIterator`; `calloc_fail` says
whether the allocation of the iterator fails. -/
def MemtxTree.createSnapshotIterator (idx : MemtxTree) (calloc_fail : Bool) :
    Except index_error tree_snapshot_iterator :=
  if calloc_fail then .error .OutOfMemory
  else
    .ok { tree_iterator :=
            memtx_tree_iterator_freeze idx.tree (memtx_tree_iterator_first idx.tree) }

/-- The results of successive calls of `next()` on a snapshot iterator
where the index is in the given state at each call. -/
def snapshot_iterate : List MemtxTree → tree_snapshot_iterator → List (Option tuple)
  | [], _ => []
  | idx :: rest, it =>
    (tree_snapshot_iterator_next idx.tree it).1 ::
      snapshot_iterate rest (tree_snapshot_iterator_next idx.tree it).2

/-! ## Record references held by an iterator -/

/-- A call that changes the reference count of a record. -/
inductive ref_event where
  | tuple_ref (t : tuple)
  | tuple_unref (t : tuple)
deriving DecidableEq, Repr

/-- The reference-count calls of `tree_iterator_free`: the current record is
released if there is one. -/
def tree_iterator_free_refs (it : tree_iterator) : List ref_event :=
  match it.current with
  | some cur => [.tuple_unref cur]
  | none => []

/-- The reference-count calls of `MemtxTree::initIterator`: a leftover
current record is released. -/
def initIterator_refs (it : tree_iterator) : List ref_event :=
  match it.current with
  | some cur => [.tuple_unref cur]
  | none => []

/-- The reference-count calls of one `next()` call, in order. The dummy
method makes none. `tree_iterator_start` takes a reference on the record it
returns. An advance method (`tree_iterator_next`, `_prev`, `_next_equal`,
`_prev_equal`) releases the current record and then takes a reference on the
record it returns, if it returns one. -/
def iterator_next_refs (idx : MemtxTree) (it : tree_iterator) : List ref_event :=
  match it.next with
  | .dummie => []
  | .start =>
    match (iterator_next idx it).1 with
    | some res => [.tuple_ref res]
    | none => []
  | _ =>
    match it.current with
    | none => []
    | some cur =>
      .tuple_unref cur ::
        (match (iterator_next idx it).1 with
         | some res => [.tuple_ref res]
         | none => [])

/-- A call on an iterator during its life. -/
inductive iterator_op where
  | initIterator (idx : MemtxTree) (type : iterator_type) (key : Option (List (Option Int)))
      (part_count : Nat)
  | next (idx : MemtxTree)
deriving DecidableEq, Repr

/-- The state of the iterator after a call, and the reference-count calls
the call made. -/
def iterator_op.apply (it : tree_iterator) : iterator_op → tree_iterator × List ref_event
  | .initIterator idx type key part_count =>
    (idx.initIterator it type key part_count, initIterator_refs it)
  | .next idx => ((iterator_next idx it).2, iterator_next_refs idx it)

/-- The state of the iterator after the calls `ops`, in order, and all the
reference-count calls they made. -/
def iterator_life : List iterator_op → tree_iterator → tree_iterator × List ref_event
  | [], it => (it, [])
  | op :: ops, it =>
    ((iterator_life ops (op.apply it).1).1,
     (op.apply it).2 ++ (iterator_life ops (op.apply it).1).2)

/-- The change one call makes to the reference count of record `r`. -/
def ref_delta (r : tuple) : ref_event → Int
  | .tuple_ref t => if t = r then 1 else 0
  | .tuple_unref t => if t = r then -1 else 0

/-- The references on record `r` that the calls `evs` leave held. -/
def held (evs : List ref_event) (r : tuple) : Int :=
  (evs.map (ref_delta r)).sum

/-- The references an iterator should hold on record `r`: one if `r` is its
current record, none otherwise. -/
def owned (it : tree_iterator) (r : tuple) : Int :=
  if it.current = some r then 1 else 0

end memtx

namespace checkpoint

/-! ## The checkpoint iterator (`checkpoint.cc`) -/

/-- A checkpoint marker (`struct vclock`), identified by its rank in the
total order the snapshot directory index keeps its markers in. -/
abbrev vclock := Nat

/-- Modelled from the spec: the snapshot directory index
(`memtx->snap_dir.index`, a `vclockset_t`): the ordered history of
markers, oldest first. -/
abbrev vclockset := List vclock

/-- The invariant of the index: the markers are in strictly ascending
order. -/
def vclockset_ordered (index : vclockset) : Prop :=
  index.Pairwise (fun a b => a < b)

instance (index : vclockset) : Decidable (vclockset_ordered index) := by
  unfold vclockset_ordered
  infer_instance

/-- Modelled from the spec: `vclockset_first`, the oldest marker, null on an
empty index. -/
def vclockset_first (index : vclockset) : Option vclock :=
  index.head?

/-- Modelled from the spec: `vclockset_last`, the newest marker, null on an
empty index. -/
def vclockset_last (index : vclockset) : Option vclock :=
  index.getLast?

/-- Modelled from the spec: `vclockset_next`, the marker that follows `v` in
the order of the index, null after the newest. -/
def vclockset_next (index : vclockset) (v : vclock) : Option vclock :=
  index.find? (fun w => decide (v < w))

/-- Modelled from the spec: `vclockset_prev`, the marker that precedes `v`
in the order of the index, null before the oldest. -/
def vclockset_prev (index : vclockset) (v : vclock) : Option vclock :=
  (index.filter (fun w => decide (w < v))).getLast?

/-- The iterator (`struct checkpoint_iterator`): the marker returned last,
null at the start. -/
structure checkpoint_iterator where
  curr : Option vclock
deriving DecidableEq, Repr

/-- A fresh iterator: `curr` is null. -/
def fresh_checkpoint_iterator : checkpoint_iterator :=
  { curr := none }

/-- The function `checkpoint_iterator_next`; `index` is the snapshot
directory index of the memtx engine. -/
def checkpoint_iterator_next (index : vclockset) (it : checkpoint_iterator) :
    Option vclock × checkpoint_iterator :=
  let curr :=
    match it.curr with
    | none => vclockset_first index
    | some c => vclockset_next index c
  (curr, { it with curr := curr })

/-- The function `checkpoint_iterator_prev`. -/
def checkpoint_iterator_prev (index : vclockset) (it : checkpoint_iterator) :
    Option vclock × checkpoint_iterator :=
  let curr :=
    match it.curr with
    | none => vclockset_last index
    | some c => vclockset_prev index c
  (curr, { it with curr := curr })

/-- The results of `n` successive calls of `checkpoint_iterator_next`. -/
def iterate_next (index : vclockset) : Nat → checkpoint_iterator → List (Option vclock)
  | 0, _ => []
  | n + 1, it =>
    (checkpoint_iterator_next index it).1 ::
      iterate_next index n (checkpoint_iterator_next index it).2

/-- The results of `n` successive calls of `checkpoint_iterator_prev`. -/
def iterate_prev (index : vclockset) : Nat → checkpoint_iterator → List (Option vclock)
  | 0, _ => []
  | n + 1, it =>
    (checkpoint_iterator_prev index it).1 ::
      iterate_prev index n (checkpoint_iterator_prev index it).2

end checkpoint

namespace pragma

/-! ## Pragma helpers (`sql/pragma.c`) -/

/-- The bytes of a string literal. A C string is modelled as the list of
its bytes, the terminating NUL not included: reading past the end of the
list reads the NUL. -/
def c_str (s : String) : List Nat :=
  s.toList.map Char.toNat

/-- The byte `*z` under a string pointer. -/
def byte_at (z : List Nat) : Nat :=
  z.headD 0

/-- The length `strlen(z)`: the bytes before the first NUL. -/
def strlen (z : List Nat) : Nat :=
  (z.takeWhile (fun b => decide (b ≠ 0))).length

/-- The test `sqlite3Isdigit` (not among the sources): the byte is an ASCII
digit. -/
def sqlite3Isdigit (c : Nat) : Bool :=
  decide (48 ≤ c ∧ c ≤ 57)

/-- The table `sqlite3UpperToLower` (not among the sources): ASCII
upper-case letters are mapped to lower case, every other byte to itself. -/
def sqlite3UpperToLower (c : Nat) : Nat :=
  if 65 ≤ c ∧ c ≤ 90 then c + 32 else c

/-- The function `sqlite3Strlen30` (not among the sources): the length, cut
to 30 bits. -/
def sqlite3Strlen30 (z : List Nat) : Nat :=
  strlen z % 2 ^ 30

/-- The function `sqlite3StrNICmp` (`sqlite3_strnicmp`, not among the
sources): the first `N` bytes of the two strings are compared without regard
to ASCII case, up to the end of the left string; the result is the
difference of the first pair of lower-cased bytes that differ, 0 when there
is none. -/
def sqlite3StrNICmp : List Nat → List Nat → Nat → Int
  | _, _, 0 => 0
  | [], zRight, _ + 1 =>
    (sqlite3UpperToLower 0 : Int) - (sqlite3UpperToLower (byte_at zRight) : Int)
  | a :: zLeft, zRight, N + 1 =>
    if a ≠ 0 ∧ sqlite3UpperToLower a = sqlite3UpperToLower (byte_at zRight) then
      sqlite3StrNICmp zLeft zRight.tail N
    else (sqlite3UpperToLower a : Int) - (sqlite3UpperToLower (byte_at zRight) : Int)

/-- The function `sqlite3_stricmp` (not among the sources): the two strings
are compared without regard to ASCII case; the result is the difference of
the first pair of lower-cased bytes that differ, 0 when the strings end
together. -/
def sqlite3_stricmp : List Nat → List Nat → Int
  | [], zRight =>
    (sqlite3UpperToLower 0 : Int) - (sqlite3UpperToLower (byte_at zRight) : Int)
  | a :: zLeft, zRight =>
    if a ≠ 0 ∧ sqlite3UpperToLower a = sqlite3UpperToLower (byte_at zRight) then
      sqlite3_stricmp zLeft zRight.tail
    else (sqlite3UpperToLower a : Int) - (sqlite3UpperToLower (byte_at zRight) : Int)

/-- The packed keyword text of `getSafetyLevel`. -/
def zText : List Nat := c_str "onoffalseyestruextrafull"

/-- The offset of each keyword in `zText`. -/
def iOffset : List Nat := [0, 1, 2, 4, 9, 12, 15, 20]

/-- The length of each keyword. -/
def iLength : List Nat := [2, 2, 3, 5, 3, 4, 5, 4]

/-- The value of each keyword. -/
def iValue : List Nat := [1, 0, 0, 0, 1, 1, 3, 2]

/-- The test of the loop body of `getSafetyLevel` for table entry `i`. -/
def keyword_matches (z : List Nat) (omitFull : Int) (n : Nat) (i : Nat) : Bool :=
  decide (iLength.getD i 0 = n) &&
  decide (sqlite3StrNICmp (zText.drop (iOffset.getD i 0)) z n = 0) &&
  (decide (omitFull = 0) || decide (iValue.getD i 0 ≤ 1))

/-- The function `getSafetyLevel`. The helper `sqlite3Atoi` is not among the
sources and is a parameter; its result is cast to a byte. -/
def getSafetyLevel (sqlite3Atoi : List Nat → Int) (z : List Nat) (omitFull : Int)
    (dflt : Nat) : Nat :=
  if sqlite3Isdigit (byte_at z) then
    (sqlite3Atoi z % 256).toNat
  else
    let n := sqlite3Strlen30 z
    match (List.range iLength.length).find? (keyword_matches z omitFull n) with
    | some i => iValue.getD i 0
    | none => dflt

/-- The function `sqlite3GetBoolean`. -/
def sqlite3GetBoolean (sqlite3Atoi : List Nat → Int) (z : List Nat) (dflt : Nat) : Nat :=
  if getSafetyLevel sqlite3Atoi z 1 dflt ≠ 0 then 1 else 0

/-- An entry of the pragma table (`struct PragmaName`, declared in the
generated `pragma.h`): the name and the pragma type. -/
structure PragmaName where
  zName : List Nat
  ePragTyp : Nat
deriving DecidableEq, Repr

/-- The loop of `pragmaLocate` with `fuel` iterations left to run: the
result of the function (`some none` is the null pointer), or `none` when the
iterations are used up before the loop ends (or `mid` is outside the table,
which the bounds `0 <= lwr <= upr < ArraySize` of the search exclude). The
indexes are integers without wrap-around: the table is a static array, so
`lwr + upr` is far below the range of `int`. -/
def pragmaLocate_loop (aPragmaName : List PragmaName) (zName : List Nat) :
    Nat → Int → Int → Option (Option PragmaName)
  | 0, _, _ => none
  | fuel + 1, lwr, upr =>
    if lwr ≤ upr then
      let mid := (lwr + upr) / 2
      match aPragmaName[mid.toNat]? with
      | none => none
      | some entry =>
        let rc := sqlite3_stricmp zName entry.zName
        if rc = 0 then some (some entry)
        else if rc < 0 then pragmaLocate_loop aPragmaName zName fuel lwr (mid - 1)
        else pragmaLocate_loop aPragmaName zName fuel (mid + 1) upr
    else some none

/-- The function `pragmaLocate`; the table `aPragmaName` of the generated
`pragma.h` is a parameter, and the loop is given one iteration more than the
table has entries. -/
def pragmaLocate (aPragmaName : List PragmaName) (zName : List Nat) :
    Option (Option PragmaName) :=
  pragmaLocate_loop aPragmaName zName (aPragmaName.length + 1) 0
    ((aPragmaName.length : Int) - 1)

/-- The name with its ASCII letters in lower case. -/
def fold_case (z : List Nat) : List Nat :=
  z.map sqlite3UpperToLower

/-- A string without a NUL byte inside. -/
def is_c_string (z : List Nat) : Prop :=
  ∀ b ∈ z, b ≠ 0

instance (z : List Nat) : Decidable (is_c_string z) := by
  unfold is_c_string
  infer_instance

/-- The names of the table are in case-insensitive lexicographic order: of
two entries the earlier one has the name that, lower-cased, is equal to or
lexicographically before the lower-cased name of the later one. -/
def names_sorted (aPragmaName : List PragmaName) : Prop :=
  aPragmaName.Pairwise (fun p q =>
    fold_case p.zName = fold_case q.zName ∨
    List.Lex (fun a b => a < b) (fold_case p.zName) (fold_case q.zName))

instance (aPragmaName : List PragmaName) : Decidable (names_sorted aPragmaName) := by
  unfold names_sorted
  infer_instance

/-- The eight keywords of `getSafetyLevel`, lower case, in table order. -/
def keywords : List (List Nat) :=
  [c_str "on", c_str "no", c_str "off", c_str "false", c_str "yes", c_str "true",
   c_str "extra", c_str "full"]

/-- The keyword table read as a function of the lower-cased string `w`: the
value of the first keyword that is `w` and is allowed, the default when
there is none. -/
def safety_level_of (w : List Nat) (omitFull : Int) (dflt : Nat) : Nat :=
  match (List.range 8).find? (fun i =>
      decide (w = keywords.getD i []) &&
      (decide (omitFull = 0) || decide (iValue.getD i 0 ≤ 1))) with
  | some i => iValue.getD i 0
  | none => dflt

/-- A stand-in for `sqlite3Atoi` in evaluations on strings that do not
start with a digit. -/
def atoi_unused : List Nat → Int := fun _ => 0

/-- A small sorted pragma table. -/
def small_table : List PragmaName :=
  [{ zName := c_str "busy_timeout", ePragTyp := 1 },
   { zName := c_str "case_sensitive_like", ePragTyp := 2 },
   { zName := c_str "count_changes", ePragTyp := 3 },
   { zName := c_str "foreign_keys", ePragTyp := 4 },
   { zName := c_str "table_info", ePragTyp := 5 }]

end pragma

namespace vinyl

/-! ## The key definition check of the vinyl engine (`vinyl_engine.cc`) -/

/-- The index types (`enum index_type`). -/
inductive index_type where
  | HASH
  | TREE
  | BITSET
  | RTREE
deriving DecidableEq, Repr

/-- The field types (`enum field_type`). -/
inductive field_type where
  | UNKNOWN
  | NUM
  | STRING
  | ARRAY
  | NUMBER
  | INT
  | SCALAR
deriving DecidableEq, Repr

/-- A key part (`struct key_part`). -/
structure key_part where
  fieldno : Nat
  type : field_type
deriving DecidableEq, Repr

/-- The options of a key definition (`struct key_opts`). -/
structure key_opts where
  is_unique : Bool
deriving DecidableEq, Repr

/-- The key definition this engine is given (`struct key_def`); `part_count`
is the length of `parts`. -/
structure key_def where
  name : String
  type : index_type
  opts : key_opts
  iid : Nat
  parts : List key_part
deriving DecidableEq, Repr

/-- The error codes `keydefCheck` raises. -/
inductive box_error_code where
  | ER_INDEX_TYPE
  | ER_MODIFY_INDEX
deriving DecidableEq, Repr

/-- A raised `ClientError`: the code and the arguments of its message. -/
structure ClientError where
  code : box_error_code
  args : List String
deriving DecidableEq, Repr

/-- The loop of `keydefCheck` from part number `i` on, `parts` being the
parts from that number. -/
def keydefCheck_parts (name space_name : String) :
    Nat → List key_part → Except ClientError Unit
  | _, [] => .ok ()
  | i, part :: parts =>
    if part.type ≠ .NUM ∧ part.type ≠ .STRING then
      .error { code := .ER_MODIFY_INDEX,
               args := [name, space_name, "Vinyl index field type must be STR or NUM"] }
    else if part.fieldno ≠ i then
      .error { code := .ER_MODIFY_INDEX,
               args := [name, space_name,
                        "Vinyl key parts must follow first and cannot be sparse"] }
    else keydefCheck_parts name space_name (i + 1) parts

/-- The method `VinylEngine::keydefCheck`; `space_name` is the name of the
space. -/
def keydefCheck (space_name : String) (key_def : vinyl.key_def) : Except ClientError Unit :=
  if key_def.type ≠ .TREE then
    .error { code := .ER_INDEX_TYPE, args := [key_def.name, space_name] }
  else if ¬ key_def.opts.is_unique then
    .error { code := .ER_MODIFY_INDEX,
             args := [key_def.name, space_name, "Vinyl index must be unique"] }
  else if key_def.iid ≠ 0 then
    .error { code := .ER_MODIFY_INDEX,
             args := [key_def.name, space_name, "Vinyl secondary indexes are not supported"] }
  else keydefCheck_parts key_def.name space_name 0 key_def.parts

/-- The part has a type the engine takes and sits at field `i`. -/
def part_ok (i : Nat) (part : key_part) : Prop :=
  (part.type = .NUM ∨ part.type = .STRING) ∧ part.fieldno = i

instance (i : Nat) (part : key_part) : Decidable (part_ok i part) := by
  unfold part_ok
  infer_instance

/-- A two-part primary key over the fields 0 and 1 of types NUM and
STRING. -/
def primary_key_def : key_def :=
  { name := "primary", type := .TREE, opts := { is_unique := true }, iid := 0,
    parts := [{ fieldno := 0, type := .NUM }, { fieldno := 1, type := .STRING }] }

end vinyl

/-! # Theorems -/

namespace memtx


/-! ## Lists and positions -/

theorem yields_nil (n : Nat) : yields n [] = List.replicate n none := by
  induction n with
  | zero => rfl
  | succ n ih => simp [yields, ih, List.replicate_succ]

theorem getElem?_drop_cons {l : List tuple} {p : Nat} {x : tuple} (h : l[p]? = some x) :
    l.drop p = x :: l.drop (p + 1) := by
  have hp : p < l.length := by
    by_contra hc
    rw [List.getElem?_eq_none (by omega)] at h
    cases h
  rw [List.drop_eq_getElem_cons hp]
  rw [List.getElem?_eq_getElem hp] at h
  cases h
  rfl

theorem getElem?_take_snoc {l : List tuple} {p : Nat} {x : tuple} (h : l[p]? = some x) :
    l.take (p + 1) = l.take p ++ [x] := by
  rw [List.take_succ, h]
  rfl

/-! ## Exhausted iterators -/

/-- An iterator that will never yield again without re-initialisation. -/
theorem iterate_dummie (idx : MemtxTree) (n : Nat) (it : tree_iterator)
    (h : it.next = .dummie) : iterate idx n it = yields n [] := by
  induction n with
  | zero => rfl
  | succ n ih => simp [iterate, yields, iterator_next, h, tree_iterator_dummie, ih]

/-! ## Forward and backward walks over an unchanged tree -/

theorem iterate_forward (idx : MemtxTree) (n : Nat) :
    ∀ (p : Nat) (x : tuple) (it : tree_iterator), it.next = .next →
      it.tree_iterator = some p → it.current = some x → idx.tree.elems[p]? = some x →
      iterate idx n it = yields n (idx.tree.elems.drop (p + 1)) := by
  induction n with
  | zero => intros; rfl
  | succ n ih =>
    intro p x it hn hp hc hx
    by_cases hlt : p + 1 < idx.tree.elems.length
    · have hy : idx.tree.elems[p + 1]? = some (idx.tree.elems[p + 1]) :=
        List.getElem?_eq_getElem hlt
      rw [getElem?_drop_cons hy]
      have hstep : iterator_next idx it =
          (some (idx.tree.elems[p + 1]),
            { it with tree_iterator := some (p + 1), current := some (idx.tree.elems[p + 1]) }) := by
        simp [iterator_next, hn, tree_iterator_next, hc, hp, memtx_tree.get, hx,
          memtx_tree.next, hlt]
      simp only [iterate, yields, hstep]
      rw [ih (p + 1) (idx.tree.elems[p + 1])
        { it with tree_iterator := some (p + 1), current := some (idx.tree.elems[p + 1]) }
        hn rfl rfl hy]
    · have hnil : idx.tree.elems.drop (p + 1) = [] := List.drop_eq_nil_of_le (by omega)
      rw [hnil]
      have hstep : iterator_next idx it =
          (none, { it with tree_iterator := none, current := none, next := .dummie }) := by
        simp [iterator_next, hn, tree_iterator_next, hc, hp, memtx_tree.get, hx,
          memtx_tree.next, hlt]
      simp only [iterate, yields, hstep]
      rw [iterate_dummie idx n _ rfl]

theorem iterate_backward (idx : MemtxTree) (n : Nat) :
    ∀ (p : Nat) (x : tuple) (it : tree_iterator), it.next = .prev →
      it.tree_iterator = some p → it.current = some x → idx.tree.elems[p]? = some x →
      iterate idx n it = yields n (idx.tree.elems.take p).reverse := by
  induction n with
  | zero => intros; rfl
  | succ n ih =>
    intro p x it hn hp hc hx
    cases p with
    | zero =>
      have hstep : iterator_next idx it =
          (none, { it with tree_iterator := none, current := none, next := .dummie }) := by
        simp [iterator_next, hn, tree_iterator_prev, hc, hp, memtx_tree.get, hx,
          memtx_tree.prev]
      simp only [iterate, yields, hstep, List.take_zero, List.reverse_nil]
      rw [iterate_dummie idx n _ rfl]
    | succ q =>
      have hq : q < idx.tree.elems.length := by
        by_contra hc2
        rw [List.getElem?_eq_none (by omega)] at hx
        cases hx
      have hy : idx.tree.elems[q]? = some (idx.tree.elems[q]) := List.getElem?_eq_getElem hq
      have hstep : iterator_next idx it =
          (some (idx.tree.elems[q]),
            { it with tree_iterator := some q, current := some (idx.tree.elems[q]) }) := by
        simp [iterator_next, hn, tree_iterator_prev, hc, hp, memtx_tree.get, hx,
          memtx_tree.prev, hq]
      rw [getElem?_take_snoc hy]
      simp only [iterate, yields, hstep, List.reverse_append, List.reverse_cons, List.reverse_nil,
        List.nil_append, List.singleton_append]
      rw [ih q (idx.tree.elems[q])
        { it with tree_iterator := some q, current := some (idx.tree.elems[q]) } hn rfl rfl hy]

/-! ## Scans without a key -/

theorem iterate_start_forward (idx : MemtxTree) (it : tree_iterator) (n : Nat)
    (hn : it.next = .start) (hk : it.key_data.key = none) (ht : it.type = .ITER_GE) :
    iterate idx n it = yields n idx.tree.elems := by
  cases n with
  | zero => rfl
  | succ n =>
    cases hl : idx.tree.elems with
    | nil =>
      have hstep : iterator_next idx it =
          (none, { it with next := .dummie, tree_iterator := none }) := by
        simp [iterator_next, hn, tree_iterator_start, hk, ht, iterator_type_is_reverse,
          memtx_tree.first, hl, tree_iterator_start_finish, memtx_tree.get]
      simp only [iterate, yields, hstep]
      rw [iterate_dummie idx n _ rfl]
    | cons x xs =>
      have hx : idx.tree.elems[0]? = some x := by simp [hl]
      have hstep : iterator_next idx it =
          (some x, { it with next := .next, tree_iterator := some 0, current := some x }) := by
        simp [iterator_next, hn, tree_iterator_start, hk, ht, iterator_type_is_reverse,
          memtx_tree.first, hl, tree_iterator_start_finish, memtx_tree.get,
          tree_iterator_set_next_method]
      simp only [iterate, yields, hstep]
      rw [iterate_forward idx n 0 x
        { it with next := .next, tree_iterator := some 0, current := some x } rfl rfl rfl hx]
      simp [hl]

theorem iterate_start_backward (idx : MemtxTree) (it : tree_iterator) (n : Nat)
    (hn : it.next = .start) (hk : it.key_data.key = none) (ht : it.type = .ITER_LE) :
    iterate idx n it = yields n idx.tree.elems.reverse := by
  cases n with
  | zero => rfl
  | succ n =>
    by_cases hl : 0 < idx.tree.elems.length
    · have hlast : idx.tree.elems.length - 1 < idx.tree.elems.length := by omega
      have hx : idx.tree.elems[idx.tree.elems.length - 1]? =
          some (idx.tree.elems[idx.tree.elems.length - 1]) := List.getElem?_eq_getElem hlast
      have hstep : iterator_next idx it =
          (some (idx.tree.elems[idx.tree.elems.length - 1]),
            { it with next := .prev, tree_iterator := some (idx.tree.elems.length - 1),
                      current := some (idx.tree.elems[idx.tree.elems.length - 1]) }) := by
        simp [iterator_next, hn, tree_iterator_start, hk, ht, iterator_type_is_reverse,
          memtx_tree.last, hl, tree_iterator_start_finish, memtx_tree.get,
          tree_iterator_set_next_method, hlast]
      have hall : idx.tree.elems =
          idx.tree.elems.take (idx.tree.elems.length - 1) ++
            [idx.tree.elems[idx.tree.elems.length - 1]] := by
        rw [← getElem?_take_snoc hx]
        rw [List.take_of_length_le (by omega)]
      simp only [iterate, hstep]
      rw [iterate_backward idx n (idx.tree.elems.length - 1) _
        { it with next := .prev, tree_iterator := some (idx.tree.elems.length - 1),
                  current := some (idx.tree.elems[idx.tree.elems.length - 1]) } rfl rfl rfl hx]
      have hrev : idx.tree.elems.reverse =
          idx.tree.elems[idx.tree.elems.length - 1] ::
            (idx.tree.elems.take (idx.tree.elems.length - 1)).reverse := by
        conv_lhs => rw [hall]
        simp
      rw [hrev]
      rfl
    · have hnil : idx.tree.elems = [] := List.eq_nil_of_length_eq_zero (by omega)
      have hstep : iterator_next idx it =
          (none, { it with next := .dummie, tree_iterator := none }) := by
        simp [iterator_next, hn, tree_iterator_start, hk, ht, iterator_type_is_reverse,
          memtx_tree.last, hnil, tree_iterator_start_finish, memtx_tree.get]
      simp only [iterate, yields, hstep, hnil, List.reverse_nil]
      rw [iterate_dummie idx n _ rfl]

theorem iterate_init_forward (idx : MemtxTree) (it0 : tree_iterator) (type : iterator_type)
    (key : Option (List (Option Int))) (n : Nat) (ht : iterator_type_is_reverse type = false) :
    iterate idx n (idx.initIterator it0 type key 0) = yields n idx.tree.elems := by
  apply iterate_start_forward <;> simp [MemtxTree.initIterator, ht]

theorem iterate_init_backward (idx : MemtxTree) (it0 : tree_iterator) (type : iterator_type)
    (key : Option (List (Option Int))) (n : Nat) (ht : iterator_type_is_reverse type = true) :
    iterate idx n (idx.initIterator it0 type key 0) = yields n idx.tree.elems.reverse := by
  apply iterate_start_backward <;> simp [MemtxTree.initIterator, ht]

/-- C1: over any tree, a scan initialised with a forward type (ALL, GE, GT
or EQ) and no key (part_count = 0) yields, call after call on the unchanged
tree, every entry of the tree exactly once, in the tree's ascending
comparator order, and then no-result on every further call. -/
theorem forward_scan_without_key (idx : MemtxTree) (it0 : tree_iterator)
    (key : Option (List (Option Int))) (hs : tree_sorted idx.tree) :
    idx.tree.elems.Pairwise (fun a b => tuple_compare a b idx.tree.arg < 0) ∧
    ∀ n : Nat,
      iterate idx n (idx.initIterator it0 .ITER_ALL key 0) = yields n idx.tree.elems ∧
      iterate idx n (idx.initIterator it0 .ITER_GE key 0) = yields n idx.tree.elems ∧
      iterate idx n (idx.initIterator it0 .ITER_GT key 0) = yields n idx.tree.elems ∧
      iterate idx n (idx.initIterator it0 .ITER_EQ key 0) = yields n idx.tree.elems :=
  ⟨hs, fun n =>
    ⟨iterate_init_forward idx it0 _ key n rfl, iterate_init_forward idx it0 _ key n rfl,
     iterate_init_forward idx it0 _ key n rfl, iterate_init_forward idx it0 _ key n rfl⟩⟩

/-- Witness of C1: after inserting the keys 5, 1, 3 the ALL scan yields the
records 1, 3, 5 and then no-result. -/
theorem forward_scan_without_key_witness :
    tree_sorted idx531.tree ∧
    iterate idx531 4 (idx531.initIterator fresh_iterator .ITER_ALL none 0) =
      [some (rec_key 1), some (rec_key 3), some (rec_key 5), none] :=
  ⟨by decide,
   ((forward_scan_without_key idx531 fresh_iterator none (by decide)).2 4).1.trans (by decide)⟩

/-- C2: over any tree, a scan initialised with a reverse type (LE, LT or
REQ) and no key yields, on the unchanged tree, exactly the reverse of the
sequence `out` that the no-key ALL scan yields, and then no-result. -/
theorem reverse_scan_without_key (idx : MemtxTree) (it0 : tree_iterator)
    (key : Option (List (Option Int))) :
    ∃ out : List tuple,
      (∀ n : Nat, iterate idx n (idx.initIterator it0 .ITER_ALL key 0) = yields n out) ∧
      (∀ n : Nat, iterate idx n (idx.initIterator it0 .ITER_LE key 0) = yields n out.reverse) ∧
      (∀ n : Nat, iterate idx n (idx.initIterator it0 .ITER_LT key 0) = yields n out.reverse) ∧
      (∀ n : Nat, iterate idx n (idx.initIterator it0 .ITER_REQ key 0) = yields n out.reverse) :=
  ⟨idx.tree.elems, fun n => iterate_init_forward idx it0 _ key n rfl,
    fun n => iterate_init_backward idx it0 _ key n rfl,
    fun n => iterate_init_backward idx it0 _ key n rfl,
    fun n => iterate_init_backward idx it0 _ key n rfl⟩

/-! ## Exhaustion is terminal -/

theorem dead_iterator_next (idx : MemtxTree) (it : tree_iterator) (h : dead_iterator it) :
    (iterator_next idx it).1 = none ∧ dead_iterator (iterator_next idx it).2 := by
  rcases h with h | ⟨h1, h2⟩
  · simp [iterator_next, h, tree_iterator_dummie, dead_iterator]
  · cases hn : it.next <;>
      simp_all [iterator_next, tree_iterator_dummie, tree_iterator_next, tree_iterator_prev,
        tree_iterator_next_equal, tree_iterator_prev_equal, dead_iterator]

theorem dead_after_no_result (idx : MemtxTree) (it : tree_iterator)
    (h : (iterator_next idx it).1 = none) : dead_iterator (iterator_next idx it).2 := by
  revert h
  cases hn : it.next
  · simp only [iterator_next, hn, tree_iterator_start, tree_iterator_start_finish]
    split_ifs <;> (try split) <;> simp_all [dead_iterator, tree_iterator_set_next_method]
  · simp [iterator_next, hn, tree_iterator_dummie, dead_iterator]
  all_goals
    simp only [iterator_next, hn, tree_iterator_next, tree_iterator_prev,
      tree_iterator_next_equal, tree_iterator_prev_equal]
    split
    · intro _; right; simp_all
    · split_ifs <;> (try split) <;> (try split_ifs) <;> simp_all [dead_iterator]

/-! ## The comparator -/

theorem compare_field_ge (a b : Option Int) : -1 ≤ compare_field a b := by
  cases a <;> cases b <;> simp only [compare_field] <;> (try split_ifs) <;> omega

theorem compare_field_le (a b : Option Int) : compare_field a b ≤ 1 := by
  cases a <;> cases b <;> simp only [compare_field] <;> (try split_ifs) <;> omega

theorem compare_field_self (a : Option Int) : compare_field a a = 0 := by
  cases a <;> simp [compare_field]

theorem compare_field_swap (a b : Option Int) : compare_field b a = - compare_field a b := by
  cases a <;> cases b <;> simp only [compare_field] <;> (try split_ifs) <;> omega

theorem compare_field_eq_zero {a b : Option Int} (h : compare_field a b = 0) : a = b := by
  match a, b with
  | none, none => rfl
  | none, some _ => simp [compare_field] at h
  | some _, none => simp [compare_field] at h
  | some x, some y =>
    simp only [compare_field] at h
    split_ifs at h with h1 h2
    all_goals first
      | omega
      | (congr 1
         omega)

theorem compare_field_mono {a b : Option Int} (h : compare_field a b < 0) (k : Option Int) :
    compare_field a k ≤ compare_field b k ∧ (compare_field b k < 0 → compare_field a k < 0) := by
  cases a <;> cases b <;> cases k <;> simp only [compare_field] at h ⊢ <;>
    (try split_ifs at h ⊢) <;> (constructor <;> omega)

theorem compare_parts_ge (a b : List (Option Int)) : -1 ≤ compare_parts a b := by
  induction a generalizing b with
  | nil => simp [compare_parts]
  | cons x xs ih =>
    cases b with
    | nil => simp [compare_parts]
    | cons y ys =>
      simp only [compare_parts]
      split_ifs
      · exact compare_field_ge x y
      · exact ih ys

theorem compare_parts_le (a b : List (Option Int)) : compare_parts a b ≤ 1 := by
  induction a generalizing b with
  | nil => simp [compare_parts]
  | cons x xs ih =>
    cases b with
    | nil => simp [compare_parts]
    | cons y ys =>
      simp only [compare_parts]
      split_ifs
      · exact compare_field_le x y
      · exact ih ys

theorem compare_parts_self (a : List (Option Int)) : compare_parts a a = 0 := by
  induction a with
  | nil => simp [compare_parts]
  | cons x xs ih => simp [compare_parts, ih, compare_field_self]

theorem compare_parts_swap (a b : List (Option Int)) :
    compare_parts b a = - compare_parts a b := by
  induction a generalizing b with
  | nil => cases b <;> simp [compare_parts]
  | cons x xs ih =>
    cases b with
    | nil => simp [compare_parts]
    | cons y ys =>
      have hsw := compare_field_swap x y
      simp only [compare_parts]
      split_ifs <;> first | omega | exact ih ys

theorem compare_parts_eq_zero {a b : List (Option Int)} (hl : a.length = b.length)
    (h : compare_parts a b = 0) : a = b := by
  induction a generalizing b with
  | nil =>
    cases b with
    | nil => rfl
    | cons y ys => simp at hl
  | cons x xs ih =>
    cases b with
    | nil => simp at hl
    | cons y ys =>
      simp only [compare_parts] at h
      split_ifs at h with h1
      · exact absurd h h1
      · rw [compare_field_eq_zero (not_not.1 h1), ih (by simpa using hl) h]

theorem compare_parts_trans {a b c : List (Option Int)} (hab : a.length = b.length)
    (hbc : b.length = c.length) (h1 : compare_parts a b < 0) (h2 : compare_parts b c < 0) :
    compare_parts a c < 0 := by
  induction a generalizing b c with
  | nil =>
    cases b with
    | nil => simp [compare_parts] at h1
    | cons y ys => simp at hab
  | cons x xs ih =>
    cases b with
    | nil => simp at hab
    | cons y ys =>
      cases c with
      | nil => simp at hbc
      | cons z zs =>
        simp only [compare_parts] at h1 h2 ⊢
        by_cases hxy : compare_field x y = 0
        · have := compare_field_eq_zero hxy
          subst this
          rw [if_neg (not_not.2 hxy)] at h1
          by_cases hxz : compare_field x z = 0
          · rw [if_neg (not_not.2 hxz)] at h2 ⊢
            exact ih (by simpa using hab) (by simpa using hbc) h1 h2
          · rw [if_pos hxz] at h2 ⊢
            exact h2
        · rw [if_pos hxy] at h1
          have hm := compare_field_mono h1 z
          by_cases hyz : compare_field y z = 0
          · have := compare_field_eq_zero hyz
            subst this
            rw [if_pos hxy]
            exact h1
          · rw [if_pos hyz] at h2
            have hlt := hm.2 h2
            rw [if_pos (ne_of_lt hlt)]
            exact hlt

theorem compare_parts_mono {a b : List (Option Int)} (hab : a.length = b.length)
    (h : compare_parts a b < 0) (k : List (Option Int)) :
    compare_parts a k ≤ compare_parts b k := by
  induction a generalizing b k with
  | nil =>
    cases b with
    | nil => simp [compare_parts] at h
    | cons y ys => simp at hab
  | cons x xs ih =>
    cases b with
    | nil => simp at hab
    | cons y ys =>
      cases k with
      | nil => simp [compare_parts]
      | cons z zs =>
        have hge := compare_parts_ge ys zs
        have hle := compare_parts_le xs zs
        have h1 := compare_field_ge x z
        have h2 := compare_field_le x z
        have h3 := compare_field_ge y z
        have h4 := compare_field_le y z
        simp only [compare_parts] at h ⊢
        by_cases hxy : compare_field x y = 0
        · have := compare_field_eq_zero hxy
          subst this
          rw [if_neg (not_not.2 hxy)] at h
          split_ifs
          · exact le_refl _
          · exact ih (by simpa using hab) h zs
        · rw [if_pos hxy] at h
          have hm := compare_field_mono h z
          have hboth : compare_field x z = 0 → compare_field y z = 0 → False := by
            intro hx hy
            rw [compare_field_eq_zero hx, compare_field_eq_zero hy, compare_field_self] at h
            omega
          split_ifs with hx hy hy
          · omega
          · omega
          · omega
          · exact absurd (hboth (not_not.1 hx) (not_not.1 hy)) id

theorem compare_parts_append (xs ys k : List (Option Int)) (h : k.length ≤ xs.length) :
    compare_parts (xs ++ ys) k = compare_parts xs k := by
  induction xs generalizing k with
  | nil =>
    cases k with
    | nil => cases ys <;> simp [compare_parts]
    | cons z zs => simp at h
  | cons x xs ih =>
    cases k with
    | nil => simp [compare_parts]
    | cons z zs =>
      have hrec := ih zs (by simpa using h)
      rw [List.cons_append]
      simp only [compare_parts, hrec]

/-- Comparison of two concatenations whose first segments have the same
length: the first segments decide unless they are equal. -/
theorem compare_parts_append_both (ta tb xa xb : List (Option Int))
    (hl : ta.length = tb.length) :
    compare_parts (ta ++ xa) (tb ++ xb) =
      if compare_parts ta tb ≠ 0 then compare_parts ta tb else compare_parts xa xb := by
  induction ta generalizing tb with
  | nil =>
    cases tb with
    | nil => simp [compare_parts]
    | cons y ys => simp at hl
  | cons x xs ih =>
    cases tb with
    | nil => simp at hl
    | cons y ys =>
      have hrec := ih ys (by simpa using hl)
      rw [List.cons_append, List.cons_append]
      simp only [compare_parts, hrec]
      split_ifs <;> rfl

theorem ordering_key_length (u : Nat) (k : List (Option Int)) :
    (ordering_key u k).length = k.length := by
  unfold ordering_key
  split_ifs
  · simp
  · simp only [List.length_append, List.length_take, List.length_replicate, List.length_drop]
    omega

theorem compare_keys_eq (u : Nat) (ka kb : List (Option Int)) (hl : ka.length = kb.length) :
    compare_keys u ka kb = compare_parts (ordering_key u ka) (ordering_key u kb) := by
  unfold compare_keys ordering_key
  have hlt : (ka.take u).length = (kb.take u).length := by simp [hl]
  rw [compare_parts_append_both _ _ _ _ hlt]
  by_cases hc : compare_parts (ka.take u) (kb.take u) = 0
  · have heq := compare_parts_eq_zero hlt hc
    simp only [hc, ne_eq, not_true_eq_false, if_false]
    rw [← heq]
    split_ifs
    · rfl
    · have : (ka.drop u).length = (kb.drop u).length := by simp [hl]
      rw [this, compare_parts_self]
  · simp only [hc, ne_eq, not_false_eq_true, if_true]

theorem compare_keys_lex (u : Nat) (ka kb : List (Option Int)) (hl : ka.length = kb.length)
    (h : compare_keys u ka kb < 0) : compare_parts ka kb < 0 := by
  have hlt : (ka.take u).length = (kb.take u).length := by simp [hl]
  have hsplit := compare_parts_append_both (ka.take u) (kb.take u) (ka.drop u) (kb.drop u) hlt
  rw [List.take_append_drop, List.take_append_drop] at hsplit
  rw [hsplit]
  unfold compare_keys at h
  split_ifs at h ⊢ with h1 h2
  · exact h
  · exact h
  · omega

theorem tuple_extract_key_length (t : tuple) (d : key_def) :
    (tuple_extract_key t d).length = d.parts.length := by
  simp [tuple_extract_key]

theorem tuple_compare_eq (a b : tuple) (d : key_def) :
    tuple_compare a b d =
      compare_parts (ordering_key d.unique_part_count (tuple_extract_key a d))
        (ordering_key d.unique_part_count (tuple_extract_key b d)) :=
  compare_keys_eq _ _ _ (by simp [tuple_extract_key_length])

theorem ordering_key_length_eq (a b : tuple) (d : key_def) :
    (ordering_key d.unique_part_count (tuple_extract_key a d)).length =
      (ordering_key d.unique_part_count (tuple_extract_key b d)).length := by
  simp [ordering_key_length, tuple_extract_key_length]

theorem tuple_compare_self (a : tuple) (d : key_def) : tuple_compare a a d = 0 := by
  rw [tuple_compare_eq]
  exact compare_parts_self _

theorem tuple_compare_swap (a b : tuple) (d : key_def) :
    tuple_compare b a d = - tuple_compare a b d := by
  rw [tuple_compare_eq, tuple_compare_eq]
  exact compare_parts_swap _ _

theorem tuple_compare_trans {a b c : tuple} {d : key_def} (h1 : tuple_compare a b d < 0)
    (h2 : tuple_compare b c d < 0) : tuple_compare a c d < 0 := by
  rw [tuple_compare_eq] at h1 h2 ⊢
  exact compare_parts_trans (ordering_key_length_eq a b d) (ordering_key_length_eq b c d) h1 h2

theorem tuple_compare_eq_zero {a b : tuple} {d : key_def} (h : tuple_compare a b d = 0) :
    ordering_key d.unique_part_count (tuple_extract_key a d) =
      ordering_key d.unique_part_count (tuple_extract_key b d) := by
  rw [tuple_compare_eq] at h
  exact compare_parts_eq_zero (ordering_key_length_eq a b d) h

theorem tuple_compare_congr_left {a b : tuple} {d : key_def} (h : tuple_compare a b d = 0)
    (c : tuple) : tuple_compare a c d = tuple_compare b c d := by
  rw [tuple_compare_eq, tuple_compare_eq, tuple_compare_eq_zero h]

theorem tuple_compare_congr_right {a b : tuple} {d : key_def} (h : tuple_compare a b d = 0)
    (c : tuple) : tuple_compare c a d = tuple_compare c b d := by
  rw [tuple_compare_eq, tuple_compare_eq, tuple_compare_eq_zero h]

theorem compare_key_data_mono {a b : tuple} {d : key_def} (h : tuple_compare a b d < 0)
    (kd : memtx_tree_key_data) : compare_key_data a kd d ≤ compare_key_data b kd d :=
  compare_parts_mono (by simp [tuple_extract_key_length])
    (compare_keys_lex _ _ _ (by simp [tuple_extract_key_length]) h) _

/-- The user key definition and the tree's comparator agree on a search key
that is no longer than the user key definition, when the comparator extends
the user key definition. -/
theorem compare_key_data_user {u c : key_def} (hpre : u.parts <+: c.parts)
    (kd : memtx_tree_key_data) (hlen : kd.part_count ≤ u.parts.length) (t : tuple) :
    compare_key_data t kd c = compare_key_data t kd u := by
  obtain ⟨rest, hrest⟩ := hpre
  unfold compare_key_data tuple_compare_with_key tuple_extract_key
  rw [← hrest, List.map_append]
  apply compare_parts_append
  simp only [List.length_take, List.length_map]
  omega

/-! ## A sorted tree splits around a key -/

theorem key_split (d : key_def) (kd : memtx_tree_key_data) (l : List tuple)
    (hs : l.Pairwise (fun a b => tuple_compare a b d < 0)) :
    ∃ B E A : List tuple, l = B ++ (E ++ A) ∧
      (∀ b ∈ B, compare_key_data b kd d < 0) ∧
      (∀ e ∈ E, compare_key_data e kd d = 0) ∧
      (∀ a ∈ A, 0 < compare_key_data a kd d) := by
  induction l with
  | nil => exact ⟨[], [], [], rfl, by simp, by simp, by simp⟩
  | cons x xs ih =>
    rw [List.pairwise_cons] at hs
    obtain ⟨B, E, A, hl, hB, hE, hA⟩ := ih hs.2
    have hx : ∀ y ∈ xs, compare_key_data x kd d ≤ compare_key_data y kd d :=
      fun y hy => compare_key_data_mono (hs.1 y hy) kd
    rcases lt_trichotomy (compare_key_data x kd d) 0 with hlt | heq | hgt
    · refine ⟨x :: B, E, A, by simp [hl], ?_, hE, hA⟩
      intro b hb
      rcases List.mem_cons.1 hb with rfl | hb
      · exact hlt
      · exact hB b hb
    · have hBnil : B = [] := by
        cases B with
        | nil => rfl
        | cons b bs =>
          have h1 := hx b (by simp [hl])
          have h2 := hB b (by simp)
          omega
      subst hBnil
      refine ⟨[], x :: E, A, by simp [hl], by simp, ?_, hA⟩
      intro e he
      rcases List.mem_cons.1 he with rfl | he
      · exact heq
      · exact hE e he
    · have hBnil : B = [] := by
        cases B with
        | nil => rfl
        | cons b bs =>
          have h1 := hx b (by simp [hl])
          have h2 := hB b (by simp)
          omega
      have hEnil : E = [] := by
        cases E with
        | nil => rfl
        | cons e es =>
          have h1 := hx e (by simp [hl])
          have h2 := hE e (by simp)
          omega
      subst hBnil hEnil
      refine ⟨[], [], x :: A, by simp [hl], by simp, by simp, ?_⟩
      intro a ha
      rcases List.mem_cons.1 ha with rfl | ha
      · exact hgt
      · exact hA a ha

/-! ## Bounds on a split tree -/

theorem findIdx_split (p : tuple → Bool) (P Q : List tuple) (hP : ∀ y ∈ P, p y = false)
    (hQ : ∀ y ∈ Q, p y = true) : (P ++ Q).findIdx p = P.length := by
  induction P with
  | nil =>
    cases Q with
    | nil => rfl
    | cons q qs => simp [List.findIdx_cons, hQ q (by simp)]
  | cons x xs ih =>
    have hx : p x = false := hP x (by simp)
    have := ih (fun y hy => hP y (by simp [hy]))
    simp [List.findIdx_cons, hx, this]

theorem get_position (t : memtx_tree) (i : Nat) : t.get (t.position i) = t.elems[i]? := by
  unfold memtx_tree.position memtx_tree.get
  split_ifs with h
  · rfl
  · simp [List.getElem?_eq_none (Nat.le_of_not_lt h)]

theorem get_prev_position (t : memtx_tree) (i : Nat) (h : i ≤ t.elems.length) :
    t.get (t.prev (t.position i)) = if i = 0 then none else t.elems[i - 1]? := by
  unfold memtx_tree.position
  by_cases hlt : i < t.elems.length
  · by_cases h0 : i = 0
    · subst h0
      simp [hlt, memtx_tree.prev, memtx_tree.get]
    · simp [hlt, h0, memtx_tree.prev, memtx_tree.get]
  · have hi : i = t.elems.length := by omega
    by_cases h0 : 0 < t.elems.length
    · have : ¬ t.elems.length = 0 := by omega
      simp [hi, memtx_tree.prev, memtx_tree.last, h0, memtx_tree.get, this]
    · have : t.elems.length = 0 := by omega
      simp [hi, memtx_tree.prev, memtx_tree.last, memtx_tree.get, this]

theorem getElem?_split_head (P Q : List tuple) : (P ++ Q)[P.length]? = Q.head? := by
  rw [List.getElem?_append_right (le_refl _)]
  cases Q <;> simp

theorem getElem?_split_last (P Q : List tuple) :
    (if P.length = 0 then none else (P ++ Q)[P.length - 1]?) = P.getLast? := by
  rcases List.eq_nil_or_concat P with rfl | ⟨P', x, rfl⟩
  · rfl
  · rw [List.concat_eq_append, List.getLast?_concat]
    have h1 : ¬ (P' ++ [x]).length = 0 := by simp
    have h2 : (P' ++ [x]).length - 1 = P'.length := by simp
    rw [if_neg h1, h2, List.append_assoc, List.getElem?_append_right (le_refl _)]
    simp

theorem least_of_split (t : memtx_tree) (p : tuple → Prop) (P Q : List tuple)
    (hl : t.elems = P ++ Q) (hs : tree_sorted t) (hP : ∀ y ∈ P, ¬ p y) (hQ : ∀ y ∈ Q, p y) :
    least_entry t p Q.head? := by
  unfold tree_sorted at hs
  rw [hl] at hs
  cases Q with
  | nil =>
    simp only [List.head?_nil, least_entry, hl, List.append_nil]
    exact hP
  | cons x xs =>
    simp only [List.head?_cons, least_entry, hl]
    refine ⟨by simp, hQ x (by simp), ?_⟩
    intro y hy hpy
    rcases List.mem_append.1 hy with h | h
    · exact absurd hpy (hP y h)
    · rcases List.mem_cons.1 h with rfl | h
      · rw [tuple_compare_self]
      · have := (List.pairwise_cons.1 (List.pairwise_append.1 hs).2.1).1 y h
        omega

theorem greatest_of_split (t : memtx_tree) (p : tuple → Prop) (P Q : List tuple)
    (hl : t.elems = P ++ Q) (hs : tree_sorted t) (hP : ∀ y ∈ P, p y) (hQ : ∀ y ∈ Q, ¬ p y) :
    greatest_entry t p P.getLast? := by
  unfold tree_sorted at hs
  rw [hl] at hs
  rcases List.eq_nil_or_concat P with rfl | ⟨P', x, rfl⟩
  · simp only [List.getLast?_nil, greatest_entry, hl, List.nil_append]
    exact hQ
  · rw [List.concat_eq_append] at hs hl ⊢
    simp only [List.getLast?_concat, greatest_entry, hl]
    refine ⟨by simp, hP x (by simp), ?_⟩
    intro y hy hpy
    rcases List.mem_append.1 hy with h | h
    · rcases List.mem_append.1 h with h | h
      · have := (List.pairwise_append.1 (List.pairwise_append.1 hs).1).2.2 y h x (by simp)
        omega
      · have : y = x := by simpa using h
        rw [this, tuple_compare_self]
    · exact absurd hpy (hQ y h)

/-! ## The first result of a scan with a key -/

theorem start_finish_fst (idx : MemtxTree) (it : tree_iterator) :
    (tree_iterator_start_finish idx it).1 = idx.tree.get it.tree_iterator := by
  unfold tree_iterator_start_finish
  split <;> simp_all

theorem lower_index (t : memtx_tree) (kd : memtx_tree_key_data) (B E A : List tuple)
    (hl : t.elems = B ++ (E ++ A)) (hB : ∀ b ∈ B, compare_key_data b kd t.arg < 0)
    (hE : ∀ e ∈ E, compare_key_data e kd t.arg = 0)
    (hA : ∀ a ∈ A, 0 < compare_key_data a kd t.arg) :
    t.elems.findIdx (fun e => decide (0 ≤ compare_key_data e kd t.arg)) = B.length := by
  rw [hl]
  apply findIdx_split
  · intro y hy
    have := hB y hy
    simp only [decide_eq_false_iff_not]
    omega
  · intro y hy
    simp only [decide_eq_true_eq]
    rcases List.mem_append.1 hy with h | h
    · rw [hE y h]
    · exact le_of_lt (hA y h)

theorem upper_index (t : memtx_tree) (kd : memtx_tree_key_data) (B E A : List tuple)
    (hl : t.elems = B ++ (E ++ A)) (hB : ∀ b ∈ B, compare_key_data b kd t.arg < 0)
    (hE : ∀ e ∈ E, compare_key_data e kd t.arg = 0)
    (hA : ∀ a ∈ A, 0 < compare_key_data a kd t.arg) :
    t.elems.findIdx (fun e => decide (0 < compare_key_data e kd t.arg)) = (B ++ E).length := by
  rw [hl, ← List.append_assoc]
  apply findIdx_split
  · intro y hy
    simp only [decide_eq_false_iff_not]
    rcases List.mem_append.1 hy with h | h
    · have := hB y h
      omega
    · rw [hE y h]
      omega
  · intro y hy
    simp only [decide_eq_true_eq]
    exact hA y hy

theorem start_forward_lower_fst (idx : MemtxTree) (it0 : tree_iterator) (type : iterator_type)
    (key : List (Option Int)) (part_count : Nat) (hpc : 0 < part_count)
    (ht : type = .ITER_GE ∨ type = .ITER_ALL) :
    (iterator_next idx (idx.initIterator it0 type (some key) part_count)).1 =
      idx.tree.elems[idx.tree.elems.findIdx (fun e => decide
        (0 ≤ compare_key_data e { key := some key, part_count := part_count } idx.tree.arg))]? := by
  have hne : part_count ≠ 0 := by omega
  rw [← get_position]
  rcases ht with rfl | rfl <;>
    simp [iterator_next, MemtxTree.initIterator, hne, tree_iterator_start,
      iterator_type_is_reverse, start_finish_fst, memtx_tree.lowerBound]

theorem start_forward_upper_fst (idx : MemtxTree) (it0 : tree_iterator)
    (key : List (Option Int)) (part_count : Nat) (hpc : 0 < part_count) :
    (iterator_next idx (idx.initIterator it0 .ITER_GT (some key) part_count)).1 =
      idx.tree.elems[idx.tree.elems.findIdx (fun e => decide
        (0 < compare_key_data e { key := some key, part_count := part_count } idx.tree.arg))]? := by
  have hne : part_count ≠ 0 := by omega
  rw [← get_position]
  simp [iterator_next, MemtxTree.initIterator, hne, tree_iterator_start,
    iterator_type_is_reverse, start_finish_fst, memtx_tree.upperBound]

theorem start_backward_lower_fst (idx : MemtxTree) (it0 : tree_iterator)
    (key : List (Option Int)) (part_count : Nat) (hpc : 0 < part_count) :
    (iterator_next idx (idx.initIterator it0 .ITER_LT (some key) part_count)).1 =
      idx.tree.get (idx.tree.prev (idx.tree.position (idx.tree.elems.findIdx (fun e => decide
        (0 ≤ compare_key_data e { key := some key, part_count := part_count }
          idx.tree.arg))))) := by
  have hne : part_count ≠ 0 := by omega
  simp [iterator_next, MemtxTree.initIterator, hne, tree_iterator_start,
    iterator_type_is_reverse, start_finish_fst, memtx_tree.lowerBound]

theorem start_backward_upper_fst (idx : MemtxTree) (it0 : tree_iterator)
    (key : List (Option Int)) (part_count : Nat) (hpc : 0 < part_count) :
    (iterator_next idx (idx.initIterator it0 .ITER_LE (some key) part_count)).1 =
      idx.tree.get (idx.tree.prev (idx.tree.position (idx.tree.elems.findIdx (fun e => decide
        (0 < compare_key_data e { key := some key, part_count := part_count }
          idx.tree.arg))))) := by
  have hne : part_count ≠ 0 := by omega
  simp [iterator_next, MemtxTree.initIterator, hne, tree_iterator_start,
    iterator_type_is_reverse, start_finish_fst, memtx_tree.upperBound]

/-- C6: with a non-empty search key k, the first next() of a GE scan, and of
an ALL scan given a key, returns the least entry that is >= k, and the first
next() of a GT scan returns the least entry that is > k; each returns
no-result exactly when the tree has no such entry. -/
theorem first_result_forward_with_key (idx : MemtxTree) (it0 : tree_iterator)
    (key : List (Option Int)) (part_count : Nat) (hs : tree_sorted idx.tree) (hpc : 0 < part_count) :
    least_entry idx.tree
      (fun t => 0 ≤ compare_key_data t { key := some key, part_count := part_count }
        idx.tree.arg)
      (iterator_next idx (idx.initIterator it0 .ITER_GE (some key) part_count)).1 ∧
    least_entry idx.tree
      (fun t => 0 ≤ compare_key_data t { key := some key, part_count := part_count }
        idx.tree.arg)
      (iterator_next idx (idx.initIterator it0 .ITER_ALL (some key) part_count)).1 ∧
    least_entry idx.tree
      (fun t => 0 < compare_key_data t { key := some key, part_count := part_count }
        idx.tree.arg)
      (iterator_next idx (idx.initIterator it0 .ITER_GT (some key) part_count)).1 := by
  obtain ⟨B, E, A, hl, hB, hE, hA⟩ :=
    key_split idx.tree.arg { key := some key, part_count := part_count } idx.tree.elems hs
  have hlow : least_entry idx.tree
      (fun t => 0 ≤ compare_key_data t { key := some key, part_count := part_count }
        idx.tree.arg) (E ++ A).head? := by
    apply least_of_split idx.tree _ B (E ++ A) hl hs
    · intro y hy
      have := hB y hy
      omega
    · intro y hy
      rcases List.mem_append.1 hy with h | h
      · rw [hE y h]
      · exact le_of_lt (hA y h)
  have hupp : least_entry idx.tree
      (fun t => 0 < compare_key_data t { key := some key, part_count := part_count }
        idx.tree.arg) A.head? := by
    apply least_of_split idx.tree _ (B ++ E) A (by rw [hl, List.append_assoc]) hs
    · intro y hy
      rcases List.mem_append.1 hy with h | h
      · have := hB y h
        omega
      · rw [hE y h]
        omega
    · exact hA
  have hge : ∀ type : iterator_type, type = .ITER_GE ∨ type = .ITER_ALL →
      (iterator_next idx (idx.initIterator it0 type (some key) part_count)).1 =
        (E ++ A).head? := by
    intro type ht
    rw [start_forward_lower_fst idx it0 type key part_count hpc ht,
      lower_index idx.tree _ B E A hl hB hE hA]
    conv_lhs => rw [hl]
    exact getElem?_split_head B (E ++ A)
  have hgt : (iterator_next idx (idx.initIterator it0 .ITER_GT (some key) part_count)).1 =
      A.head? := by
    rw [start_forward_upper_fst idx it0 key part_count hpc,
      upper_index idx.tree _ B E A hl hB hE hA]
    conv_lhs => rw [hl, ← List.append_assoc]
    exact getElem?_split_head (B ++ E) A
  rw [hge _ (Or.inl rfl), hge _ (Or.inr rfl), hgt]
  exact ⟨hlow, hlow, hupp⟩

/-- Witness of C6: over the keys 1, 3, 5 the GE scan seeded with 2 starts at
3, GT seeded with 3 starts at 5 and GT seeded with 5 has no result. -/
theorem first_result_forward_with_key_witness :
    tree_sorted idx531.tree ∧ 0 < 1 ∧
    least_entry idx531.tree
      (fun t => 0 ≤ compare_key_data t { key := some [some 3], part_count := 1 } idx531.tree.arg)
      (iterator_next idx531 (idx531.initIterator fresh_iterator .ITER_GE (some [some 3]) 1)).1 ∧
    (iterator_next idx531 (idx531.initIterator fresh_iterator .ITER_GE (some [some 2]) 1)).1 =
      some (rec_key 3) ∧
    (iterator_next idx531 (idx531.initIterator fresh_iterator .ITER_GT (some [some 3]) 1)).1 =
      some (rec_key 5) ∧
    (iterator_next idx531 (idx531.initIterator fresh_iterator .ITER_GT (some [some 5]) 1)).1 = none :=
  ⟨by decide, by decide,
   (first_result_forward_with_key idx531 fresh_iterator [some 3] 1 (by decide) (by decide)).1,
   by decide, by decide, by decide⟩

/-- C7: with a non-empty search key k, the first next() of an LT scan
returns the greatest entry that is < k and the first next() of an LE scan
returns the greatest entry that is <= k; each returns no-result exactly when
the tree has no such entry. When every entry is below k (not above k for LE)
the bound search returns the invalid position and the step backward lands on
the last entry of the tree. -/
theorem first_result_reverse_with_key (idx : MemtxTree) (it0 : tree_iterator)
    (key : List (Option Int)) (part_count : Nat) (hs : tree_sorted idx.tree) (hpc : 0 < part_count) :
    greatest_entry idx.tree
      (fun t => compare_key_data t { key := some key, part_count := part_count }
        idx.tree.arg < 0)
      (iterator_next idx (idx.initIterator it0 .ITER_LT (some key) part_count)).1 ∧
    greatest_entry idx.tree
      (fun t => compare_key_data t { key := some key, part_count := part_count }
        idx.tree.arg ≤ 0)
      (iterator_next idx (idx.initIterator it0 .ITER_LE (some key) part_count)).1 ∧
    ((∀ t ∈ idx.tree.elems,
        compare_key_data t { key := some key, part_count := part_count } idx.tree.arg < 0) →
      (idx.tree.lowerBound { key := some key, part_count := part_count }).1 =
        idx.tree.invalid ∧
      (iterator_next idx (idx.initIterator it0 .ITER_LT (some key) part_count)).1 =
        idx.tree.elems.getLast?) ∧
    ((∀ t ∈ idx.tree.elems,
        compare_key_data t { key := some key, part_count := part_count } idx.tree.arg ≤ 0) →
      (idx.tree.upperBound { key := some key, part_count := part_count }).1 =
        idx.tree.invalid ∧
      (iterator_next idx (idx.initIterator it0 .ITER_LE (some key) part_count)).1 =
        idx.tree.elems.getLast?) := by
  obtain ⟨B, E, A, hl, hB, hE, hA⟩ :=
    key_split idx.tree.arg { key := some key, part_count := part_count } idx.tree.elems hs
  have hlt : (iterator_next idx (idx.initIterator it0 .ITER_LT (some key) part_count)).1 =
      B.getLast? := by
    rw [start_backward_lower_fst idx it0 key part_count hpc,
      lower_index idx.tree _ B E A hl hB hE hA, get_prev_position _ _ (by simp [hl])]
    conv_lhs => rw [hl]
    exact getElem?_split_last B (E ++ A)
  have hle : (iterator_next idx (idx.initIterator it0 .ITER_LE (some key) part_count)).1 =
      (B ++ E).getLast? := by
    rw [start_backward_upper_fst idx it0 key part_count hpc,
      upper_index idx.tree _ B E A hl hB hE hA, get_prev_position _ _ (by simp [hl])]
    conv_lhs => rw [hl, ← List.append_assoc]
    exact getElem?_split_last (B ++ E) A
  refine ⟨?_, ?_, ?_, ?_⟩
  · rw [hlt]
    apply greatest_of_split idx.tree _ B (E ++ A) hl hs hB
    intro y hy
    rcases List.mem_append.1 hy with h | h
    · rw [hE y h]
      omega
    · have := hA y h
      omega
  · rw [hle]
    apply greatest_of_split idx.tree _ (B ++ E) A (by rw [hl, List.append_assoc]) hs
    · intro y hy
      rcases List.mem_append.1 hy with h | h
      · exact le_of_lt (hB y h)
      · rw [hE y h]
    · intro y hy
      have := hA y hy
      omega
  · intro hall
    have hEA : E ++ A = [] := by
      cases hEA : E ++ A with
      | nil => rfl
      | cons x xs =>
        have hx : x ∈ E ++ A := by simp [hEA]
        have := hall x (by rw [hl]; exact List.mem_append_right _ hx)
        rcases List.mem_append.1 hx with h | h
        · rw [hE x h] at this
          omega
        · have := hA x h
          omega
    refine ⟨?_, by rw [hlt, hl, hEA, List.append_nil]⟩
    unfold memtx_tree.lowerBound
    simp only [lower_index idx.tree _ B E A hl hB hE hA]
    simp [memtx_tree.position, memtx_tree.invalid, hl, hEA]
  · intro hall
    have hAnil : A = [] := by
      cases A with
      | nil => rfl
      | cons x xs =>
        have := hall x (by simp [hl])
        have := hA x (by simp)
        omega
    refine ⟨?_, by rw [hle, hl, hAnil, List.append_nil]⟩
    unfold memtx_tree.upperBound
    simp only [upper_index idx.tree _ B E A hl hB hE hA]
    simp [memtx_tree.position, memtx_tree.invalid, hl, hAnil]

/-- Witness of C7: over the keys 1, 3, 5 the LT scan seeded with 9 starts at
the last entry 5, LT seeded with 3 starts at 1 and LE seeded with 3 at 3. -/
theorem first_result_reverse_with_key_witness :
    tree_sorted idx531.tree ∧ 0 < 1 ∧
    greatest_entry idx531.tree
      (fun t => compare_key_data t { key := some [some 9], part_count := 1 } idx531.tree.arg < 0)
      (iterator_next idx531 (idx531.initIterator fresh_iterator .ITER_LT (some [some 9]) 1)).1 ∧
    (iterator_next idx531 (idx531.initIterator fresh_iterator .ITER_LT (some [some 9]) 1)).1 =
      some (rec_key 5) ∧
    (iterator_next idx531 (idx531.initIterator fresh_iterator .ITER_LT (some [some 3]) 1)).1 =
      some (rec_key 1) ∧
    (iterator_next idx531 (idx531.initIterator fresh_iterator .ITER_LE (some [some 3]) 1)).1 =
      some (rec_key 3) ∧
    (iterator_next idx531 (idx531.initIterator fresh_iterator .ITER_LT (some [some 1]) 1)).1 = none :=
  ⟨by decide, by decide,
   (first_result_reverse_with_key idx531 fresh_iterator [some 9] 1 (by decide) (by decide)).1,
   by decide, by decide, by decide, by decide⟩

/-! ## Equality scans -/

theorem iterate_forward_equal (idx : MemtxTree) (kd : memtx_tree_key_data) (n : Nat) :
    ∀ (p : Nat) (x : tuple) (it : tree_iterator), it.next = .next_equal →
      it.key_data = kd → it.tree_iterator = some p → it.current = some x →
      idx.tree.elems[p]? = some x →
      iterate idx n it = yields n ((idx.tree.elems.drop (p + 1)).takeWhile
        (fun t => decide (compare_key_data t kd idx.index_def.key_def = 0))) := by
  induction n with
  | zero => intros; rfl
  | succ n ih =>
    intro p x it hn hkd hp hc hx
    by_cases hlt : p + 1 < idx.tree.elems.length
    · have hy : idx.tree.elems[p + 1]? = some (idx.tree.elems[p + 1]) :=
        List.getElem?_eq_getElem hlt
      rw [getElem?_drop_cons hy]
      by_cases hm : compare_key_data (idx.tree.elems[p + 1]) kd idx.index_def.key_def = 0
      · have hstep : iterator_next idx it =
            (some (idx.tree.elems[p + 1]),
              { it with tree_iterator := some (p + 1),
                        current := some (idx.tree.elems[p + 1]) }) := by
          simp [iterator_next, hn, tree_iterator_next_equal, hc, hp, memtx_tree.get, hx,
            memtx_tree.next, hlt, hkd, hm]
        simp only [iterate, hstep]
        rw [ih (p + 1) (idx.tree.elems[p + 1])
          { it with tree_iterator := some (p + 1), current := some (idx.tree.elems[p + 1]) }
          hn hkd rfl rfl hy]
        rw [List.takeWhile_cons_of_pos (by simpa using hm)]
        rfl
      · have hstep : iterator_next idx it =
            (none, { it with tree_iterator := some (p + 1), current := none,
                             next := .dummie }) := by
          simp [iterator_next, hn, tree_iterator_next_equal, hc, hp, memtx_tree.get, hx,
            memtx_tree.next, hlt, hkd, hm]
        simp only [iterate, hstep]
        rw [iterate_dummie idx n _ rfl]
        rw [List.takeWhile_cons_of_neg (by simpa using hm)]
        rfl
    · have hnil : idx.tree.elems.drop (p + 1) = [] := List.drop_eq_nil_of_le (by omega)
      rw [hnil]
      have hstep : iterator_next idx it =
          (none, { it with tree_iterator := none, current := none, next := .dummie }) := by
        simp [iterator_next, hn, tree_iterator_next_equal, hc, hp, memtx_tree.get, hx,
          memtx_tree.next, hlt]
      simp only [iterate, yields, hstep, List.takeWhile_nil]
      rw [iterate_dummie idx n _ rfl]

theorem iterate_backward_equal (idx : MemtxTree) (kd : memtx_tree_key_data) (n : Nat) :
    ∀ (p : Nat) (x : tuple) (it : tree_iterator), it.next = .prev_equal →
      it.key_data = kd → it.tree_iterator = some p → it.current = some x →
      idx.tree.elems[p]? = some x →
      iterate idx n it = yields n ((idx.tree.elems.take p).reverse.takeWhile
        (fun t => decide (compare_key_data t kd idx.index_def.key_def = 0))) := by
  induction n with
  | zero => intros; rfl
  | succ n ih =>
    intro p x it hn hkd hp hc hx
    cases p with
    | zero =>
      have hstep : iterator_next idx it =
          (none, { it with tree_iterator := none, current := none, next := .dummie }) := by
        simp [iterator_next, hn, tree_iterator_prev_equal, hc, hp, memtx_tree.get, hx,
          memtx_tree.prev]
      simp only [iterate, yields, hstep, List.take_zero, List.reverse_nil, List.takeWhile_nil]
      rw [iterate_dummie idx n _ rfl]
    | succ q =>
      have hq : q < idx.tree.elems.length := by
        by_contra hc2
        rw [List.getElem?_eq_none (by omega)] at hx
        cases hx
      have hy : idx.tree.elems[q]? = some (idx.tree.elems[q]) := List.getElem?_eq_getElem hq
      rw [getElem?_take_snoc hy]
      by_cases hm : compare_key_data (idx.tree.elems[q]) kd idx.index_def.key_def = 0
      · have hstep : iterator_next idx it =
            (some (idx.tree.elems[q]),
              { it with tree_iterator := some q, current := some (idx.tree.elems[q]) }) := by
          simp [iterator_next, hn, tree_iterator_prev_equal, hc, hp, memtx_tree.get, hx,
            memtx_tree.prev, hq, hkd, hm]
        simp only [iterate, hstep]
        rw [ih q (idx.tree.elems[q])
          { it with tree_iterator := some q, current := some (idx.tree.elems[q]) }
          hn hkd rfl rfl hy]
        rw [List.reverse_append, List.reverse_singleton, List.singleton_append,
          List.takeWhile_cons_of_pos (by simpa using hm)]
        rfl
      · have hstep : iterator_next idx it =
            (none, { it with tree_iterator := some q, current := none, next := .dummie }) := by
          simp [iterator_next, hn, tree_iterator_prev_equal, hc, hp, memtx_tree.get, hx,
            memtx_tree.prev, hq, hkd, hm]
        simp only [iterate, hstep]
        rw [iterate_dummie idx n _ rfl]
        rw [List.reverse_append, List.reverse_singleton, List.singleton_append,
          List.takeWhile_cons_of_neg (by simpa using hm)]
        rfl

theorem takeWhile_split (p : tuple → Bool) (P Q : List tuple) (hP : ∀ y ∈ P, p y = true)
    (hQ : ∀ y ∈ Q, p y = false) : (P ++ Q).takeWhile p = P := by
  induction P with
  | nil =>
    cases Q with
    | nil => rfl
    | cons q qs => simp [List.takeWhile_cons, hQ q (by simp)]
  | cons x xs ih =>
    simp [List.takeWhile_cons, hP x (by simp), ih (fun y hy => hP y (by simp [hy]))]

theorem filter_split (p : tuple → Bool) (B E A : List tuple) (hB : ∀ y ∈ B, p y = false)
    (hE : ∀ y ∈ E, p y = true) (hA : ∀ y ∈ A, p y = false) :
    (B ++ (E ++ A)).filter p = E := by
  have h1 : B.filter p = [] := List.filter_eq_nil_iff.2 (by simpa using hB)
  have h2 : A.filter p = [] := List.filter_eq_nil_iff.2 (by simpa using hA)
  have h3 : E.filter p = E := List.filter_eq_self.2 hE
  rw [List.filter_append, List.filter_append, h1, h2, h3]
  simp

theorem exact_split (t : memtx_tree) (kd : memtx_tree_key_data) (B E A : List tuple)
    (hl : t.elems = B ++ (E ++ A)) (hB : ∀ b ∈ B, compare_key_data b kd t.arg < 0)
    (hA : ∀ a ∈ A, 0 < compare_key_data a kd t.arg) (hne : E = []) :
    t.elems.any (fun e => decide (compare_key_data e kd t.arg = 0)) = false := by
  rw [hl, hne, List.nil_append, List.any_eq_false]
  intro y hy
  simp only [decide_eq_true_eq]
  rcases List.mem_append.1 hy with h | h
  · have := hB y h
    omega
  · have := hA y h
    omega

theorem exact_split_found (t : memtx_tree) (kd : memtx_tree_key_data) (B E A : List tuple)
    (hl : t.elems = B ++ (E ++ A)) (hE : ∀ e ∈ E, compare_key_data e kd t.arg = 0)
    (e : tuple) (he : e ∈ E) :
    t.elems.any (fun e => decide (compare_key_data e kd t.arg = 0)) = true := by
  rw [List.any_eq_true]
  exact ⟨e, by rw [hl]; simp [he], by simp [hE e he]⟩

theorem user_key_def_extends (idx : MemtxTree)
    (harg : idx.tree.arg = (MemtxTree.create idx.index_def).cmp_def)
    (hext : idx.index_def.key_def.parts <+: idx.index_def.cmp_def.parts) :
    idx.index_def.key_def.parts <+: idx.tree.arg.parts := by
  rw [harg]
  unfold MemtxTree.create
  simp only
  split_ifs
  · exact List.prefix_refl _
  · exact hext

theorem eq_scan_iterate (idx : MemtxTree) (it0 : tree_iterator) (key : List (Option Int))
    (part_count : Nat) (hs : tree_sorted idx.tree)
    (hpre : idx.index_def.key_def.parts <+: idx.tree.arg.parts)
    (hpc : 0 < part_count) (hlen : part_count ≤ idx.index_def.key_def.parts.length) (n : Nat) :
    iterate idx n (idx.initIterator it0 .ITER_EQ (some key) part_count) =
      yields n (matching_entries idx key part_count) := by
  have hu := compare_key_data_user hpre { key := some key, part_count := part_count } hlen
  obtain ⟨B, E, A, hl, hB, hE, hA⟩ :=
    key_split idx.tree.arg { key := some key, part_count := part_count } idx.tree.elems hs
  have hmatch : matching_entries idx key part_count = E := by
    unfold matching_entries
    rw [hl]
    apply filter_split
    · intro y hy
      have h1 := hB y hy
      rw [hu] at h1
      simp only [decide_eq_false_iff_not]
      exact ne_of_lt h1
    · intro y hy
      have h1 := hE y hy
      rw [hu] at h1
      simpa using h1
    · intro y hy
      have h1 := hA y hy
      rw [hu] at h1
      simp only [decide_eq_false_iff_not]
      exact ne_of_gt h1
  have hne : part_count ≠ 0 := by omega
  have hlo := lower_index idx.tree _ B E A hl hB hE hA
  rw [hmatch]
  cases n with
  | zero => rfl
  | succ n =>
    cases E with
    | nil =>
      have hex := exact_split idx.tree _ B [] A hl hB hA rfl
      have hstep : (iterator_next idx (idx.initIterator it0 .ITER_EQ (some key) part_count)) =
          (none, { it0 with
            next := .dummie, tree_iterator := idx.tree.position B.length,
            type := .ITER_EQ, key_data := { key := some key, part_count := part_count },
            current := none }) := by
        simp [iterator_next, MemtxTree.initIterator, hne, tree_iterator_start,
          memtx_tree.lowerBound, hex, hlo]
      simp only [iterate, yields, hstep]
      rw [iterate_dummie idx n _ rfl]
    | cons e E' =>
      have hex := exact_split_found idx.tree _ B (e :: E') A hl hE e (by simp)
      have hlt : B.length < idx.tree.elems.length := by simp [hl]
      have hget : idx.tree.elems[B.length]? = some e := by
        rw [hl, getElem?_split_head]
        rfl
      have hstep : (iterator_next idx (idx.initIterator it0 .ITER_EQ (some key) part_count)) =
          (some e, { it0 with
            next := .next_equal, tree_iterator := some B.length,
            type := .ITER_EQ, key_data := { key := some key, part_count := part_count },
            current := some e }) := by
        simp [iterator_next, MemtxTree.initIterator, hne, tree_iterator_start,
          memtx_tree.lowerBound, hex, hlo, iterator_type_is_reverse,
          tree_iterator_start_finish, memtx_tree.position, hlt, memtx_tree.get, hget,
          tree_iterator_set_next_method]
      simp only [iterate, yields, hstep]
      rw [iterate_forward_equal idx { key := some key, part_count := part_count } n B.length e
        _ rfl rfl rfl rfl hget]
      have hdrop : idx.tree.elems.drop (B.length + 1) = E' ++ A := by
        rw [hl, List.drop_append]
        rfl
      rw [hdrop, takeWhile_split]
      · intro y hy
        have h1 := hE y (by simp [hy])
        rw [hu] at h1
        simpa using h1
      · intro y hy
        have h1 := hA y hy
        rw [hu] at h1
        simp only [decide_eq_false_iff_not]
        exact ne_of_gt h1

theorem prev_position_pos (t : memtx_tree) (i : Nat) (hle : i ≤ t.elems.length) (hpos : 0 < i) :
    t.prev (t.position i) = some (i - 1) := by
  unfold memtx_tree.position
  by_cases hlt : i < t.elems.length
  · have : i ≠ 0 := by omega
    simp [hlt, memtx_tree.prev, this]
  · have hi : i = t.elems.length := by omega
    have h0 : 0 < t.elems.length := by omega
    simp [hi, memtx_tree.prev, memtx_tree.last, h0]

theorem req_scan_iterate (idx : MemtxTree) (it0 : tree_iterator) (key : List (Option Int))
    (part_count : Nat) (hs : tree_sorted idx.tree)
    (hpre : idx.index_def.key_def.parts <+: idx.tree.arg.parts)
    (hpc : 0 < part_count) (hlen : part_count ≤ idx.index_def.key_def.parts.length) (n : Nat) :
    iterate idx n (idx.initIterator it0 .ITER_REQ (some key) part_count) =
      yields n (matching_entries idx key part_count).reverse := by
  have hu := compare_key_data_user hpre { key := some key, part_count := part_count } hlen
  obtain ⟨B, E, A, hl, hB, hE, hA⟩ :=
    key_split idx.tree.arg { key := some key, part_count := part_count } idx.tree.elems hs
  have hmatch : matching_entries idx key part_count = E := by
    unfold matching_entries
    rw [hl]
    apply filter_split
    · intro y hy
      have h1 := hB y hy
      rw [hu] at h1
      simp only [decide_eq_false_iff_not]
      exact ne_of_lt h1
    · intro y hy
      have h1 := hE y hy
      rw [hu] at h1
      simpa using h1
    · intro y hy
      have h1 := hA y hy
      rw [hu] at h1
      simp only [decide_eq_false_iff_not]
      exact ne_of_gt h1
  have hne : part_count ≠ 0 := by omega
  have hhi := upper_index idx.tree _ B E A hl hB hE hA
  rw [hmatch]
  cases n with
  | zero => rfl
  | succ n =>
    rcases List.eq_nil_or_concat E with rfl | ⟨E', e, rfl⟩
    · have hex := exact_split idx.tree _ B [] A hl hB hA rfl
      have hstep : (iterator_next idx (idx.initIterator it0 .ITER_REQ (some key) part_count)) =
          (none, { it0 with
            next := .dummie, tree_iterator := idx.tree.position (B ++ []).length,
            type := .ITER_REQ, key_data := { key := some key, part_count := part_count },
            current := none }) := by
        simp [iterator_next, MemtxTree.initIterator, hne, tree_iterator_start,
          memtx_tree.upperBound, hex, hhi]
      simp only [iterate, yields, hstep, List.reverse_nil]
      rw [iterate_dummie idx n _ rfl]
    · rw [List.concat_eq_append] at hl hE hhi ⊢
      have hex := exact_split_found idx.tree _ B (E' ++ [e]) A hl hE e (by simp)
      have hle : (B ++ (E' ++ [e])).length ≤ idx.tree.elems.length := by simp [hl]
      have hprev := prev_position_pos idx.tree (B ++ (E' ++ [e])).length hle (by simp)
      have hidx : (B ++ (E' ++ [e])).length - 1 = (B ++ E').length := by simp
      rw [hidx] at hprev
      have hl2 : idx.tree.elems = (B ++ E') ++ (e :: A) := by simp [hl]
      have hget : idx.tree.elems[(B ++ E').length]? = some e := by
        rw [hl2, getElem?_split_head]
        rfl
      have hstep : (iterator_next idx (idx.initIterator it0 .ITER_REQ (some key) part_count)) =
          (some e, { it0 with
            next := .prev_equal, tree_iterator := some (B ++ E').length,
            type := .ITER_REQ, key_data := { key := some key, part_count := part_count },
            current := some e }) := by
        have hub : idx.tree.upperBound { key := some key, part_count := part_count } =
            (idx.tree.position (B ++ (E' ++ [e])).length, true) := by
          unfold memtx_tree.upperBound
          rw [hex, hhi]
        have hprev2 : idx.tree.prev (idx.tree.position (B.length + (E'.length + 1))) =
            some (B.length + E'.length) := by
          simpa using hprev
        have hget2 : idx.tree.elems[B.length + E'.length]? = some e := by
          simpa using hget
        simp [iterator_next, MemtxTree.initIterator, hne, tree_iterator_start,
          hub, iterator_type_is_reverse, hprev2,
          tree_iterator_start_finish, memtx_tree.get, hget2, tree_iterator_set_next_method]
      simp only [iterate, hstep]
      rw [iterate_backward_equal idx { key := some key, part_count := part_count } n
        (B ++ E').length e _ rfl rfl rfl rfl hget]
      have htake : idx.tree.elems.take (B ++ E').length = B ++ E' := by
        rw [hl2, List.take_left]
      rw [htake, List.reverse_append, takeWhile_split]
      · rw [List.reverse_append, List.reverse_singleton, List.singleton_append]
        rfl
      · intro y hy
        have h1 := hE y (by simp [List.mem_reverse.1 hy])
        rw [hu] at h1
        simpa using h1
      · intro y hy
        have h1 := hB y (List.mem_reverse.1 hy)
        rw [hu] at h1
        simp only [decide_eq_false_iff_not]
        exact ne_of_lt h1

theorem iterate_live_dead (later : List MemtxTree) :
    ∀ it : tree_iterator, dead_iterator it →
      iterate_live later it = List.replicate later.length none := by
  induction later with
  | nil => intros; rfl
  | cons idx rest ih =>
    intro it h
    have hstep := dead_iterator_next idx it h
    simp only [iterate_live, List.length_cons, List.replicate_succ, hstep.1]
    rw [ih _ hstep.2]

/-- C3: exhausted is terminal. For every iterator state, once a call of
next() (the first, positioning call included) has returned no-result, every
later call returns no-result, whatever state the index is in at each of the
later calls (any inserts and deletes may have happened in between). -/
theorem exhausted_is_terminal (idx : MemtxTree) (it : tree_iterator)
    (h : (iterator_next idx it).1 = none) (later : List MemtxTree) :
    iterate_live later (iterator_next idx it).2 = List.replicate later.length none :=
  iterate_live_dead later _ (dead_after_no_result idx it h)

/-- Witness of C3: the EQ scan seeded with 4 over the keys 1, 3, 5 is
exhausted by its first call and stays so after key 4 is inserted. -/
theorem exhausted_is_terminal_witness :
    (iterator_next idx531 (idx531.initIterator fresh_iterator .ITER_EQ (some [some 4]) 1)).1 = none ∧
    iterate_live [insert_key idx531 4, idx531_without_1]
        (iterator_next idx531 (idx531.initIterator fresh_iterator .ITER_EQ (some [some 4]) 1)).2 =
      [none, none] :=
  ⟨by decide,
   exhausted_is_terminal idx531 (idx531.initIterator fresh_iterator .ITER_EQ (some [some 4]) 1)
     (by decide) [insert_key idx531 4, idx531_without_1]⟩

theorem matching_entries_sorted (idx : MemtxTree) (key : List (Option Int)) (part_count : Nat)
    (hs : tree_sorted idx.tree) :
    (matching_entries idx key part_count).Pairwise
      (fun a b => tuple_compare a b idx.tree.arg < 0) :=
  List.Pairwise.sublist (List.filter_sublist _) hs

theorem first_of_iterate (idx : MemtxTree) (it : tree_iterator) (out : List tuple)
    (h : iterate idx 1 it = yields 1 out) : (iterator_next idx it).1 = out.head? := by
  cases out with
  | nil => simpa [iterate, yields] using h
  | cons x xs => simpa [iterate, yields] using h

theorem matching_entries_nil (idx : MemtxTree) (key : List (Option Int)) (part_count : Nat)
    (h : ∀ t ∈ idx.tree.elems,
      tuple_compare_with_key t key part_count idx.index_def.key_def ≠ 0) :
    matching_entries idx key part_count = [] := by
  unfold matching_entries
  rw [List.filter_eq_nil_iff]
  intro t ht
  simpa using h t ht

/-- C4: with a non-empty search key (of at most as many parts as the user
key definition has, over an index whose comparator is the one its
constructor selects and extends the user key definition), an EQ scan over an
unchanged tree yields exactly the entries whose key equals the search key
under the user key definition, in ascending order, and then no-result; if no
entry equals the key the very first call returns no-result. -/
theorem eq_scan_with_key (idx : MemtxTree) (it0 : tree_iterator) (key : List (Option Int))
    (part_count : Nat) (hs : tree_sorted idx.tree)
    (harg : idx.tree.arg = (MemtxTree.create idx.index_def).cmp_def)
    (hext : idx.index_def.key_def.parts <+: idx.index_def.cmp_def.parts)
    (hpc : 0 < part_count) (hlen : part_count ≤ idx.index_def.key_def.parts.length) :
    (∀ n : Nat, iterate idx n (idx.initIterator it0 .ITER_EQ (some key) part_count) =
      yields n (matching_entries idx key part_count)) ∧
    (matching_entries idx key part_count).Pairwise
      (fun a b => tuple_compare a b idx.tree.arg < 0) ∧
    ((∀ t ∈ idx.tree.elems,
        tuple_compare_with_key t key part_count idx.index_def.key_def ≠ 0) →
      (iterator_next idx (idx.initIterator it0 .ITER_EQ (some key) part_count)).1 = none) := by
  have hpre := user_key_def_extends idx harg hext
  refine ⟨fun n => eq_scan_iterate idx it0 key part_count hs hpre hpc hlen n,
    matching_entries_sorted idx key part_count hs, ?_⟩
  intro hno
  rw [first_of_iterate idx _ _ (eq_scan_iterate idx it0 key part_count hs hpre hpc hlen 1),
    matching_entries_nil idx key part_count hno]
  rfl

/-- Witness of C4: over the keys 1, 3, 5 the EQ scan seeded with 4 yields
nothing; over the non-unique index holding (6,4), (7,1), (7,2), (8,3) the EQ
scan seeded with 7 yields (7,1), (7,2) and then no-result. -/
theorem eq_scan_with_key_witness :
    tree_sorted idx531.tree ∧
    iterate idx531 2 (idx531.initIterator fresh_iterator .ITER_EQ (some [some 4]) 1) = [none, none] ∧
    iterate idx_pairs 3 (idx_pairs.initIterator fresh_iterator .ITER_EQ (some [some 7]) 1) =
      [some (rec_pair 7 1), some (rec_pair 7 2), none] :=
  ⟨by decide,
   ((eq_scan_with_key idx531 fresh_iterator [some 4] 1 (by decide) rfl (List.prefix_refl _)
      (by decide) (by decide)).1 2).trans (by decide),
   by decide⟩

/-- C5: with a non-empty search key (of at most as many parts as the user
key definition has, over an index whose comparator is the one its
constructor selects and extends the user key definition), a REQ scan over an
unchanged tree yields exactly the entries whose key equals the search key,
in descending order, the reverse of what the EQ scan yields for the same
key, and then no-result; if no entry equals the key the first call returns
no-result. -/
theorem req_scan_with_key (idx : MemtxTree) (it0 : tree_iterator) (key : List (Option Int))
    (part_count : Nat) (hs : tree_sorted idx.tree)
    (harg : idx.tree.arg = (MemtxTree.create idx.index_def).cmp_def)
    (hext : idx.index_def.key_def.parts <+: idx.index_def.cmp_def.parts)
    (hpc : 0 < part_count) (hlen : part_count ≤ idx.index_def.key_def.parts.length) :
    (∀ n : Nat, iterate idx n (idx.initIterator it0 .ITER_REQ (some key) part_count) =
      yields n (matching_entries idx key part_count).reverse) ∧
    (∀ n : Nat, iterate idx n (idx.initIterator it0 .ITER_EQ (some key) part_count) =
      yields n (matching_entries idx key part_count)) ∧
    ((∀ t ∈ idx.tree.elems,
        tuple_compare_with_key t key part_count idx.index_def.key_def ≠ 0) →
      (iterator_next idx (idx.initIterator it0 .ITER_REQ (some key) part_count)).1 = none) := by
  have hpre := user_key_def_extends idx harg hext
  refine ⟨fun n => req_scan_iterate idx it0 key part_count hs hpre hpc hlen n,
    fun n => eq_scan_iterate idx it0 key part_count hs hpre hpc hlen n, ?_⟩
  intro hno
  rw [first_of_iterate idx _ _ (req_scan_iterate idx it0 key part_count hs hpre hpc hlen 1),
    matching_entries_nil idx key part_count hno]
  rfl

/-- Witness of C5: over the non-unique index holding (6,4), (7,1), (7,2),
(8,3) the REQ scan seeded with 7 yields (7,2), (7,1) and then no-result. -/
theorem req_scan_with_key_witness :
    tree_sorted idx_pairs.tree ∧
    iterate idx_pairs 3 (idx_pairs.initIterator fresh_iterator .ITER_REQ (some [some 7]) 1) =
      [some (rec_pair 7 2), some (rec_pair 7 1), none] :=
  ⟨by decide,
   ((req_scan_with_key idx_pairs fresh_iterator [some 7] 1 (by decide) rfl ⟨[1], rfl⟩
      (by decide) (by decide)).1 3).trans (by decide)⟩

/-! ## Re-synchronisation after the tree has changed -/

theorem findIdx_cut (d : key_def) (p : tuple → Bool) (l : List tuple)
    (hs : l.Pairwise (fun a b => tuple_compare a b d < 0))
    (hmono : ∀ a b, tuple_compare a b d < 0 → p a = true → p b = true) :
    ∃ P Q : List tuple, l = P ++ Q ∧ (∀ y ∈ P, p y = false) ∧ (∀ y ∈ Q, p y = true) ∧
      l.findIdx p = P.length := by
  induction l with
  | nil => exact ⟨[], [], rfl, by simp, by simp, rfl⟩
  | cons a l ih =>
    rw [List.pairwise_cons] at hs
    by_cases hpa : p a = true
    · refine ⟨[], a :: l, rfl, by simp, ?_, by simp [List.findIdx_cons, hpa]⟩
      intro y hy
      rcases List.mem_cons.1 hy with rfl | h
      · exact hpa
      · exact hmono a y (hs.1 y h) hpa
    · obtain ⟨P, Q, hl, hP, hQ, hidx⟩ := ih hs.2
      have hpa' : p a = false := by simpa using hpa
      refine ⟨a :: P, Q, by simp [hl], ?_, hQ, by simp [List.findIdx_cons, hpa', hidx]⟩
      intro y hy
      rcases List.mem_cons.1 hy with rfl | h
      · exact hpa'
      · exact hP y h

theorem above_mono (d : key_def) (x a b : tuple) (hab : tuple_compare a b d < 0)
    (ha : decide (0 < tuple_compare a x d) = true) : decide (0 < tuple_compare b x d) = true := by
  simp only [decide_eq_true_eq] at ha ⊢
  have h1 : tuple_compare x a d < 0 := by
    have := tuple_compare_swap a x d
    omega
  have h2 := tuple_compare_trans h1 hab
  have := tuple_compare_swap x b d
  omega

theorem not_below_mono (d : key_def) (x a b : tuple) (hab : tuple_compare a b d < 0)
    (ha : decide (0 ≤ tuple_compare a x d) = true) : decide (0 ≤ tuple_compare b x d) = true := by
  simp only [decide_eq_true_eq] at ha ⊢
  rcases lt_or_eq_of_le ha with h | h
  · have h1 : tuple_compare x a d < 0 := by
      have := tuple_compare_swap a x d
      omega
    have h2 := tuple_compare_trans h1 hab
    have := tuple_compare_swap x b d
    omega
  · have h1 : tuple_compare x a d = 0 := by
      have := tuple_compare_swap a x d
      omega
    have h2 := tuple_compare_congr_left h1 b
    have := tuple_compare_swap x b d
    omega

/-- The step `tree_iterator_next` takes from a positioned state, whatever
the tree has become: the result is the least entry above `current`. -/
theorem resync_next (idx : MemtxTree) (it : tree_iterator) (x : tuple)
    (hn : it.next = .next) (hc : it.current = some x) (hs : tree_sorted idx.tree) :
    least_entry idx.tree (fun t => tuple_compare x t idx.tree.arg < 0)
      (iterator_next idx it).1 := by
  have hres : (iterator_next idx it).1 = idx.tree.get
      (if idx.tree.get it.tree_iterator = none ∨ idx.tree.get it.tree_iterator ≠ some x then
        idx.tree.upperBound_elem x else idx.tree.next it.tree_iterator) := by
    simp only [iterator_next, hn, tree_iterator_next, hc]
    split_ifs <;> (split <;> simp_all)
  rw [hres]
  by_cases hstale :
      idx.tree.get it.tree_iterator = none ∨ idx.tree.get it.tree_iterator ≠ some x
  · rw [if_pos hstale]
    obtain ⟨P, Q, hl, hP, hQ, hidx⟩ := findIdx_cut idx.tree.arg
      (fun e => decide (0 < tuple_compare e x idx.tree.arg)) idx.tree.elems hs
      (fun a b => above_mono idx.tree.arg x a b)
    unfold memtx_tree.upperBound_elem
    rw [get_position, hidx]
    conv => arg 3; rw [hl]
    rw [getElem?_split_head]
    apply least_of_split idx.tree _ P Q hl hs
    · intro y hy
      have := hP y hy
      simp only [decide_eq_false_iff_not] at this
      have hsw := tuple_compare_swap x y idx.tree.arg
      omega
    · intro y hy
      have := hQ y hy
      simp only [decide_eq_true_eq] at this
      have hsw := tuple_compare_swap x y idx.tree.arg
      omega
  · rw [if_neg hstale]
    have hcheck : idx.tree.get it.tree_iterator = some x := by
      by_contra hne
      exact hstale (Or.inr hne)
    cases hp : it.tree_iterator with
    | none => simp [hp, memtx_tree.get] at hcheck
    | some p =>
      rw [hp] at hcheck
      simp only [memtx_tree.get] at hcheck
      have hnext : idx.tree.get (idx.tree.next (some p)) = idx.tree.elems[p + 1]? := by
        simp only [memtx_tree.next]
        split_ifs with h
        · rfl
        · simp [memtx_tree.get, List.getElem?_eq_none (Nat.le_of_not_lt h)]
      rw [hnext]
      have hl : idx.tree.elems = idx.tree.elems.take (p + 1) ++ idx.tree.elems.drop (p + 1) :=
        (List.take_append_drop _ _).symm
      have hhead : idx.tree.elems[p + 1]? = (idx.tree.elems.drop (p + 1)).head? := by
        rw [List.head?_drop]
      rw [hhead]
      have hsorted := hs
      unfold tree_sorted at hsorted
      rw [hl, getElem?_take_snoc hcheck] at hsorted
      apply least_of_split idx.tree _ _ _ hl hs
      · intro y hy
        rw [getElem?_take_snoc hcheck] at hy
        rcases List.mem_append.1 hy with h | h
        · have := (List.pairwise_append.1 (List.pairwise_append.1 hsorted).1).2.2 y h x
            (by simp)
          have hsw := tuple_compare_swap x y idx.tree.arg
          omega
        · have : y = x := by simpa using h
          rw [this, tuple_compare_self]
          omega
      · intro y hy
        exact (List.pairwise_append.1 hsorted).2.2 x (by simp) y hy

/-- After a forward, non-equality scan has returned `x`, it carries the
method `tree_iterator_next` and `x` as its current record. -/
theorem forward_state_after_result (idx : MemtxTree) (it : tree_iterator) (x : tuple)
    (hty : it.type = .ITER_ALL ∨ it.type = .ITER_GE ∨ it.type = .ITER_GT)
    (hst : it.next = .start ∨ it.next = .next)
    (hret : (iterator_next idx it).1 = some x) :
    (iterator_next idx it).2.next = .next ∧ (iterator_next idx it).2.current = some x := by
  revert hret
  rcases hst with hn | hn
  · simp only [iterator_next, hn, tree_iterator_start, tree_iterator_start_finish]
    rcases hty with ht | ht | ht <;>
      (simp only [ht]; split_ifs <;> (try split) <;>
        simp_all [tree_iterator_set_next_method])
  · simp only [iterator_next, hn, tree_iterator_next]
    split
    · simp
    · split_ifs <;> (split <;> simp_all)

/-- C8: re-sync, forward direction. When a forward non-equality scan (ALL,
GE, GT) has just returned the entry x, then whatever the tree has become by
the next call (any sequence of inserts and deletes, deleting x included),
that call returns the least entry of the current tree that is strictly
greater than x, or no-result if there is none; in particular it does not
return x again. -/
theorem resync_forward (idx : MemtxTree) (it : tree_iterator) (x : tuple) (idx' : MemtxTree)
    (hty : it.type = .ITER_ALL ∨ it.type = .ITER_GE ∨ it.type = .ITER_GT)
    (hst : it.next = .start ∨ it.next = .next)
    (hret : (iterator_next idx it).1 = some x)
    (hs : tree_sorted idx'.tree) :
    least_entry idx'.tree (fun t => tuple_compare x t idx'.tree.arg < 0)
      (iterator_next idx' (iterator_next idx it).2).1 ∧
    (iterator_next idx' (iterator_next idx it).2).1 ≠ some x := by
  have hstate := forward_state_after_result idx it x hty hst hret
  have hleast := resync_next idx' (iterator_next idx it).2 x hstate.1 hstate.2 hs
  refine ⟨hleast, ?_⟩
  intro heq
  rw [heq] at hleast
  have hlt : tuple_compare x x idx'.tree.arg < 0 := hleast.2.1
  rw [tuple_compare_self] at hlt
  omega

/-- Witness of C8: the ALL scan over the keys 1, 3, 5 returns 1; after 1 is
deleted the next call returns 3, the second entry of the original order. -/
theorem resync_forward_witness :
    (iterator_next idx531 (idx531.initIterator fresh_iterator .ITER_ALL none 0)).1 =
      some (rec_key 1) ∧
    tree_sorted idx531_without_1.tree ∧
    idx531_without_1.tree.elems = [rec_key 3, rec_key 5] ∧
    least_entry idx531_without_1.tree
      (fun t => tuple_compare (rec_key 1) t idx531_without_1.tree.arg < 0)
      (iterator_next idx531_without_1
        (iterator_next idx531 (idx531.initIterator fresh_iterator .ITER_ALL none 0)).2).1 ∧
    (iterator_next idx531_without_1
        (iterator_next idx531 (idx531.initIterator fresh_iterator .ITER_ALL none 0)).2).1 =
      some (rec_key 3) :=
  ⟨by decide, by decide, by decide,
   (resync_forward idx531 (idx531.initIterator fresh_iterator .ITER_ALL none 0) (rec_key 1)
      idx531_without_1 (by decide) (by decide) (by decide) (by decide)).1,
   by decide⟩

/-! ## Insert, delete and replace -/

theorem insert_elems_dup_mem (d : key_def) (x : tuple) (l : List tuple) (dup : tuple)
    (h : (insert_elems d x l).2 = some dup) : dup ∈ l ∧ tuple_compare x dup d = 0 := by
  induction l with
  | nil => simp [insert_elems] at h
  | cons y ys ih =>
    simp only [insert_elems] at h
    by_cases h1 : tuple_compare x y d < 0
    · simp [h1] at h
    · by_cases h2 : tuple_compare x y d = 0
      · have hy : y = dup := by simpa [h1, h2] using h
        subst hy
        exact ⟨by simp, h2⟩
      · have := ih (by simpa [h1, h2] using h)
        exact ⟨by simp [this.1], this.2⟩

theorem insert_elems_mem (d : key_def) (x : tuple) (l : List tuple) (z : tuple)
    (h : z ∈ (insert_elems d x l).1) : z = x ∨ z ∈ l := by
  induction l with
  | nil => simpa [insert_elems] using h
  | cons y ys ih =>
    simp only [insert_elems] at h
    split_ifs at h with h1 h2
    · simpa using h
    · rcases List.mem_cons.1 h with h | h
      · exact Or.inl h
      · exact Or.inr (by simp [h])
    · rcases List.mem_cons.1 h with h | h
      · exact Or.inr (by simp [h])
      · rcases ih h with h | h
        · exact Or.inl h
        · exact Or.inr (by simp [h])

theorem insert_elems_sorted (d : key_def) (x : tuple) (l : List tuple)
    (hs : l.Pairwise (fun a b => tuple_compare a b d < 0)) :
    (insert_elems d x l).1.Pairwise (fun a b => tuple_compare a b d < 0) := by
  induction l with
  | nil => simp [insert_elems]
  | cons y ys ih =>
    have hs' := List.pairwise_cons.1 hs
    simp only [insert_elems]
    split_ifs with h1 h2
    · refine List.pairwise_cons.2 ⟨?_, hs⟩
      intro z hz
      rcases List.mem_cons.1 hz with rfl | hz
      · exact h1
      · exact tuple_compare_trans h1 (hs'.1 z hz)
    · refine List.pairwise_cons.2 ⟨?_, hs'.2⟩
      intro z hz
      rw [tuple_compare_congr_left h2 z]
      exact hs'.1 z hz
    · refine List.pairwise_cons.2 ⟨?_, ih hs'.2⟩
      intro z hz
      rcases insert_elems_mem d x ys z hz with rfl | hz
      · have := tuple_compare_swap z y d
        omega
      · exact hs'.1 z hz

theorem delete_elems_sublist (d : key_def) (x : tuple) (l : List tuple) :
    (delete_elems d x l).Sublist l := by
  induction l with
  | nil => simp [delete_elems]
  | cons y ys ih =>
    simp only [delete_elems]
    split_ifs
    · exact List.sublist_cons_self y ys
    · exact List.Sublist.cons₂ y ih

theorem delete_elems_sorted (d : key_def) (x : tuple) (l : List tuple)
    (hs : l.Pairwise (fun a b => tuple_compare a b d < 0)) :
    (delete_elems d x l).Pairwise (fun a b => tuple_compare a b d < 0) :=
  List.Pairwise.sublist (delete_elems_sublist d x l) hs

/-- Roll-back restores the entry list: deleting the record just inserted
and re-inserting the displaced duplicate, if any, gives the list back. -/
theorem rollback_restores (d : key_def) (x : tuple) (l : List tuple)
    (hs : l.Pairwise (fun a b => tuple_compare a b d < 0)) :
    (match (insert_elems d x l).2 with
     | some dup => (insert_elems d dup (delete_elems d x (insert_elems d x l).1)).1
     | none => delete_elems d x (insert_elems d x l).1) = l := by
  induction l with
  | nil => simp [insert_elems, delete_elems, tuple_compare_self]
  | cons y ys ih =>
    have hs' := List.pairwise_cons.1 hs
    simp only [insert_elems]
    split_ifs with h1 h2
    · simp [delete_elems, tuple_compare_self]
    · simp only [delete_elems, tuple_compare_self, if_true]
      cases ys with
      | nil => simp [insert_elems]
      | cons z zs => simp [insert_elems, hs'.1 z (by simp)]
    · have ih' := ih hs'.2
      simp only [delete_elems, h2, if_false]
      cases hdup : (insert_elems d x ys).2 with
      | none =>
        rw [hdup] at ih'
        simp only at ih' ⊢
        rw [ih']
      | some dup =>
        rw [hdup] at ih'
        simp only at ih' ⊢
        have hmem := (insert_elems_dup_mem d x ys dup hdup).1
        have hlt := hs'.1 dup hmem
        have hsw := tuple_compare_swap y dup d
        have hn1 : ¬ tuple_compare dup y d < 0 := by omega
        have hn2 : ¬ tuple_compare dup y d = 0 := by omega
        simp only [insert_elems, hn1, hn2, if_false]
        rw [ih']

/-- The outcome of `replace` when the optimistic insert does not fail, in
terms of the entry list. -/
theorem replace_new_eq (idx : MemtxTree) (old_tuple : Option tuple) (n : tuple)
    (mode : dup_replace_mode) :
    idx.replace old_tuple (some n) mode false =
      if replace_check_dup old_tuple (insert_elems idx.tree.arg n idx.tree.elems).2 mode ≠ 0 then
        (.error (.ClientError
            (replace_check_dup old_tuple (insert_elems idx.tree.arg n idx.tree.elems).2 mode)),
          { idx with tree :=
            { arg := idx.tree.arg
              elems :=
                match (insert_elems idx.tree.arg n idx.tree.elems).2 with
                | some dup =>
                  (insert_elems idx.tree.arg dup
                    (delete_elems idx.tree.arg n
                      (insert_elems idx.tree.arg n idx.tree.elems).1)).1
                | none =>
                  delete_elems idx.tree.arg n (insert_elems idx.tree.arg n idx.tree.elems).1 } })
      else
        match (insert_elems idx.tree.arg n idx.tree.elems).2 with
        | some dup =>
          (.ok (some dup),
            { idx with tree :=
              { arg := idx.tree.arg, elems := (insert_elems idx.tree.arg n idx.tree.elems).1 } })
        | none =>
          match old_tuple with
          | some o =>
            (.ok (some o),
              { idx with tree :=
                { arg := idx.tree.arg
                  elems := delete_elems idx.tree.arg o
                    (insert_elems idx.tree.arg n idx.tree.elems).1 } })
          | none =>
            (.ok none,
              { idx with tree :=
                { arg := idx.tree.arg
                  elems := (insert_elems idx.tree.arg n idx.tree.elems).1 } }) := by
  unfold MemtxTree.replace
  simp only [memtx_tree_insert, memtx_tree_delete, Bool.false_eq_true, if_false, ne_eq,
    not_true_eq_false]
  by_cases herr :
      replace_check_dup old_tuple (insert_elems idx.tree.arg n idx.tree.elems).2 mode = 0
  · simp only [herr, not_true_eq_false, if_false]
    cases hd : (insert_elems idx.tree.arg n idx.tree.elems).2
    · cases old_tuple <;> rfl
    · rfl
  · simp only [herr, not_false_eq_true, if_true]
    cases hd : (insert_elems idx.tree.arg n idx.tree.elems).2 <;> rfl

theorem replace_oom_eq (idx : MemtxTree) (old_tuple : Option tuple) (n : tuple)
    (mode : dup_replace_mode) :
    idx.replace old_tuple (some n) mode true = (.error .OutOfMemory, idx) := by
  unfold MemtxTree.replace
  simp [memtx_tree_insert]

theorem replace_none_eq (idx : MemtxTree) (old_tuple : Option tuple)
    (mode : dup_replace_mode) (extent_fail : Bool) :
    idx.replace old_tuple none mode extent_fail =
      match old_tuple with
      | some o => (.ok (some o), { idx with tree := memtx_tree_delete idx.tree o })
      | none => (.ok none, idx) := by
  unfold MemtxTree.replace
  cases old_tuple <;> rfl

theorem replace_tree_sorted (idx : MemtxTree) (old_tuple new_tuple : Option tuple)
    (mode : dup_replace_mode) (extent_fail : Bool) (hs : tree_sorted idx.tree) :
    (idx.replace old_tuple new_tuple mode extent_fail).2.tree.elems.Pairwise
      (fun a b => tuple_compare a b idx.tree.arg < 0) := by
  unfold tree_sorted at hs
  have hins : ∀ x, (insert_elems idx.tree.arg x idx.tree.elems).1.Pairwise
      (fun a b => tuple_compare a b idx.tree.arg < 0) :=
    fun x => insert_elems_sorted _ x _ hs
  cases new_tuple with
  | none =>
    rw [replace_none_eq]
    cases old_tuple with
    | none => exact hs
    | some o => exact delete_elems_sorted _ o _ hs
  | some n =>
    cases extent_fail with
    | true =>
      rw [replace_oom_eq]
      exact hs
    | false =>
      rw [replace_new_eq]
      split_ifs with herr
      · rw [rollback_restores _ _ _ hs]
        exact hs
      · cases hd : (insert_elems idx.tree.arg n idx.tree.elems).2 with
        | some dup => exact hins n
        | none =>
          cases old_tuple with
          | none => exact hins n
          | some o => exact delete_elems_sorted _ o _ (hins n)

/-- C9: replace is atomic on error. Over any tree, whenever replace raises
(OutOfMemory from the optimistic insert, or a ClientError after the
duplicate check), the index after the call is the index before it: the same
entries and the same size; a displaced duplicate is back in the tree, and
the new record is not in it unless it was there before the call. -/
theorem replace_atomic_on_error (idx : MemtxTree) (old_tuple new_tuple : Option tuple)
    (mode : dup_replace_mode) (extent_fail : Bool) (e : index_error)
    (hs : tree_sorted idx.tree)
    (hraise : (idx.replace old_tuple new_tuple mode extent_fail).1 = .error e) :
    (idx.replace old_tuple new_tuple mode extent_fail).2 = idx ∧
    (idx.replace old_tuple new_tuple mode extent_fail).2.tree.elems = idx.tree.elems ∧
    (idx.replace old_tuple new_tuple mode extent_fail).2.size = idx.size ∧
    (∀ n dup, new_tuple = some n → (memtx_tree_insert idx.tree n false).2.2 = some dup →
      dup ∈ (idx.replace old_tuple new_tuple mode extent_fail).2.tree.elems) ∧
    (∀ n, new_tuple = some n → n ∉ idx.tree.elems →
      n ∉ (idx.replace old_tuple new_tuple mode extent_fail).2.tree.elems) := by
  have hsame : (idx.replace old_tuple new_tuple mode extent_fail).2 = idx := by
    cases new_tuple with
    | none =>
      rw [replace_none_eq] at hraise
      cases old_tuple <;> simp at hraise
    | some n =>
      cases extent_fail with
      | true => rw [replace_oom_eq]
      | false =>
        rw [replace_new_eq] at hraise ⊢
        split_ifs at hraise ⊢ with herr
        · simp only
          rw [rollback_restores _ _ _ hs]
        · cases hd : (insert_elems idx.tree.arg n idx.tree.elems).2 with
          | some dup => simp [hd] at hraise
          | none =>
            rw [hd] at hraise
            cases old_tuple <;> simp at hraise
  rw [hsame]
  refine ⟨rfl, rfl, rfl, ?_, fun _ _ h => h⟩
  intro n dup _ hdup
  exact (insert_elems_dup_mem idx.tree.arg n idx.tree.elems dup
    (by simpa [memtx_tree_insert] using hdup)).1

/-- Witness of C9: inserting a second record with key 3 in insert-only mode
raises the duplicate error and leaves the index with the keys 1, 3, 5. -/
theorem replace_atomic_on_error_witness :
    tree_sorted idx531.tree ∧
    (idx531.replace none (some { addr := 77, fields := [some 3] }) .DUP_INSERT false).1 =
      .error (.ClientError ER_TUPLE_FOUND) ∧
    (idx531.replace none (some { addr := 77, fields := [some 3] }) .DUP_INSERT false).2 = idx531 ∧
    (idx531.replace none (some { addr := 77, fields := [some 3] }) .DUP_INSERT false).2.tree.elems =
      [rec_key 1, rec_key 3, rec_key 5] :=
  ⟨by decide, rfl,
   (replace_atomic_on_error idx531 none (some { addr := 77, fields := [some 3] }) .DUP_INSERT false
      (.ClientError ER_TUPLE_FOUND) (by decide) rfl).1,
   by decide⟩

/-- C10: uniqueness invariant. For a unique index without nullable parts,
if the entries are in order and no two of them compare equal under the key
definition before a call of replace, then the same holds after it, for every
old record, new record and mode, whether the call returns or raises. -/
theorem replace_keeps_unique (idx : MemtxTree) (old_tuple new_tuple : Option tuple)
    (mode : dup_replace_mode) (extent_fail : Bool)
    (huniq : idx.index_def.opts.is_unique = true)
    (hnn : idx.index_def.key_def.is_nullable = false)
    (harg : idx.tree.arg = (MemtxTree.create idx.index_def).cmp_def)
    (hord : idx.tree.elems.Pairwise (fun a b => tuple_compare a b idx.index_def.key_def ≤ 0))
    (hne : idx.tree.elems.Pairwise (fun a b => tuple_compare a b idx.index_def.key_def ≠ 0)) :
    (idx.replace old_tuple new_tuple mode extent_fail).2.tree.elems.Pairwise
      (fun a b => tuple_compare a b idx.index_def.key_def ≠ 0) ∧
    (idx.replace old_tuple new_tuple mode extent_fail).2.tree.elems.Pairwise
      (fun a b => tuple_compare a b idx.index_def.key_def ≤ 0) := by
  have hkd : idx.tree.arg = idx.index_def.key_def := by
    rw [harg]
    simp [MemtxTree.create, huniq, hnn]
  have hs : tree_sorted idx.tree := by
    unfold tree_sorted
    rw [hkd]
    refine List.Pairwise.imp ?_ (List.Pairwise.and hord hne)
    intro a b hab
    have h1 := hab.1
    have h2 := hab.2
    omega
  have hafter := replace_tree_sorted idx old_tuple new_tuple mode extent_fail hs
  rw [hkd] at hafter
  exact ⟨List.Pairwise.imp (fun h => ne_of_lt h) hafter,
    List.Pairwise.imp (fun h => le_of_lt h) hafter⟩

/-- Witness of C10: replacing the record with key 3 of the unique index over
the keys 1, 3, 5 by another record with key 3 leaves no two equal keys. -/
theorem replace_keeps_unique_witness :
    idx531.tree.elems.Pairwise (fun a b => tuple_compare a b idx531.index_def.key_def ≠ 0) ∧
    (idx531.replace none (some { addr := 77, fields := [some 3] })
        .DUP_REPLACE_OR_INSERT false).2.tree.elems =
      [rec_key 1, { addr := 77, fields := [some 3] }, rec_key 5] ∧
    (idx531.replace none (some { addr := 77, fields := [some 3] })
        .DUP_REPLACE_OR_INSERT false).2.tree.elems.Pairwise
      (fun a b => tuple_compare a b idx531.index_def.key_def ≠ 0) :=
  ⟨by decide, by decide,
   (replace_keeps_unique idx531 none (some { addr := 77, fields := [some 3] })
      .DUP_REPLACE_OR_INSERT false rfl rfl rfl (by decide) (by decide)).1⟩




/-! ## The result of a successful replace -/

theorem sorted_tie_eq (d : key_def) (l : List tuple)
    (hs : l.Pairwise (fun a b => tuple_compare a b d < 0)) (a b : tuple) (ha : a ∈ l)
    (hb : b ∈ l) (h : tuple_compare a b d = 0) : a = b := by
  induction l with
  | nil => simp at ha
  | cons y ys ih =>
    have hs' := List.pairwise_cons.1 hs
    rcases List.mem_cons.1 ha with rfl | ha' <;> rcases List.mem_cons.1 hb with rfl | hb'
    · rfl
    · have := hs'.1 b hb'
      omega
    · have := hs'.1 a ha'
      have hsw := tuple_compare_swap a b d
      omega
    · exact ih hs'.2 ha' hb'

theorem insert_elems_found (d : key_def) (n : tuple) (l : List tuple)
    (hs : l.Pairwise (fun a b => tuple_compare a b d < 0)) (e : tuple) (he : e ∈ l)
    (h : tuple_compare n e d = 0) : (insert_elems d n l).2 = some e := by
  induction l with
  | nil => simp at he
  | cons y ys ih =>
    have hs' := List.pairwise_cons.1 hs
    simp only [insert_elems]
    rcases List.mem_cons.1 he with rfl | he'
    · have h1 : ¬ tuple_compare n e d < 0 := by omega
      simp [h1, h]
    · have hye := hs'.1 e he'
      have hny : tuple_compare n y d = tuple_compare e y d := tuple_compare_congr_left h y
      have hsw := tuple_compare_swap y e d
      have h1 : ¬ tuple_compare n y d < 0 := by omega
      have h2 : ¬ tuple_compare n y d = 0 := by omega
      simp only [h1, h2, if_false]
      exact ih hs'.2 he'

theorem insert_elems_replace (d : key_def) (n : tuple) (l : List tuple) (dup : tuple)
    (h : (insert_elems d n l).2 = some dup) :
    ∃ pre post, l = pre ++ dup :: post ∧ (insert_elems d n l).1 = pre ++ n :: post := by
  induction l with
  | nil => simp [insert_elems] at h
  | cons y ys ih =>
    simp only [insert_elems] at h ⊢
    by_cases h1 : tuple_compare n y d < 0
    · simp [h1] at h
    · by_cases h2 : tuple_compare n y d = 0
      · have hy : y = dup := by simpa [h1, h2] using h
        subst hy
        exact ⟨[], ys, rfl, by simp [h1, h2]⟩
      · obtain ⟨pre, post, hl, hr⟩ := ih (by simpa [h1, h2] using h)
        refine ⟨y :: pre, post, by simp [hl], ?_⟩
        simp only [h1, h2, if_false, hr, List.cons_append]

theorem insert_elems_none_perm (d : key_def) (n : tuple) (l : List tuple)
    (h : (insert_elems d n l).2 = none) : (insert_elems d n l).1.Perm (n :: l) := by
  induction l with
  | nil => simp [insert_elems]
  | cons y ys ih =>
    simp only [insert_elems] at h ⊢
    by_cases h1 : tuple_compare n y d < 0
    · simp [h1]
    · by_cases h2 : tuple_compare n y d = 0
      · simp [h1, h2] at h
      · simp only [h1, h2, if_false] at h ⊢
        exact (List.Perm.cons y (ih h)).trans (List.Perm.swap n y ys)

theorem insert_elems_none_of_no_tie (d : key_def) (n : tuple) (l : List tuple)
    (h : ∀ e ∈ l, tuple_compare n e d ≠ 0) : (insert_elems d n l).2 = none := by
  cases hd : (insert_elems d n l).2 with
  | none => rfl
  | some dup =>
    have := insert_elems_dup_mem d n l dup hd
    exact absurd this.2 (h dup this.1)

theorem delete_elems_eq_erase (d : key_def) (o : tuple) (l : List tuple)
    (hs : l.Pairwise (fun a b => tuple_compare a b d < 0)) (ho : o ∈ l) :
    delete_elems d o l = l.erase o := by
  induction l with
  | nil => simp at ho
  | cons y ys ih =>
    have hs' := List.pairwise_cons.1 hs
    simp only [delete_elems]
    by_cases h : tuple_compare o y d = 0
    · have hoy : o = y := sorted_tie_eq d (y :: ys) hs o y ho (by simp) h
      subst hoy
      simp [h]
    · have hne : y ≠ o := by
        intro heq
        rw [heq, tuple_compare_self] at h
        exact h rfl
      have ho' : o ∈ ys := by
        rcases List.mem_cons.1 ho with h1 | h1
        · exact absurd h1.symm hne
        · exact h1
      rw [if_neg h, ih hs'.2 ho', List.erase_cons_tail (by simpa using hne)]


/-- C11: result and post-state of a successful replace, for an old record
that, when given, is an entry of the tree. When replace(old, new, mode) does
not raise: (a) if new is given and an equal-keyed entry dup was in the tree,
the tree afterwards is the old tree with dup replaced by new and dup is
returned; (b) if new is given and no equal-keyed entry existed, the tree
afterwards is the old tree plus new minus old (when old is given), in order,
and old is returned; (c) if new is absent, the tree afterwards is the old
tree minus old and old is returned (none, with the tree unchanged, when old
is absent too). -/
theorem replace_success (idx : MemtxTree) (old_tuple new_tuple : Option tuple)
    (mode : dup_replace_mode) (extent_fail : Bool) (r : Option tuple) (idx' : MemtxTree)
    (hs : tree_sorted idx.tree)
    (hold : ∀ o, old_tuple = some o → o ∈ idx.tree.elems)
    (hok : idx.replace old_tuple new_tuple mode extent_fail = (.ok r, idx')) :
    (∀ n dup, new_tuple = some n → dup ∈ idx.tree.elems →
      tuple_compare n dup idx.tree.arg = 0 →
      r = some dup ∧
      ∃ pre post, idx.tree.elems = pre ++ dup :: post ∧ idx'.tree.elems = pre ++ n :: post) ∧
    (∀ n, new_tuple = some n → (∀ e ∈ idx.tree.elems, tuple_compare n e idx.tree.arg ≠ 0) →
      r = old_tuple ∧
      idx'.tree.elems.Pairwise (fun a b => tuple_compare a b idx.tree.arg < 0) ∧
      idx'.tree.elems.Perm (minus_old (n :: idx.tree.elems) old_tuple)) ∧
    (new_tuple = none →
      r = old_tuple ∧ idx'.tree.elems = minus_old idx.tree.elems old_tuple) := by
  unfold tree_sorted at hs
  have h1 : (idx.replace old_tuple new_tuple mode extent_fail).1 = .ok r := by rw [hok]
  have h2 : idx' = (idx.replace old_tuple new_tuple mode extent_fail).2 := by rw [hok]
  subst h2
  clear hok
  cases new_tuple with
  | none =>
    rw [replace_none_eq] at h1 ⊢
    refine ⟨fun n dup h => (by cases h), fun n h => (by cases h), fun _ => ?_⟩
    cases old_tuple with
    | none =>
      simp only [Except.ok.injEq] at h1
      exact ⟨h1.symm, rfl⟩
    | some o =>
      simp only [Except.ok.injEq] at h1
      exact ⟨h1.symm, delete_elems_eq_erase _ o _ hs (hold o rfl)⟩
  | some m =>
    cases extent_fail with
    | true =>
      rw [replace_oom_eq] at h1
      simp at h1
    | false =>
      rw [replace_new_eq] at h1 ⊢
      by_cases herr :
          replace_check_dup old_tuple (insert_elems idx.tree.arg m idx.tree.elems).2 mode = 0
      · simp only [herr, ne_eq, not_true_eq_false, if_false] at h1 ⊢
        cases hd : (insert_elems idx.tree.arg m idx.tree.elems).2 with
        | some dup0 =>
          rw [hd] at h1
          simp only [Except.ok.injEq] at h1
          refine ⟨?_, ?_, fun h => (by cases h)⟩
          · intro n dup hn hmem htie
            cases hn
            have hfound := insert_elems_found _ m _ hs dup hmem htie
            rw [hd] at hfound
            cases hfound
            exact ⟨h1.symm, insert_elems_replace _ m _ dup0 hd⟩
          · intro n hn hno
            cases hn
            have := insert_elems_none_of_no_tie _ m _ hno
            rw [hd] at this
            cases this
        | none =>
          rw [hd] at h1
          have hperm := insert_elems_none_perm _ m _ hd
          have hsorted := insert_elems_sorted _ m _ hs
          refine ⟨?_, ?_, fun h => (by cases h)⟩
          · intro n dup hn hmem htie
            cases hn
            have hfound := insert_elems_found _ m _ hs dup hmem htie
            rw [hd] at hfound
            cases hfound
          · intro n hn _
            cases hn
            cases old_tuple with
            | none =>
              simp only [Except.ok.injEq] at h1
              exact ⟨h1.symm, hsorted, hperm⟩
            | some o =>
              simp only [Except.ok.injEq] at h1
              have ho : o ∈ (insert_elems idx.tree.arg m idx.tree.elems).1 :=
                hperm.symm.subset (List.mem_cons_of_mem _ (hold o rfl))
              refine ⟨h1.symm, delete_elems_sorted _ o _ hsorted, ?_⟩
              show (delete_elems idx.tree.arg o _).Perm _
              rw [delete_elems_eq_erase _ o _ hsorted ho]
              exact hperm.erase o
      · simp only [herr, ne_eq, not_false_eq_true, if_true] at h1
        simp at h1

/-- Witness of C11: over the keys 1, 3, 5, replacing the record with key 3
by another record with key 3 returns the old one and puts the new one in its
place. -/
theorem replace_success_witness :
    tree_sorted idx531.tree ∧
    idx531.replace (some (rec_key 3)) (some { addr := 77, fields := [some 3] })
        .DUP_REPLACE_OR_INSERT false =
      (.ok (some (rec_key 3)),
       { idx531 with tree :=
         { arg := idx531.tree.arg
           elems := [rec_key 1, { addr := 77, fields := [some 3] }, rec_key 5] } }) ∧
    ∃ pre post, idx531.tree.elems = pre ++ rec_key 3 :: post ∧
      [rec_key 1, ({ addr := 77, fields := [some 3] } : tuple), rec_key 5] =
        pre ++ { addr := 77, fields := [some 3] } :: post :=
  ⟨by decide, rfl,
   ((replace_success idx531 (some (rec_key 3)) (some { addr := 77, fields := [some 3] })
      .DUP_REPLACE_OR_INSERT false (some (rec_key 3))
      { idx531 with tree :=
        { arg := idx531.tree.arg
          elems := [rec_key 1, { addr := 77, fields := [some 3] }, rec_key 5] } }
      (by decide) (by decide) rfl).1 _ (rec_key 3) rfl (by decide) (by decide)).2⟩

/-! ## When replace raises -/

theorem replace_insert_raises_iff (idx : MemtxTree) (old_tuple : Option tuple) (n : tuple)
    (hs : tree_sorted idx.tree) :
    (∃ e, (idx.replace old_tuple (some n) .DUP_INSERT false).1 = .error (.ClientError e)) ↔
      ∃ d ∈ idx.tree.elems, tuple_compare n d idx.tree.arg = 0 ∧ old_tuple ≠ some d := by
  unfold tree_sorted at hs
  rw [replace_new_eq]
  constructor
  · rintro ⟨e, he⟩
    cases hd : (insert_elems idx.tree.arg n idx.tree.elems).2 with
    | none =>
      rw [hd] at he
      simp only [replace_check_dup] at he
      cases old_tuple <;> simp at he
    | some dup =>
      have hmem := insert_elems_dup_mem _ n _ dup hd
      refine ⟨dup, hmem.1, hmem.2, ?_⟩
      intro hold
      rw [hd] at he
      simp [replace_check_dup, hold] at he
  · rintro ⟨d, hmem, htie, hne⟩
    have hd := insert_elems_found _ n _ hs d hmem htie
    rw [hd]
    refine ⟨ER_TUPLE_FOUND, ?_⟩
    simp [replace_check_dup, hne, ER_TUPLE_FOUND]

/-- C12: replace fails as its mode says. With the new record given and no
allocation failure: insert-only mode raises a ClientError if and only if an
equal-keyed entry exists that is not the old record; replace-only mode
raises if no equal-keyed entry exists; insert-or-replace mode with no old
record never raises. With the new record absent replace never raises. -/
theorem replace_raises_by_mode (idx : MemtxTree) (old_tuple : Option tuple) (n : tuple)
    (hs : tree_sorted idx.tree) :
    ((∃ e, (idx.replace old_tuple (some n) .DUP_INSERT false).1 = .error (.ClientError e)) ↔
      ∃ d ∈ idx.tree.elems, tuple_compare n d idx.tree.arg = 0 ∧ old_tuple ≠ some d) ∧
    ((∀ d ∈ idx.tree.elems, tuple_compare n d idx.tree.arg ≠ 0) →
      ∃ e, (idx.replace old_tuple (some n) .DUP_REPLACE false).1 = .error (.ClientError e)) ∧
    (∃ r, (idx.replace none (some n) .DUP_REPLACE_OR_INSERT false).1 = .ok r) ∧
    (∀ (mode : dup_replace_mode) (extent_fail : Bool),
      ∃ r, (idx.replace old_tuple none mode extent_fail).1 = .ok r) := by
  refine ⟨replace_insert_raises_iff idx old_tuple n hs, ?_, ?_, ?_⟩
  · intro hno
    have hd := insert_elems_none_of_no_tie _ n _ hno
    rw [replace_new_eq, hd]
    exact ⟨ER_TUPLE_NOT_FOUND, by simp [replace_check_dup, ER_TUPLE_NOT_FOUND]⟩
  · rw [replace_new_eq]
    cases hd : (insert_elems idx.tree.arg n idx.tree.elems).2 with
    | none => exact ⟨none, by simp [replace_check_dup]⟩
    | some dup => exact ⟨some dup, by simp [replace_check_dup]⟩
  · intro mode extent_fail
    rw [replace_none_eq]
    cases old_tuple with
    | none => exact ⟨none, rfl⟩
    | some o => exact ⟨some o, rfl⟩

/-- Witness of C12: over the keys 1, 3, 5 a second record with key 3 is
refused in insert-only mode, and a record with key 4 is refused in
replace-only mode. -/
theorem replace_raises_by_mode_witness :
    tree_sorted idx531.tree ∧
    (idx531.replace none (some { addr := 77, fields := [some 3] }) .DUP_INSERT false).1 =
      .error (.ClientError ER_TUPLE_FOUND) ∧
    (idx531.replace none (some { addr := 78, fields := [some 4] }) .DUP_REPLACE false).1 =
      .error (.ClientError ER_TUPLE_NOT_FOUND) ∧
    ∃ e, (idx531.replace none (some { addr := 78, fields := [some 4] }) .DUP_REPLACE false).1 =
      .error (.ClientError e) :=
  ⟨by decide, rfl, rfl,
   (replace_raises_by_mode idx531 none { addr := 78, fields := [some 4] } (by decide)).2.1
     (by decide)⟩

/-! ## Exact find -/

/-- C13: exact find. For a full key (part_count equal to the part count of
the user key definition) findByKey returns an entry of the tree whose key
equals the given key if there is one, and none exactly when there is none;
the index is not modified. -/
theorem findByKey_exact (idx : MemtxTree) (key : List (Option Int)) (part_count : Nat)
    (harg : idx.tree.arg = (MemtxTree.create idx.index_def).cmp_def)
    (hext : idx.index_def.key_def.parts <+: idx.index_def.cmp_def.parts)
    (hfull : part_count = idx.index_def.key_def.parts.length) :
    (idx.findByKey (some key) part_count).2 = idx ∧
    (∀ e, (idx.findByKey (some key) part_count).1 = some e →
      e ∈ idx.tree.elems ∧
      tuple_compare_with_key e key part_count idx.index_def.key_def = 0) ∧
    ((idx.findByKey (some key) part_count).1 = none ↔
      ∀ e ∈ idx.tree.elems,
        tuple_compare_with_key e key part_count idx.index_def.key_def ≠ 0) := by
  have hpre := user_key_def_extends idx harg hext
  have hu : ∀ t, compare_key_data t { key := some key, part_count := part_count } idx.tree.arg =
      tuple_compare_with_key t key part_count idx.index_def.key_def :=
    fun t => compare_key_data_user hpre { key := some key, part_count := part_count }
      (le_of_eq hfull) t
  simp only [MemtxTree.findByKey, memtx_tree.find, hu]
  refine ⟨trivial, ?_, ?_⟩
  · intro e he
    have h1 := List.find?_some he
    have h2 := List.mem_of_find?_eq_some he
    exact ⟨h2, by simpa using h1⟩
  · rw [List.find?_eq_none]
    constructor
    · intro h e he
      simpa using h e he
    · intro h e he
      simpa using h e he

/-- Witness of C13: after inserting the keys 5, 1, 3 the size is 3 and the
find of key 3 returns the record with key 3. -/
theorem findByKey_exact_witness :
    idx531.size = 3 ∧
    (idx531.findByKey (some [some 3]) 1).1 = some (rec_key 3) ∧
    (rec_key 3 ∈ idx531.tree.elems ∧
      tuple_compare_with_key (rec_key 3) [some 3] 1 idx531.index_def.key_def = 0) :=
  ⟨by decide, by decide,
   (findByKey_exact idx531 [some 3] 1 rfl (List.prefix_refl _) rfl).2.1 (rec_key 3)
     (by decide)⟩

/-! ## The comparator the constructor selects -/

theorem extract_key_take (a : tuple) (u c : key_def) (hpre : u.parts <+: c.parts) :
    (tuple_extract_key a c).take u.parts.length = tuple_extract_key a u := by
  obtain ⟨rest, hrest⟩ := hpre
  unfold tuple_extract_key
  rw [← hrest, List.map_append]
  have hlen : u.parts.length = (u.parts.map (fun f => a.fields.getD f none)).length := by simp
  rw [hlen, List.take_left]

/-- C16: the tree's comparator is the user key definition exactly when the
index is unique and its key definition is not nullable; for every other
index it is the extended comparison definition. For a unique nullable index
whose extended definition has the user key parts as its unique parts, two
entries with the same user key that bears a NULL are ordered by the extended
parts and, when these differ, the insert of one does not report the other as
its duplicate; two entries with the same user key without NULL compare
equal. -/
theorem constructor_comparator (d : index_def) :
    (MemtxTree.create d).tree.arg = (MemtxTree.create d).cmp_def ∧
    ((d.opts.is_unique = true ∧ d.key_def.is_nullable = false) →
      (MemtxTree.create d).cmp_def = d.key_def) ∧
    (¬ (d.opts.is_unique = true ∧ d.key_def.is_nullable = false) →
      (MemtxTree.create d).cmp_def = d.cmp_def) ∧
    (d.key_def ≠ d.cmp_def →
      ((MemtxTree.create d).cmp_def = d.key_def ↔
        (d.opts.is_unique = true ∧ d.key_def.is_nullable = false))) ∧
    (d.opts.is_unique = true → d.key_def.is_nullable = true →
      d.key_def.parts <+: d.cmp_def.parts →
      d.cmp_def.unique_part_count = d.key_def.parts.length →
      ∀ a b : tuple, tuple_extract_key a d.key_def = tuple_extract_key b d.key_def →
        ((tuple_extract_key a d.key_def).contains none = true →
          tuple_compare a b (MemtxTree.create d).tree.arg =
            compare_parts ((tuple_extract_key a d.cmp_def).drop d.key_def.parts.length)
              ((tuple_extract_key b d.cmp_def).drop d.key_def.parts.length) ∧
          (tuple_compare a b (MemtxTree.create d).tree.arg ≠ 0 →
            ∀ l, (insert_elems (MemtxTree.create d).tree.arg b l).2 ≠ some a)) ∧
        ((tuple_extract_key a d.key_def).contains none = false →
          tuple_compare a b (MemtxTree.create d).tree.arg = 0)) := by
  refine ⟨rfl, ?_, ?_, ?_, ?_⟩
  · rintro ⟨hu, hn⟩
    simp [MemtxTree.create, hu, hn]
  · intro h
    unfold MemtxTree.create
    by_cases hu : d.opts.is_unique = true <;> by_cases hn : d.key_def.is_nullable = true
    · simp [hu, hn]
    · exact absurd ⟨hu, by simpa using hn⟩ h
    · simp [hu]
    · simp [hu]
  · intro hne
    unfold MemtxTree.create
    by_cases hu : d.opts.is_unique = true <;> by_cases hn : d.key_def.is_nullable = true
    · simp [hu, hn, hne.symm]
    · simp [hu, hn]
    · simp [hu, hne.symm]
    · simp [hu, hne.symm]
  · intro hu hn hpre hupc a b hkey
    have harg : (MemtxTree.create d).tree.arg = d.cmp_def := by
      simp [MemtxTree.create, hu, hn]
    have hcmp : tuple_compare a b d.cmp_def =
        if (tuple_extract_key a d.key_def).contains none then
          compare_parts ((tuple_extract_key a d.cmp_def).drop d.key_def.parts.length)
            ((tuple_extract_key b d.cmp_def).drop d.key_def.parts.length)
        else 0 := by
      unfold tuple_compare compare_keys
      rw [hupc, extract_key_take a _ _ hpre, extract_key_take b _ _ hpre, hkey,
        compare_parts_self]
      simp
    rw [harg, hcmp]
    refine ⟨fun hnull => ⟨by rw [if_pos hnull], ?_⟩,
      fun hnull => by rw [if_neg (by rw [hnull]; simp)]⟩
    intro hne l hdup
    have htie := (insert_elems_dup_mem d.cmp_def b l a hdup).2
    have hsw := tuple_compare_swap a b d.cmp_def
    rw [hcmp] at hsw
    omega

/-- Witness of C16: in the unique nullable index two records with a NULL key
and primary keys 1 and 2 are ordered by the primary key and both inserted in
insert-only mode, while a second record with key 7 is refused. -/
theorem constructor_comparator_witness :
    (MemtxTree.create unique_nullable_index_def).tree.arg =
      unique_nullable_index_def.cmp_def ∧
    tuple_compare (rec_null 1) (rec_null 2)
        (MemtxTree.create unique_nullable_index_def).tree.arg =
      compare_parts [some 1] [some 2] ∧
    ((MemtxTree.create unique_nullable_index_def).insert_all
        [rec_null 2, rec_null 1]).tree.elems = [rec_null 1, rec_null 2] ∧
    ((MemtxTree.create unique_nullable_index_def).insert_all
        [rec_pair 7 2, rec_pair 7 1]).tree.elems = [rec_pair 7 2] :=
  ⟨(constructor_comparator unique_nullable_index_def).2.2.1 (by decide),
   ((constructor_comparator unique_nullable_index_def).2.2.2.2 rfl rfl ⟨[1], rfl⟩ rfl
      (rec_null 1) (rec_null 2) rfl).1 (by decide) |>.1,
   by decide, by decide⟩

/-! ## Bulk build -/

/-- C17: after endBuild, for every staging state, the staging buffer is
released and reset (the build array is null, the staged count 0, the
recorded capacity 0) and the tree holds exactly the staged records. -/
theorem endBuild_resets (idx : MemtxTree) :
    idx.endBuild.build_array = none ∧
    idx.endBuild.build_array_size = 0 ∧
    idx.endBuild.build_array_alloc_size = 0 ∧
    idx.endBuild.tree.elems.Perm idx.staged := by
  refine ⟨rfl, rfl, rfl, ?_⟩
  simp only [MemtxTree.endBuild, memtx_tree_build, qsort_arg]
  exact List.perm_insertionSort _ _

/-- C19: at recorded capacity c = n reserve(n) is not a no-op: it calls
realloc and raises OutOfMemory when that fails; only for c > n does it return
without allocating, whatever the allocator would do. -/
theorem reserve_at_equal_capacity :
    ((MemtxTree.create unique_index_def).reserve 4 false).2.build_array_alloc_size = 4 ∧
    (((MemtxTree.create unique_index_def).reserve 4 false).2.reserve 4 true).1 =
      .error .OutOfMemory ∧
    (∀ idx : MemtxTree, (idx.reserve idx.build_array_alloc_size true).1 =
      .error .OutOfMemory) ∧
    (∀ (idx : MemtxTree) (n : Nat) (realloc_fail : Bool), n < idx.build_array_alloc_size →
      idx.reserve n realloc_fail = (.ok (), idx)) := by
  refine ⟨by decide, rfl, ?_, ?_⟩
  · intro idx
    simp [MemtxTree.reserve]
  · intro idx n realloc_fail h
    simp [MemtxTree.reserve, h]

theorem store_next_staged (idx : MemtxTree) (t : tuple) :
    (idx.store_next t).staged = idx.staged ++ [t] := by
  simp only [MemtxTree.store_next, MemtxTree.staged, Option.getD_some]
  apply List.take_of_length_le
  simp only [List.length_append, List.length_take, List.length_singleton]
  omega

/-- A call of buildNext that does not raise ends with the store of the
record into a buffer that holds the same staged records as before. -/
theorem buildNext_ok_eq (idx : MemtxTree) (t : tuple) (malloc_fail realloc_fail : Bool)
    (hok : (idx.buildNext t malloc_fail realloc_fail).1 = .ok ()) :
    ∃ idx0 : MemtxTree, (idx.buildNext t malloc_fail realloc_fail).2 = idx0.store_next t ∧
      idx0.staged = idx.staged ∧ idx0.build_array_size = idx.build_array_size ∧
      idx0.tree = idx.tree ∧ idx0.index_def = idx.index_def := by
  unfold MemtxTree.buildNext at hok ⊢
  by_cases hnull : idx.build_array = none
  · by_cases hm : malloc_fail = true
    · rw [if_pos ⟨hnull, hm⟩] at hok
      simp at hok
    · rw [if_neg (fun h => hm h.2)] at hok ⊢
      simp only [if_pos hnull] at hok ⊢
      by_cases hfull : idx.build_array_size = MEMTX_EXTENT_SIZE / sizeof_tuple_ptr
      · rw [if_pos hfull] at hok ⊢
        by_cases hr : realloc_fail = true
        · rw [if_pos hr] at hok
          simp at hok
        · rw [if_neg hr]
          exact ⟨_, rfl, by simp [MemtxTree.staged, hnull], rfl, rfl, rfl⟩
      · rw [if_neg hfull]
        exact ⟨_, rfl, by simp [MemtxTree.staged, hnull], rfl, rfl, rfl⟩
  · rw [if_neg (fun h => hnull h.1)] at hok ⊢
    simp only [if_neg hnull] at hok ⊢
    by_cases hfull : idx.build_array_size = idx.build_array_alloc_size
    · rw [if_pos hfull] at hok ⊢
      by_cases hr : realloc_fail = true
      · rw [if_pos hr] at hok
        simp at hok
      · rw [if_neg hr]
        refine ⟨_, rfl, ?_, rfl, rfl, rfl⟩
        simp only [MemtxTree.staged, Option.getD_some, List.take_take]
        congr 1
        omega
    · rw [if_neg hfull]
      exact ⟨_, rfl, rfl, rfl, rfl, rfl⟩

/-- C20: if buildNext(t) returns without raising, the staged sequence
afterwards is the staged sequence before with t appended at the end (the
count goes up by exactly one, earlier records keep their positions) and the
tree is unchanged. -/
theorem buildNext_appends (idx : MemtxTree) (t : tuple) (malloc_fail realloc_fail : Bool)
    (hok : (idx.buildNext t malloc_fail realloc_fail).1 = .ok ()) :
    (idx.buildNext t malloc_fail realloc_fail).2.staged = idx.staged ++ [t] ∧
    (idx.buildNext t malloc_fail realloc_fail).2.build_array_size = idx.build_array_size + 1 ∧
    (idx.buildNext t malloc_fail realloc_fail).2.tree = idx.tree := by
  obtain ⟨idx0, h2, h3, h4, h5, _⟩ := buildNext_ok_eq idx t malloc_fail realloc_fail hok
  rw [h2, store_next_staged, h3]
  exact ⟨rfl, by simp [MemtxTree.store_next, h4], by simp [MemtxTree.store_next, h5]⟩

/-- Witness of C20: staging the records 5 and 1 on a fresh index gives the
staged sequence 5, 1. -/
theorem buildNext_appends_witness :
    (((MemtxTree.create unique_index_def).buildNext (rec_key 5) false false).2.buildNext
        (rec_key 1) false false).1 = .ok () ∧
    (((MemtxTree.create unique_index_def).buildNext (rec_key 5) false false).2.buildNext
        (rec_key 1) false false).2.staged = [rec_key 5, rec_key 1] :=
  ⟨rfl,
   (buildNext_appends ((MemtxTree.create unique_index_def).buildNext (rec_key 5) false false).2
      (rec_key 1) false false rfl).1.trans (by decide)⟩

/-! ## Bulk build against one-at-a-time inserts -/

theorem buildNext_no_failure (idx : MemtxTree) (t : tuple) :
    (idx.buildNext t false false).1 = .ok () := by
  unfold MemtxTree.buildNext
  simp only [Bool.false_eq_true, and_false, if_false]
  split_ifs <;> rfl

theorem build_all_staged (ts : List tuple) :
    ∀ idx : MemtxTree, (idx.build_all ts).staged = idx.staged ++ ts ∧
      (idx.build_all ts).tree = idx.tree ∧ (idx.build_all ts).index_def = idx.index_def := by
  induction ts with
  | nil => intro idx; simp [MemtxTree.build_all]
  | cons t ts ih =>
    intro idx
    obtain ⟨idx0, h2, h3, _, h5, h6⟩ :=
      buildNext_ok_eq idx t false false (buildNext_no_failure idx t)
    have hst : (idx.buildNext t false false).2.staged = idx.staged ++ [t] := by
      rw [h2, store_next_staged, h3]
    have htree : (idx.buildNext t false false).2.tree = idx.tree := by
      rw [h2]
      exact h5
    have hdef : (idx.buildNext t false false).2.index_def = idx.index_def := by
      rw [h2]
      exact h6
    have := ih (idx.buildNext t false false).2
    simp only [MemtxTree.build_all]
    rw [this.1, this.2.1, this.2.2, hst, htree, hdef]
    simp

theorem tuple_compare_trans_le {a b c : tuple} {d : key_def} (h1 : tuple_compare a b d ≤ 0)
    (h2 : tuple_compare b c d ≤ 0) : tuple_compare a c d ≤ 0 := by
  rcases lt_or_eq_of_le h1 with h1 | h1
  · rcases lt_or_eq_of_le h2 with h2 | h2
    · exact le_of_lt (tuple_compare_trans h1 h2)
    · rw [← tuple_compare_congr_right h2 a]
      exact le_of_lt h1
  · rw [tuple_compare_congr_left h1 c]
    exact h2

theorem qsort_arg_sorted (l : List tuple) (c : key_def) :
    (qsort_arg l c).Pairwise (fun a b => tuple_compare a b c ≤ 0) := by
  haveI : IsTotal tuple (fun a b => tuple_compare a b c ≤ 0) :=
    ⟨fun a b => by
      have := tuple_compare_swap a b c
      by_cases h : tuple_compare a b c ≤ 0
      · exact Or.inl h
      · exact Or.inr (by omega)⟩
  haveI : IsTrans tuple (fun a b => tuple_compare a b c ≤ 0) :=
    ⟨fun _ _ _ h1 h2 => tuple_compare_trans_le h1 h2⟩
  exact List.sorted_insertionSort (fun a b => tuple_compare a b c ≤ 0) l

theorem sorted_perm_unique (d : key_def) (l₁ l₂ : List tuple)
    (h₁ : l₁.Pairwise (fun a b => tuple_compare a b d < 0))
    (h₂ : l₂.Pairwise (fun a b => tuple_compare a b d < 0)) (hp : l₁.Perm l₂) : l₁ = l₂ := by
  refine List.Perm.eq_of_sorted ?_ h₁ h₂ hp
  intro a b _ _ hab hba
  have := tuple_compare_swap a b d
  omega

theorem insert_all_sorted (recs : List tuple) :
    ∀ idx : MemtxTree, tree_sorted idx.tree →
      recs.Pairwise (fun a b => tuple_compare a b idx.tree.arg ≠ 0) →
      (∀ r ∈ recs, ∀ e ∈ idx.tree.elems, tuple_compare r e idx.tree.arg ≠ 0) →
      (idx.insert_all recs).tree.elems.Pairwise (fun a b => tuple_compare a b idx.tree.arg < 0) ∧
      (idx.insert_all recs).tree.elems.Perm (recs ++ idx.tree.elems) := by
  induction recs with
  | nil =>
    intro idx hs _ _
    exact ⟨hs, by simp [MemtxTree.insert_all]⟩
  | cons t ts ih =>
    intro idx hs hd hno
    have hd' := List.pairwise_cons.1 hd
    have hnone := insert_elems_none_of_no_tie idx.tree.arg t idx.tree.elems
      (fun e he => hno t (by simp) e he)
    have hstep : idx.replace none (some t) .DUP_INSERT false =
        (.ok none, { idx with tree :=
          { arg := idx.tree.arg, elems := (insert_elems idx.tree.arg t idx.tree.elems).1 } }) := by
      rw [replace_new_eq, hnone]
      simp [replace_check_dup]
    have hperm := insert_elems_none_perm idx.tree.arg t idx.tree.elems hnone
    have hsorted := insert_elems_sorted idx.tree.arg t idx.tree.elems hs
    simp only [MemtxTree.insert_all, hstep]
    have := ih { idx with tree :=
        { arg := idx.tree.arg, elems := (insert_elems idx.tree.arg t idx.tree.elems).1 } }
      hsorted hd'.2
      (by
        intro r hr e he
        show tuple_compare r e idx.tree.arg ≠ 0
        rcases List.mem_cons.1 (hperm.subset he) with rfl | he'
        · have h1 := hd'.1 r hr
          have h2 := tuple_compare_swap e r idx.tree.arg
          intro h0
          exact h1 (by omega)
        · exact hno r (by simp [hr]) e he')
    refine ⟨this.1, this.2.trans ?_⟩
    refine (List.Perm.append_left ts hperm).trans ?_
    simp only [List.cons_append]
    exact List.perm_middle

/-- Where the key definition `endBuild` sorts with is the tree's comparator
and no two of the records compare equal under it, the bulk build of any
permutation of the records leaves the tree with the same entries, in the
same order, as inserting the records one at a time in insert-only mode. -/
theorem bulk_build_matches_inserts (d : index_def) (recs perm : List tuple)
    (hagree : endBuild_cmp_def d = (MemtxTree.create d).tree.arg)
    (hdistinct : recs.Pairwise (fun a b => tuple_compare a b (MemtxTree.create d).tree.arg ≠ 0))
    (hperm : perm.Perm recs) :
    ((MemtxTree.create d).beginBuild.build_all perm).endBuild.tree.elems =
      ((MemtxTree.create d).insert_all recs).tree.elems := by
  have hb := build_all_staged perm (MemtxTree.create d).beginBuild
  have hstaged : ((MemtxTree.create d).beginBuild.build_all perm).staged = perm := by
    rw [hb.1]
    simp [MemtxTree.beginBuild, MemtxTree.create, MemtxTree.staged]
  have hdef : ((MemtxTree.create d).beginBuild.build_all perm).index_def = d := by
    rw [hb.2.2]
    rfl
  have hbulk : ((MemtxTree.create d).beginBuild.build_all perm).endBuild.tree.elems =
      qsort_arg perm (MemtxTree.create d).tree.arg := by
    simp only [MemtxTree.endBuild, memtx_tree_build, hstaged, hdef, hagree]
  have hins := insert_all_sorted recs (MemtxTree.create d) (by simp [tree_sorted, MemtxTree.create])
    hdistinct (by simp [MemtxTree.create])
  have hsym : ∀ {x y : tuple}, tuple_compare x y (MemtxTree.create d).tree.arg ≠ 0 →
      tuple_compare y x (MemtxTree.create d).tree.arg ≠ 0 := by
    intro x y h
    have := tuple_compare_swap x y (MemtxTree.create d).tree.arg
    omega
  have hqperm : (qsort_arg perm (MemtxTree.create d).tree.arg).Perm recs :=
    (List.perm_insertionSort _ _).trans hperm
  have hqne := hdistinct.perm hqperm.symm hsym
  have hqlt : (qsort_arg perm (MemtxTree.create d).tree.arg).Pairwise
      (fun a b => tuple_compare a b (MemtxTree.create d).tree.arg < 0) := by
    refine List.Pairwise.imp ?_ (List.Pairwise.and (qsort_arg_sorted perm _) hqne)
    intro a b hab
    have h1 := hab.1
    have h2 := hab.2
    omega
  rw [hbulk]
  apply sorted_perm_unique (MemtxTree.create d).tree.arg _ _ hqlt hins.1
  refine hqperm.trans ?_
  have := hins.2.symm
  simpa [MemtxTree.create] using this

/-- C14: bulk-load equivalence fails on a unique index with a nullable key.
The records with a NULL key and primary keys 1 and 2 are both accepted by
replace in insert-only mode, which orders them by primary key; staged in the
order 2, 1 and bulk loaded, they are sorted by the user key definition, which
ties them, and the full scan yields 2, 1 instead of 1, 2. -/
theorem bulk_build_differs_on_unique_nullable :
    [rec_null 2, rec_null 1].Perm [rec_null 1, rec_null 2] ∧
    ((MemtxTree.create unique_nullable_index_def).replace none (some (rec_null 1))
        .DUP_INSERT false).1 = .ok none ∧
    (((MemtxTree.create unique_nullable_index_def).replace none (some (rec_null 1))
        .DUP_INSERT false).2.replace none (some (rec_null 2)) .DUP_INSERT false).1 = .ok none ∧
    iterate ((MemtxTree.create unique_nullable_index_def).insert_all [rec_null 1, rec_null 2]) 3
        (((MemtxTree.create unique_nullable_index_def).insert_all
          [rec_null 1, rec_null 2]).initIterator fresh_iterator .ITER_ALL none 0) =
      [some (rec_null 1), some (rec_null 2), none] ∧
    iterate ((MemtxTree.create unique_nullable_index_def).beginBuild.build_all
          [rec_null 2, rec_null 1]).endBuild 3
        (((MemtxTree.create unique_nullable_index_def).beginBuild.build_all
          [rec_null 2, rec_null 1]).endBuild.initIterator fresh_iterator .ITER_ALL none 0) =
      [some (rec_null 2), some (rec_null 1), none] :=
  ⟨List.Perm.swap _ _ [], rfl, rfl, by decide, by decide⟩

/-- C15: for a unique index with a nullable key the key definition `endBuild`
sorts with is the user key definition, while the constructor gave the tree
the extended one; the array handed to the bulk load is then not in the
tree's order. For every index that is not both unique and nullable the two
agree. -/
theorem endBuild_comparator_mismatch :
    endBuild_cmp_def unique_nullable_index_def = unique_nullable_index_def.key_def ∧
    (MemtxTree.create unique_nullable_index_def).tree.arg =
      unique_nullable_index_def.cmp_def ∧
    endBuild_cmp_def unique_nullable_index_def ≠
      (MemtxTree.create unique_nullable_index_def).cmp_def ∧
    ((MemtxTree.create unique_nullable_index_def).beginBuild.build_all
        [rec_null 2, rec_null 1]).endBuild.tree.elems = [rec_null 2, rec_null 1] ∧
    ¬ tree_sorted ((MemtxTree.create unique_nullable_index_def).beginBuild.build_all
        [rec_null 2, rec_null 1]).endBuild.tree ∧
    (∀ d : index_def, ¬ (d.opts.is_unique = true ∧ d.key_def.is_nullable = true) →
      endBuild_cmp_def d = (MemtxTree.create d).cmp_def) := by
  refine ⟨rfl, rfl, by decide, by decide, by decide, ?_⟩
  intro d h
  unfold endBuild_cmp_def MemtxTree.create
  by_cases hu : d.opts.is_unique = true <;> by_cases hn : d.key_def.is_nullable = true
  · exact absurd ⟨hu, hn⟩ h
  · simp [hu, hn]
  · simp [hu]
  · simp [hu]

/-! ## Allocation failure in buildNext, and the staging invariant -/

/-- C21: OutOfMemory is raised on both allocation failures of buildNext, and
the staged records, the count and the buffer are those before the call; the
recorded capacity is kept when the first allocation (malloc) fails, but when
the growth (realloc) of a full buffer of capacity c fails it has already
been raised to c + c / 2, so it no longer describes the buffer that is held:
with four slots, all taken, it reads 6 after the failed call. -/
theorem buildNext_oom_capacity :
    (∀ (idx : MemtxTree) (t : tuple) (realloc_fail : Bool), idx.build_array = none →
      idx.buildNext t true realloc_fail = (.error .OutOfMemory, idx)) ∧
    (∀ (idx : MemtxTree) (t : tuple) (malloc_fail : Bool), idx.build_array ≠ none →
      idx.build_array_size = idx.build_array_alloc_size →
      (idx.buildNext t malloc_fail true).1 = .error .OutOfMemory ∧
      (idx.buildNext t malloc_fail true).2.build_array = idx.build_array ∧
      (idx.buildNext t malloc_fail true).2.staged = idx.staged ∧
      (idx.buildNext t malloc_fail true).2.build_array_size = idx.build_array_size ∧
      (idx.buildNext t malloc_fail true).2.build_array_alloc_size =
        idx.build_array_alloc_size + idx.build_array_alloc_size / 2) ∧
    full_staging.build_array =
      some [rec_key 1, rec_key 2, rec_key 3, rec_key 4] ∧
    full_staging.build_array_size = 4 ∧
    full_staging.build_array_alloc_size = 4 ∧
    (full_staging.buildNext (rec_key 5) false true).1 = .error .OutOfMemory ∧
    (full_staging.buildNext (rec_key 5) false true).2.build_array =
      some [rec_key 1, rec_key 2, rec_key 3, rec_key 4] ∧
    (full_staging.buildNext (rec_key 5) false true).2.build_array_alloc_size = 6 ∧
    (full_staging.buildNext (rec_key 5) false true).2 ≠ full_staging := by
  refine ⟨?_, ?_, by decide, by decide, by decide, rfl, by decide, by decide, by decide⟩
  · intro idx t realloc_fail h
    simp [MemtxTree.buildNext, h]
  · intro idx t malloc_fail hnn hfull
    simp [MemtxTree.buildNext, hnn, hfull, MemtxTree.staged]

theorem build_step_ok (idx : MemtxTree) (op : build_op) : (idx.build_step op).1 = .ok () := by
  cases op with
  | reserve n =>
    simp only [MemtxTree.build_step, MemtxTree.reserve]
    split_ifs <;> first | rfl | simp_all
  | buildNext t => exact buildNext_no_failure idx t
  | endBuild => rfl

/-- The staging invariant holds along every sequence of calls whose
reserve hints are at least 2: the count is at most the recorded capacity,
and a buffer that is held has at least two slots. -/
theorem staging_invariant_from_two (ops : List build_op) :
    ∀ idx : MemtxTree, (∀ n, build_op.reserve n ∈ ops → 2 ≤ n) →
      idx.build_array_size ≤ idx.build_array_alloc_size →
      (idx.build_array = none → idx.build_array_size = 0) →
      (idx.build_array ≠ none → 2 ≤ idx.build_array_alloc_size) →
      (idx.build_run ops).build_array_size ≤ (idx.build_run ops).build_array_alloc_size := by
  induction ops with
  | nil => intro idx _ h _ _; exact h
  | cons op ops ih =>
    intro idx hops h1 h2 h3
    simp only [MemtxTree.build_run]
    apply ih
    · intro n hn
      exact hops n (List.mem_cons_of_mem _ hn)
    all_goals
      cases op with
      | reserve n =>
        have hn : 2 ≤ n := hops n (List.mem_cons_self _ _)
        simp only [MemtxTree.build_step, MemtxTree.reserve]
        split_ifs <;> simp_all <;> omega
      | buildNext t =>
        simp only [MemtxTree.build_step, MemtxTree.buildNext, MemtxTree.store_next,
          MEMTX_EXTENT_SIZE, sizeof_tuple_ptr]
        by_cases hb : idx.build_array = none
        · have := h2 hb
          simp [hb, this]
        · have := h3 hb
          simp only [hb, false_and, if_false, Bool.false_eq_true]
          split_ifs <;> simp_all <;> omega
      | endBuild =>
        simp [MemtxTree.build_step, MemtxTree.endBuild]

/-- C26: the staging invariant does not hold along every sequence of
successful calls: on a fresh index reserve(1) and two buildNext calls all
succeed and leave the count 2 above the recorded capacity 1, because growing
a full buffer of capacity 1 gives capacity 1 + 1 / 2 = 1 (the second record
is written past the buffer, and the assertion of buildNext fails at the next
call). Along sequences whose reserve hints are all at least 2 the invariant
holds and a full buffer gets strictly more capacity. -/
theorem staging_invariant_broken_at_one :
    ((MemtxTree.create unique_index_def).build_step (.reserve 1)).1 = .ok () ∧
    (((MemtxTree.create unique_index_def).build_run [.reserve 1]).build_step
      (.buildNext (rec_key 1))).1 = .ok () ∧
    (((MemtxTree.create unique_index_def).build_run
      [.reserve 1, .buildNext (rec_key 1)]).build_step (.buildNext (rec_key 2))).1 = .ok () ∧
    ((MemtxTree.create unique_index_def).build_run
      [.reserve 1, .buildNext (rec_key 1)]).build_array_size = 1 ∧
    ((MemtxTree.create unique_index_def).build_run
      [.reserve 1, .buildNext (rec_key 1)]).build_array_alloc_size = 1 ∧
    ((MemtxTree.create unique_index_def).build_run
      [.reserve 1, .buildNext (rec_key 1), .buildNext (rec_key 2)]).build_array_size = 2 ∧
    ((MemtxTree.create unique_index_def).build_run
      [.reserve 1, .buildNext (rec_key 1), .buildNext (rec_key 2)]).build_array_alloc_size
      = 1 ∧
    (∀ ops : List build_op, (∀ n, build_op.reserve n ∈ ops → 2 ≤ n) →
      ((MemtxTree.create unique_index_def).build_run ops).build_array_size ≤
        ((MemtxTree.create unique_index_def).build_run ops).build_array_alloc_size) ∧
    (∀ (idx : MemtxTree) (t : tuple), idx.build_array ≠ none →
      idx.build_array_size = idx.build_array_alloc_size → 2 ≤ idx.build_array_alloc_size →
      idx.build_array_alloc_size <
        (idx.buildNext t false false).2.build_array_alloc_size) := by
  refine ⟨rfl, rfl, rfl, by decide, by decide, by decide, by decide, ?_, ?_⟩
  · intro ops hops
    exact staging_invariant_from_two ops _ hops (by decide) (fun _ => rfl)
      (fun h => absurd rfl h)
  · intro idx t hnn hfull h2
    simp only [MemtxTree.buildNext, MemtxTree.store_next, hnn, false_and, if_false, hfull,
      if_true, Bool.false_eq_true]
    omega

/-! ## Snapshot isolation -/

theorem snapshot_iterate_frozen (t : memtx_tree) (later : List MemtxTree) :
    ∀ i : Nat,
      snapshot_iterate later { tree_iterator := { pos := t.position i, frozen := some t } } =
        yields later.length (t.elems.drop i) := by
  induction later with
  | nil => intro i; rfl
  | cons idx rest ih =>
    intro i
    by_cases hi : i < t.elems.length
    · have hget : t.elems[i]? = some t.elems[i] := List.getElem?_eq_getElem hi
      have hdrop := getElem?_drop_cons hget
      have hnext : t.next (t.position i) = t.position (i + 1) := by
        simp only [memtx_tree.position, hi, if_true, memtx_tree.next]
      simp only [snapshot_iterate, tree_snapshot_iterator_next, memtx_tree_iterator_get_elem,
        memtx_tree_iterator.view, Option.getD_some, get_position, hget,
        memtx_tree_iterator_next, hnext, ih (i + 1), hdrop, List.length_cons, yields]
    · have hget : t.elems[i]? = none := List.getElem?_eq_none (Nat.le_of_not_lt hi)
      have hdrop : t.elems.drop i = [] := List.drop_eq_nil_of_le (Nat.le_of_not_lt hi)
      have := ih i
      rw [hdrop] at this
      simp only [snapshot_iterate, tree_snapshot_iterator_next, memtx_tree_iterator_get_elem,
        memtx_tree_iterator.view, Option.getD_some, get_position, hget, this, hdrop,
        List.length_cons, yields]

/-- C22: snapshot isolation. A snapshot iterator created on a tree (no
allocation failing) returns, over successive next() calls, the entries the
tree had at creation, in tree order (ascending), and then null on every
further call, whatever state the live index is in at each call. -/
theorem snapshot_isolation (idx : MemtxTree) (later : List MemtxTree) :
    ∃ it : tree_snapshot_iterator, idx.createSnapshotIterator false = .ok it ∧
      snapshot_iterate later it = yields later.length idx.tree.elems := by
  refine ⟨_, rfl, ?_⟩
  have := snapshot_iterate_frozen idx.tree later 0
  simp only [List.drop_zero] at this
  rw [← this]
  simp only [memtx_tree_iterator_freeze, memtx_tree_iterator_first, memtx_tree.first,
    memtx_tree.position]

/-! ## Record references held by an iterator -/

theorem held_append (a b : List ref_event) (r : tuple) :
    held (a ++ b) r = held a r + held b r := by
  simp [held]

theorem start_current (idx : MemtxTree) (it : tree_iterator) (hc : it.current = none) :
    (tree_iterator_start idx it).2.current = (tree_iterator_start idx it).1 ∧
    (tree_iterator_start idx it).2.next ≠ .start := by
  simp only [tree_iterator_start, tree_iterator_start_finish]
  split_ifs <;> (try split) <;>
    simp_all [tree_iterator_set_next_method] <;> (split <;> simp)

theorem advance_current (idx : MemtxTree) (it : tree_iterator) (cur : tuple)
    (hs : it.next ≠ .start) (hc : it.current = some cur) :
    ((iterator_next idx it).2.current = (iterator_next idx it).1 ∨
      (it.next = .dummie ∧ iterator_next idx it = (none, it))) ∧
    (iterator_next idx it).2.next ≠ .start := by
  cases hn : it.next with
  | start => exact absurd hn hs
  | dummie =>
    simp [iterator_next, hn, tree_iterator_dummie]
  | next =>
    simp only [iterator_next, hn, tree_iterator_next, hc]
    split <;> (try split_ifs) <;> simp [hn]
  | prev =>
    simp only [iterator_next, hn, tree_iterator_prev, hc]
    split <;> (try split_ifs) <;> simp [hn]
  | next_equal =>
    simp only [iterator_next, hn, tree_iterator_next_equal, hc]
    split
    · simp
    · split_ifs <;> simp [hn]
  | prev_equal =>
    simp only [iterator_next, hn, tree_iterator_prev_equal, hc]
    split
    · simp
    · split_ifs <;> simp [hn]

theorem held_result (res : Option tuple) (r : tuple) :
    held (match res with
      | some x => [ref_event.tuple_ref x]
      | none => []) r = if res = some r then 1 else 0 := by
  cases res with
  | none => simp [held]
  | some x => simp [held, ref_delta]

/-- One `next()` call changes the references held on each record by what
the iterator owns after it minus what it owned before, and never installs
the start method. -/
theorem next_refs_delta (idx : MemtxTree) (it : tree_iterator)
    (hJ : it.next = .start → it.current = none) (r : tuple) :
    held (iterator_next_refs idx it) r =
      owned (iterator_next idx it).2 r - owned it r ∧
    (iterator_next idx it).2.next ≠ .start := by
  by_cases hn : it.next = .start
  · have hc := hJ hn
    have hs := start_current idx it hc
    have hres : iterator_next idx it = tree_iterator_start idx it := by
      simp only [iterator_next, hn]
    refine ⟨?_, by rw [hres]; exact hs.2⟩
    simp only [iterator_next_refs, hn, held_result, owned, hres, hs.1, hc]
    simp
  · cases hc : it.current with
    | none =>
      have hsame : iterator_next idx it = (none, it) := by
        cases hm : it.next <;>
          simp_all [iterator_next, tree_iterator_dummie, tree_iterator_next, tree_iterator_prev,
            tree_iterator_next_equal, tree_iterator_prev_equal]
      have hrefs : iterator_next_refs idx it = [] := by
        cases hm : it.next <;> simp_all [iterator_next_refs]
      rw [hrefs, hsame]
      exact ⟨by simp [held], hn⟩
    | some cur =>
      have hadv := advance_current idx it cur hn hc
      refine ⟨?_, hadv.2⟩
      rcases hadv.1 with h | ⟨hd, hsame⟩
      · by_cases hd : it.next = .dummie
        · have hsame : iterator_next idx it = (none, it) := by
            simp [iterator_next, hd, tree_iterator_dummie]
          have hrefs : iterator_next_refs idx it = [] := by
            simp [iterator_next_refs, hd]
          rw [hrefs, hsame]
          simp [held]
        · have hrefs : iterator_next_refs idx it =
              .tuple_unref cur :: (match (iterator_next idx it).1 with
                | some res => [ref_event.tuple_ref res]
                | none => []) := by
            cases hm : it.next <;> simp_all [iterator_next_refs]
          rw [hrefs]
          have hcons : ∀ (e : ref_event) (l : List ref_event),
              held (e :: l) r = ref_delta r e + held l r := by
            intro e l
            simp [held]
          rw [hcons, held_result]
          simp only [owned, h, hc, ref_delta, Option.some.injEq]
          split_ifs <;> omega
      · have hrefs : iterator_next_refs idx it = [] := by
          simp [iterator_next_refs, hd]
        rw [hrefs, hsame]
        simp [held]

theorem op_refs_delta (it : tree_iterator) (op : iterator_op)
    (hJ : it.next = .start → it.current = none) (r : tuple) :
    held (op.apply it).2 r = owned (op.apply it).1 r - owned it r ∧
    ((op.apply it).1.next = .start → (op.apply it).1.current = none) := by
  cases op with
  | initIterator idx type key part_count =>
    refine ⟨?_, fun _ => rfl⟩
    have hafter : owned (idx.initIterator it type key part_count) r = 0 := by
      simp [owned, MemtxTree.initIterator]
    simp only [iterator_op.apply, hafter]
    cases hc : it.current with
    | none => simp [initIterator_refs, hc, held, owned]
    | some cur =>
      by_cases hr : cur = r
      · simp [initIterator_refs, hc, held, owned, ref_delta, hr]
      · simp [initIterator_refs, hc, held, owned, ref_delta, hr]
  | next idx =>
    have := next_refs_delta idx it hJ r
    exact ⟨this.1, fun h => absurd h this.2⟩

theorem iterator_life_owned (ops : List iterator_op) :
    ∀ it : tree_iterator, (it.next = .start → it.current = none) → ∀ r : tuple,
      held (iterator_life ops it).2 r = owned (iterator_life ops it).1 r - owned it r := by
  induction ops with
  | nil =>
    intro it _ r
    simp [iterator_life, held]
  | cons op ops ih =>
    intro it hJ r
    have hop := op_refs_delta it op hJ r
    have := ih (op.apply it).1 hop.2 r
    simp only [iterator_life, held_append, hop.1, this]
    omega

/-- C23: iterator reference ownership. Along every sequence of
initIterator and next calls on an iterator that starts without a current
record (as allocIterator leaves it), on trees in any state, the references
the iterator has taken and not released are exactly one on its current
record when it has one and none otherwise; and after the free call that
ends its life no reference is left on any record. -/
theorem iterator_reference_ownership (ops : List iterator_op) (it0 : tree_iterator)
    (h0 : it0.current = none) (r : tuple) :
    held (iterator_life ops it0).2 r =
      (if (iterator_life ops it0).1.current = some r then 1 else 0) ∧
    held ((iterator_life ops it0).2 ++ tree_iterator_free_refs (iterator_life ops it0).1) r
      = 0 := by
  have hlife := iterator_life_owned ops it0 (fun _ => h0) r
  have h0r : owned it0 r = 0 := by simp [owned, h0]
  rw [h0r, sub_zero] at hlife
  refine ⟨hlife, ?_⟩
  rw [held_append, hlife]
  cases hc : (iterator_life ops it0).1.current with
  | none => simp [tree_iterator_free_refs, hc, held, owned]
  | some cur =>
    by_cases hr : cur = r
    · simp [tree_iterator_free_refs, hc, held, owned, ref_delta, hr]
    · simp [tree_iterator_free_refs, hc, held, owned, ref_delta, hr]

/-- Witness of C23: an ALL scan over the keys 1, 3, 5 that is initialised
and advanced twice stands on the record 3 and holds one reference on it, and
none once it is freed. -/
theorem iterator_reference_ownership_witness :
    fresh_iterator.current = none ∧
    (iterator_life [.initIterator idx531 .ITER_ALL none 0, .next idx531, .next idx531]
      fresh_iterator).1.current = some (rec_key 3) ∧
    held (iterator_life [.initIterator idx531 .ITER_ALL none 0, .next idx531, .next idx531]
      fresh_iterator).2 (rec_key 3) = 1 ∧
    held ((iterator_life [.initIterator idx531 .ITER_ALL none 0, .next idx531, .next idx531]
      fresh_iterator).2 ++
      tree_iterator_free_refs
        (iterator_life [.initIterator idx531 .ITER_ALL none 0, .next idx531, .next idx531]
          fresh_iterator).1) (rec_key 3) = 0 :=
  ⟨rfl, by decide,
   (iterator_reference_ownership
      [.initIterator idx531 .ITER_ALL none 0, .next idx531, .next idx531] fresh_iterator rfl
      (rec_key 3)).1.trans (by decide),
   (iterator_reference_ownership
      [.initIterator idx531 .ITER_ALL none 0, .next idx531, .next idx531] fresh_iterator rfl
      (rec_key 3)).2⟩

/-! ## Re-synchronisation of a reverse scan -/

/-- The step `tree_iterator_prev` takes from a positioned state, whatever
the tree has become: the result is the greatest entry below `current`. -/
theorem resync_prev (idx : MemtxTree) (it : tree_iterator) (x : tuple)
    (hn : it.next = .prev) (hc : it.current = some x) (hs : tree_sorted idx.tree) :
    greatest_entry idx.tree (fun t => tuple_compare t x idx.tree.arg < 0)
      (iterator_next idx it).1 := by
  have hres : (iterator_next idx it).1 = idx.tree.get (idx.tree.prev
      (if idx.tree.get it.tree_iterator = none ∨ idx.tree.get it.tree_iterator ≠ some x then
        idx.tree.lowerBound_elem x else it.tree_iterator)) := by
    simp only [iterator_next, hn, tree_iterator_prev, hc]
    split_ifs <;> (split <;> simp_all)
  rw [hres]
  by_cases hstale :
      idx.tree.get it.tree_iterator = none ∨ idx.tree.get it.tree_iterator ≠ some x
  · rw [if_pos hstale]
    obtain ⟨P, Q, hl, hP, hQ, hidx⟩ := findIdx_cut idx.tree.arg
      (fun e => decide (0 ≤ tuple_compare e x idx.tree.arg)) idx.tree.elems hs
      (fun a b => not_below_mono idx.tree.arg x a b)
    unfold memtx_tree.lowerBound_elem
    have hle : P.length ≤ idx.tree.elems.length := by
      rw [hl]
      simp
    rw [hidx, get_prev_position _ _ hle]
    have hlast := getElem?_split_last P Q
    rw [← hl] at hlast
    rw [hlast]
    apply greatest_of_split idx.tree _ P Q hl hs
    · intro y hy
      have := hP y hy
      simp only [decide_eq_false_iff_not] at this
      omega
    · intro y hy
      have := hQ y hy
      simp only [decide_eq_true_eq] at this
      omega
  · rw [if_neg hstale]
    have hcheck : idx.tree.get it.tree_iterator = some x := by
      by_contra hne
      exact hstale (Or.inr hne)
    cases hp : it.tree_iterator with
    | none => simp [hp, memtx_tree.get] at hcheck
    | some p =>
      rw [hp] at hcheck
      simp only [memtx_tree.get] at hcheck
      have hplt : p < idx.tree.elems.length := by
        by_contra hge
        rw [List.getElem?_eq_none (Nat.le_of_not_lt hge)] at hcheck
        cases hcheck
      have hl : idx.tree.elems = idx.tree.elems.take p ++ idx.tree.elems.drop p :=
        (List.take_append_drop _ _).symm
      have hlen : (idx.tree.elems.take p).length = p := by
        rw [List.length_take]
        omega
      have hprev : idx.tree.get (idx.tree.prev (some p)) =
          (idx.tree.elems.take p).getLast? := by
        have hlast := getElem?_split_last (idx.tree.elems.take p) (idx.tree.elems.drop p)
        rw [← hl, hlen] at hlast
        rw [← hlast]
        simp only [memtx_tree.prev]
        split_ifs
        · rfl
        · rfl
      rw [hprev]
      have hdrop : idx.tree.elems.drop p = x :: idx.tree.elems.drop (p + 1) :=
        getElem?_drop_cons hcheck
      have hsorted := hs
      unfold tree_sorted at hsorted
      rw [hl, hdrop] at hsorted
      apply greatest_of_split idx.tree _ _ _ hl hs
      · intro y hy
        exact (List.pairwise_append.1 hsorted).2.2 y hy x (by simp)
      · intro y hy
        rw [hdrop] at hy
        rcases List.mem_cons.1 hy with rfl | h
        · rw [tuple_compare_self]
          omega
        · have := (List.pairwise_cons.1 (List.pairwise_append.1 hsorted).2.1).1 y h
          have hsw := tuple_compare_swap x y idx.tree.arg
          omega

/-- After a reverse, non-equality scan has returned `x`, it carries the
method `tree_iterator_prev` and `x` as its current record. -/
theorem reverse_state_after_result (idx : MemtxTree) (it : tree_iterator) (x : tuple)
    (hty : it.type = .ITER_LT ∨ it.type = .ITER_LE)
    (hst : it.next = .start ∨ it.next = .prev)
    (hret : (iterator_next idx it).1 = some x) :
    (iterator_next idx it).2.next = .prev ∧ (iterator_next idx it).2.current = some x := by
  revert hret
  rcases hst with hn | hn
  · simp only [iterator_next, hn, tree_iterator_start, tree_iterator_start_finish]
    rcases hty with ht | ht <;>
      (simp only [ht]; split_ifs <;> (try split) <;>
        simp_all [tree_iterator_set_next_method])
  · simp only [iterator_next, hn, tree_iterator_prev]
    split
    · simp
    · split_ifs <;> (split <;> simp_all)

/-- C25: re-sync, reverse direction. When a reverse non-equality scan (LT,
LE) has just returned the entry x, then whatever the tree has become by the
next call (any sequence of inserts and deletes, deleting x included), that
call returns the greatest entry of the current tree that is strictly less
than x, or no-result if there is none; in particular it does not return x
again. -/
theorem resync_reverse (idx : MemtxTree) (it : tree_iterator) (x : tuple) (idx' : MemtxTree)
    (hty : it.type = .ITER_LT ∨ it.type = .ITER_LE)
    (hst : it.next = .start ∨ it.next = .prev)
    (hret : (iterator_next idx it).1 = some x)
    (hs : tree_sorted idx'.tree) :
    greatest_entry idx'.tree (fun t => tuple_compare t x idx'.tree.arg < 0)
      (iterator_next idx' (iterator_next idx it).2).1 ∧
    (iterator_next idx' (iterator_next idx it).2).1 ≠ some x := by
  have hstate := reverse_state_after_result idx it x hty hst hret
  have hgreatest := resync_prev idx' (iterator_next idx it).2 x hstate.1 hstate.2 hs
  refine ⟨hgreatest, ?_⟩
  intro heq
  rw [heq] at hgreatest
  have hlt : tuple_compare x x idx'.tree.arg < 0 := hgreatest.2.1
  rw [tuple_compare_self] at hlt
  omega

/-- Witness of C25: the LE scan over the keys 1, 3, 5 returns 5; after 5 is
deleted the next call returns 3. -/
theorem resync_reverse_witness :
    (iterator_next idx531 (idx531.initIterator fresh_iterator .ITER_LE none 0)).1 =
      some (rec_key 5) ∧
    tree_sorted idx531_without_5.tree ∧
    idx531_without_5.tree.elems = [rec_key 1, rec_key 3] ∧
    greatest_entry idx531_without_5.tree
      (fun t => tuple_compare t (rec_key 5) idx531_without_5.tree.arg < 0)
      (iterator_next idx531_without_5
        (iterator_next idx531 (idx531.initIterator fresh_iterator .ITER_LE none 0)).2).1 ∧
    (iterator_next idx531_without_5
        (iterator_next idx531 (idx531.initIterator fresh_iterator .ITER_LE none 0)).2).1 =
      some (rec_key 3) :=
  ⟨by decide, by decide, by decide,
   (resync_reverse idx531 (idx531.initIterator fresh_iterator .ITER_LE none 0) (rec_key 5)
      idx531_without_5 (by decide) (by decide) (by decide) (by decide)).1,
   by decide⟩

end memtx

namespace checkpoint

/-! ## The checkpoint iterator -/

theorem vclockset_next_split (P Q : List vclock) (c : vclock)
    (h : vclockset_ordered (P ++ c :: Q)) : vclockset_next (P ++ c :: Q) c = Q.head? := by
  unfold vclockset_ordered at h
  unfold vclockset_next
  have hP : ∀ y ∈ P, y < c := fun y hy => (List.pairwise_append.1 h).2.2 y hy c (by simp)
  have hQ : ∀ y ∈ Q, c < y := (List.pairwise_cons.1 (List.pairwise_append.1 h).2.1).1
  rw [List.find?_append]
  have h1 : List.find? (fun w => decide (c < w)) P = none := by
    rw [List.find?_eq_none]
    intro y hy
    have := hP y hy
    simp only [decide_eq_true_eq]
    exact lt_asymm this
  rw [h1]
  simp only [Option.none_or, List.find?_cons, lt_self_iff_false, decide_False]
  cases Q with
  | nil => rfl
  | cons q qs =>
    have := hQ q (by simp)
    simp [this]

theorem vclockset_prev_split (P Q : List vclock) (c : vclock)
    (h : vclockset_ordered (P ++ c :: Q)) : vclockset_prev (P ++ c :: Q) c = P.getLast? := by
  unfold vclockset_ordered at h
  unfold vclockset_prev
  have hP : ∀ y ∈ P, y < c := fun y hy => (List.pairwise_append.1 h).2.2 y hy c (by simp)
  have hQ : ∀ y ∈ Q, c < y := (List.pairwise_cons.1 (List.pairwise_append.1 h).2.1).1
  have h1 : List.filter (fun w => decide (w < c)) P = P := by
    rw [List.filter_eq_self]
    intro y hy
    simpa using hP y hy
  have h2 : List.filter (fun w => decide (w < c)) (c :: Q) = [] := by
    rw [List.filter_eq_nil_iff]
    intro y hy
    rcases List.mem_cons.1 hy with rfl | hy
    · simp
    · have := hQ y hy
      simp only [decide_eq_true_eq]
      exact lt_asymm this
  rw [List.filter_append, h1, h2, List.append_nil]

theorem iterate_next_succ (index : vclockset) (n : Nat) (c : vclock) :
    iterate_next index (n + 1) { curr := some c } =
      vclockset_next index c :: iterate_next index n { curr := vclockset_next index c } :=
  rfl

theorem iterate_prev_succ (index : vclockset) (n : Nat) (c : vclock) :
    iterate_prev index (n + 1) { curr := some c } =
      vclockset_prev index c :: iterate_prev index n { curr := vclockset_prev index c } :=
  rfl

theorem iterate_next_from (Q : List vclock) :
    ∀ (P : List vclock) (c : vclock), vclockset_ordered (P ++ c :: Q) →
      iterate_next (P ++ c :: Q) (Q.length + 1) { curr := some c } =
        Q.map some ++ [none] := by
  induction Q with
  | nil =>
    intro P c h
    rw [iterate_next_succ, vclockset_next_split P [] c h]
    rfl
  | cons q qs ih =>
    intro P c h
    have hstep := vclockset_next_split P (q :: qs) c h
    have heq : P ++ c :: q :: qs = (P ++ [c]) ++ q :: qs := by simp
    have := ih (P ++ [c]) q (by rw [← heq]; exact h)
    rw [← heq] at this
    rw [List.length_cons, iterate_next_succ, hstep, List.head?_cons, this]
    rfl

theorem iterate_prev_from (n : Nat) :
    ∀ (P Q : List vclock) (c : vclock), P.length = n → vclockset_ordered (P ++ c :: Q) →
      iterate_prev (P ++ c :: Q) (n + 1) { curr := some c } =
        P.reverse.map some ++ [none] := by
  induction n with
  | zero =>
    intro P Q c hn h
    have : P = [] := List.length_eq_zero.1 hn
    subst this
    rw [iterate_prev_succ, vclockset_prev_split [] Q c h]
    rfl
  | succ n ih =>
    intro P Q c hn h
    rcases List.eq_nil_or_concat P with rfl | ⟨P', p, rfl⟩
    · simp at hn
    · rw [List.concat_eq_append] at hn h ⊢
      have hstep := vclockset_prev_split (P' ++ [p]) Q c h
      have hlast : (P' ++ [p]).getLast? = some p := by simp
      have heq : (P' ++ [p]) ++ c :: Q = P' ++ p :: c :: Q := by simp
      have hlen : P'.length = n := by simpa using hn
      have := ih P' (c :: Q) p hlen (by rw [← heq]; exact h)
      rw [← heq] at this
      rw [iterate_prev_succ, hstep, hlast, this]
      simp

/-- C24: checkpoint marker traversal. On a snapshot directory index that
holds its markers in strictly ascending order, the calls of
checkpoint_iterator_next from a fresh iterator return every marker, oldest
to newest, and then null; the calls of checkpoint_iterator_prev from a
fresh iterator return the same markers in the reverse order and then
null. -/
theorem checkpoint_traversal (index : vclockset) (h : vclockset_ordered index) :
    iterate_next index (index.length + 1) fresh_checkpoint_iterator =
      index.map some ++ [none] ∧
    iterate_prev index (index.length + 1) fresh_checkpoint_iterator =
      index.reverse.map some ++ [none] := by
  constructor
  · cases index with
    | nil => rfl
    | cons c Q =>
      have := iterate_next_from Q [] c h
      simp only [List.nil_append] at this
      have hfirst : iterate_next (c :: Q) ((c :: Q).length + 1) fresh_checkpoint_iterator =
          some c :: iterate_next (c :: Q) (Q.length + 1) { curr := some c } := rfl
      rw [hfirst, this]
      rfl
  · rcases List.eq_nil_or_concat index with rfl | ⟨P, c, rfl⟩
    · rfl
    · rw [List.concat_eq_append] at h ⊢
      have := iterate_prev_from P.length P [] c rfl h
      have hlast : (P ++ [c]).getLast? = some c := by simp
      have hfirst : iterate_prev (P ++ [c]) ((P ++ [c]).length + 1) fresh_checkpoint_iterator =
          (P ++ [c]).getLast? ::
            iterate_prev (P ++ [c]) (P ++ [c]).length { curr := (P ++ [c]).getLast? } := rfl
      have hl : (P ++ [c]).length = P.length + 1 := by simp
      rw [hfirst, hlast, hl, this]
      simp

/-- Witness of C24: over the markers 1, 4, 9 the forward calls return 1, 4,
9, null and the backward calls 9, 4, 1, null. -/
theorem checkpoint_traversal_witness :
    vclockset_ordered [1, 4, 9] ∧
    iterate_next [1, 4, 9] 4 fresh_checkpoint_iterator = [some 1, some 4, some 9, none] ∧
    iterate_prev [1, 4, 9] 4 fresh_checkpoint_iterator = [some 9, some 4, some 1, none] :=
  ⟨by decide, (checkpoint_traversal [1, 4, 9] (by decide)).1,
   (checkpoint_traversal [1, 4, 9] (by decide)).2⟩

end checkpoint

namespace pragma

/-! ## The safety level keywords -/

theorem upper_to_lower_eq_zero (c : Nat) : sqlite3UpperToLower c = 0 ↔ c = 0 := by
  unfold sqlite3UpperToLower
  by_cases h : 65 ≤ c ∧ c ≤ 90
  · rw [if_pos h]
    constructor <;> intro h0 <;> omega
  · rw [if_neg h]

theorem isdigit_upper_to_lower (c : Nat) :
    sqlite3Isdigit (sqlite3UpperToLower c) = sqlite3Isdigit c := by
  unfold sqlite3Isdigit sqlite3UpperToLower
  by_cases h : 65 ≤ c ∧ c ≤ 90
  · rw [if_pos h]
    have h1 : ¬ (48 ≤ c + 32 ∧ c + 32 ≤ 57) := by omega
    have h2 : ¬ (48 ≤ c ∧ c ≤ 57) := by omega
    rw [decide_eq_false h1, decide_eq_false h2]
  · rw [if_neg h]

theorem byte_at_fold_case (z : List Nat) :
    byte_at (fold_case z) = sqlite3UpperToLower (byte_at z) := by
  cases z with
  | nil => rfl
  | cons a z => rfl

theorem is_c_string_of_fold (z : List Nat) (h : is_c_string (fold_case z)) : is_c_string z := by
  intro b hb h0
  apply h (sqlite3UpperToLower b) (List.mem_map_of_mem _ hb)
  rw [upper_to_lower_eq_zero]
  exact h0

theorem strlen_c_string (z : List Nat) (h : is_c_string z) : strlen z = z.length := by
  unfold strlen
  rw [List.takeWhile_eq_self_iff.2]
  intro b hb
  simpa using h b hb

/-- On a C string `z` of `N` bytes, `sqlite3StrNICmp(a, z, N)` is 0 exactly
when the first `N` bytes of `a` and `z` are equal up to case. -/
theorem strnicmp_eq_zero_iff (N : Nat) :
    ∀ a z : List Nat, z.length = N → N ≤ a.length → is_c_string z →
      is_c_string (a.take N) →
      (sqlite3StrNICmp a z N = 0 ↔ fold_case (a.take N) = fold_case z) := by
  induction N with
  | zero =>
    intro a z hz _ _ _
    have : z = [] := List.length_eq_zero.1 hz
    subst this
    simp [sqlite3StrNICmp, fold_case]
  | succ N ih =>
    intro a z hz ha hcz hca
    cases z with
    | nil => simp at hz
    | cons y z =>
      cases a with
      | nil => simp at ha
      | cons x a =>
        have hx : x ≠ 0 := hca x (by simp)
        have hy : y ≠ 0 := hcz y (by simp)
        have hrec := ih a z (by simpa using hz) (by simpa using ha)
          (fun b hb => hcz b (List.mem_cons_of_mem _ hb))
          (fun b hb => hca b (by simp [hb]))
        simp only [sqlite3StrNICmp, byte_at, List.headD_cons, List.tail_cons, List.take_succ_cons,
          fold_case, List.map_cons, List.cons.injEq]
        by_cases hxy : sqlite3UpperToLower x = sqlite3UpperToLower y
        · rw [if_pos ⟨hx, hxy⟩]
          simp only [fold_case] at hrec
          rw [hrec]
          simp [hxy]
        · rw [if_neg (fun h => hxy h.2)]
          constructor
          · intro h
            exfalso
            apply hxy
            omega
          · intro h
            exact absurd h.1 hxy

theorem entry_matches (a z : List Nat) (L : Nat) (hz : is_c_string z) (hL : L ≤ a.length)
    (ha : is_c_string (a.take L)) :
    (L = z.length ∧ sqlite3StrNICmp a z z.length = 0) ↔ fold_case z = fold_case (a.take L) := by
  constructor
  · rintro ⟨hl, h⟩
    subst hl
    exact ((strnicmp_eq_zero_iff z.length a z rfl hL hz ha).1 h).symm
  · intro h
    have hl : L = z.length := by
      have := congrArg List.length h
      simp only [fold_case, List.length_map, List.length_take] at this
      omega
    subst hl
    exact ⟨rfl, (strnicmp_eq_zero_iff z.length a z rfl hL hz ha).2 h.symm⟩

theorem find?_congr_mem (f g : Nat → Bool) (l : List Nat) (h : ∀ i ∈ l, f i = g i) :
    l.find? f = l.find? g := by
  induction l with
  | nil => rfl
  | cons x xs ih =>
    simp only [List.find?_cons, h x (by simp)]
    rw [ih (fun i hi => h i (List.mem_cons_of_mem _ hi))]

theorem keyword_matches_eq (z : List Nat) (omitFull : Int) (hz : is_c_string z)
    (hlen : z.length < 2 ^ 30) (i : Nat) (hi : i ∈ List.range iLength.length) :
    keyword_matches z omitFull (sqlite3Strlen30 z) i =
      (decide (fold_case z = keywords.getD i []) &&
       (decide (omitFull = 0) || decide (iValue.getD i 0 ≤ 1))) := by
  have hn : sqlite3Strlen30 z = z.length := by
    unfold sqlite3Strlen30
    rw [strlen_c_string z hz]
    exact Nat.mod_eq_of_lt hlen
  have hi8 : i < 8 := by simpa [iLength] using hi
  rw [hn]
  unfold keyword_matches
  congr 1
  have key : ∀ (off L : Nat) (kw : List Nat), L ≤ (zText.drop off).length →
      is_c_string ((zText.drop off).take L) → fold_case ((zText.drop off).take L) = kw →
      (decide (L = z.length) && decide (sqlite3StrNICmp (zText.drop off) z z.length = 0)) =
        decide (fold_case z = kw) := by
    intro off L kw h1 h2 h3
    have := entry_matches (zText.drop off) z L hz h1 h2
    rw [h3] at this
    rw [← Bool.decide_and]
    exact decide_eq_decide.2 this
  interval_cases i
  · exact key 0 2 _ (by decide) (by decide) (by decide)
  · exact key 1 2 _ (by decide) (by decide) (by decide)
  · exact key 2 3 _ (by decide) (by decide) (by decide)
  · exact key 4 5 _ (by decide) (by decide) (by decide)
  · exact key 9 3 _ (by decide) (by decide) (by decide)
  · exact key 12 4 _ (by decide) (by decide) (by decide)
  · exact key 15 5 _ (by decide) (by decide) (by decide)
  · exact key 20 4 _ (by decide) (by decide) (by decide)

/-- On a C string shorter than 2^30 bytes that does not start with a digit
`getSafetyLevel` is the keyword table applied to the lower-cased string. -/
theorem getSafetyLevel_eq (sqlite3Atoi : List Nat → Int) (z : List Nat) (omitFull : Int)
    (dflt : Nat) (hz : is_c_string z) (hlen : z.length < 2 ^ 30)
    (hd : sqlite3Isdigit (byte_at z) = false) :
    getSafetyLevel sqlite3Atoi z omitFull dflt = safety_level_of (fold_case z) omitFull dflt := by
  unfold getSafetyLevel safety_level_of
  rw [hd]
  simp only [Bool.false_eq_true, if_false]
  rw [find?_congr_mem _ _ _ (keyword_matches_eq z omitFull hz hlen)]
  rfl

theorem getSafetyLevel_keyword (sqlite3Atoi : List Nat → Int) (z : List Nat) (omitFull : Int)
    (dflt : Nat) (kw : List Nat) (hkw : kw ∈ keywords) (h : fold_case z = kw) :
    getSafetyLevel sqlite3Atoi z omitFull dflt = safety_level_of kw omitFull dflt := by
  have hmem : ∀ k ∈ keywords, is_c_string k ∧ k.length < 2 ^ 30 ∧
      sqlite3Isdigit (byte_at k) = false := by decide
  have hk := hmem kw hkw
  rw [← h] at hk
  have hz := is_c_string_of_fold z hk.1
  have hlen : z.length < 2 ^ 30 := by
    have := hk.2.1
    simpa [fold_case] using this
  have hd : sqlite3Isdigit (byte_at z) = false := by
    rw [← isdigit_upper_to_lower, ← byte_at_fold_case]
    exact hk.2.2
  rw [getSafetyLevel_eq sqlite3Atoi z omitFull dflt hz hlen hd, h]

/-- C27: the keyword table of getSafetyLevel. For every string z that is,
up to case, one of the keywords (so it does not start with a digit), with
omitFull = 0 the result is 1 for "on", "yes" and "true", 0 for "off", "no"
and "false", 2 for "full" and 3 for "extra"; with omitFull = 1 "full" and
"extra" give the default and the other keywords their value; and each
keyword is the text at its offset and length in the packed text. -/
theorem getSafetyLevel_keyword_table (sqlite3Atoi : List Nat → Int) (z : List Nat)
    (dflt : Nat) :
    (fold_case z = c_str "on" ∨ fold_case z = c_str "yes" ∨ fold_case z = c_str "true" →
      getSafetyLevel sqlite3Atoi z 0 dflt = 1 ∧ getSafetyLevel sqlite3Atoi z 1 dflt = 1) ∧
    (fold_case z = c_str "off" ∨ fold_case z = c_str "no" ∨ fold_case z = c_str "false" →
      getSafetyLevel sqlite3Atoi z 0 dflt = 0 ∧ getSafetyLevel sqlite3Atoi z 1 dflt = 0) ∧
    (fold_case z = c_str "full" → getSafetyLevel sqlite3Atoi z 0 dflt = 2) ∧
    (fold_case z = c_str "extra" → getSafetyLevel sqlite3Atoi z 0 dflt = 3) ∧
    (fold_case z = c_str "full" ∨ fold_case z = c_str "extra" →
      getSafetyLevel sqlite3Atoi z 1 dflt = dflt) ∧
    List.zipWith (fun off len => (zText.drop off).take len) iOffset iLength =
      [c_str "on", c_str "no", c_str "off", c_str "false", c_str "yes", c_str "true",
       c_str "extra", c_str "full"] := by
  refine ⟨?_, ?_, ?_, ?_, ?_, by decide⟩
  · rintro (h | h | h) <;>
      exact ⟨(getSafetyLevel_keyword sqlite3Atoi z 0 dflt _ (by decide) h).trans rfl,
        (getSafetyLevel_keyword sqlite3Atoi z 1 dflt _ (by decide) h).trans rfl⟩
  · rintro (h | h | h) <;>
      exact ⟨(getSafetyLevel_keyword sqlite3Atoi z 0 dflt _ (by decide) h).trans rfl,
        (getSafetyLevel_keyword sqlite3Atoi z 1 dflt _ (by decide) h).trans rfl⟩
  · intro h
    exact (getSafetyLevel_keyword sqlite3Atoi z 0 dflt _ (by decide) h).trans rfl
  · intro h
    exact (getSafetyLevel_keyword sqlite3Atoi z 0 dflt _ (by decide) h).trans rfl
  · rintro (h | h) <;>
      exact (getSafetyLevel_keyword sqlite3Atoi z 1 dflt _ (by decide) h).trans rfl

/-- Witness of C27: "Yes" gives 1 and "FULL" gives 2 with omitFull = 0, and
"FULL" gives the default 7 with omitFull = 1. -/
theorem getSafetyLevel_keyword_table_witness :
    fold_case (c_str "Yes") = c_str "yes" ∧
    getSafetyLevel atoi_unused (c_str "Yes") 0 7 = 1 ∧
    getSafetyLevel atoi_unused (c_str "FULL") 0 7 = 2 ∧
    getSafetyLevel atoi_unused (c_str "FULL") 1 7 = 7 :=
  ⟨by decide,
   ((getSafetyLevel_keyword_table atoi_unused (c_str "Yes") 7).1
      (Or.inr (Or.inl (by decide)))).1,
   (getSafetyLevel_keyword_table atoi_unused (c_str "FULL") 7).2.2.1 (by decide),
   (getSafetyLevel_keyword_table atoi_unused (c_str "FULL") 7).2.2.2.2.1
      (Or.inl (by decide))⟩

/-- What getSafetyLevel returns outside its keyword table: 1 for ON; for
NORMAL, for the empty string and for every other string that is not a
keyword (a C string shorter than 2^30 bytes that does not start with a
digit) the dflt parameter, whatever omitFull is; sqlite3GetBoolean then
returns whether dflt is non-zero. -/
theorem getSafetyLevel_returns_dflt (sqlite3Atoi : List Nat → Int) (z : List Nat) (omitFull : Int)
    (dflt : Nat) :
    (fold_case z = c_str "on" → getSafetyLevel sqlite3Atoi z omitFull dflt = 1) ∧
    (z = [] ∨ fold_case z = c_str "normal" ∨
      (is_c_string z ∧ z.length < 2 ^ 30 ∧ sqlite3Isdigit (byte_at z) = false ∧
        fold_case z ∉ keywords) →
      getSafetyLevel sqlite3Atoi z omitFull dflt = dflt ∧
      sqlite3GetBoolean sqlite3Atoi z dflt = if dflt ≠ 0 then 1 else 0) := by
  have hgen : is_c_string z ∧ z.length < 2 ^ 30 ∧ sqlite3Isdigit (byte_at z) = false ∧
      fold_case z ∉ keywords →
      ∀ o : Int, getSafetyLevel sqlite3Atoi z o dflt = dflt := by
    rintro ⟨hz, hlen, hd, hun⟩ o
    rw [getSafetyLevel_eq sqlite3Atoi z o dflt hz hlen hd]
    unfold safety_level_of
    have hnone : (List.range 8).find? (fun i =>
        decide (fold_case z = keywords.getD i []) &&
        (decide (o = 0) || decide (iValue.getD i 0 ≤ 1))) = none := by
      rw [List.find?_eq_none]
      intro i hi
      have hi8 : i < 8 := by simpa using hi
      have hmem : keywords.getD i [] ∈ keywords := by
        interval_cases i <;> decide
      have hne : fold_case z ≠ keywords.getD i [] := fun h => hun (h ▸ hmem)
      rw [decide_eq_false hne]
      simp
    rw [hnone]
  have hall : (z = [] ∨ fold_case z = c_str "normal" ∨
      (is_c_string z ∧ z.length < 2 ^ 30 ∧ sqlite3Isdigit (byte_at z) = false ∧
        fold_case z ∉ keywords)) →
      is_c_string z ∧ z.length < 2 ^ 30 ∧ sqlite3Isdigit (byte_at z) = false ∧
        fold_case z ∉ keywords := by
    rintro (h | h | h)
    · subst h
      decide
    · have hk : is_c_string (fold_case z) ∧ (fold_case z).length < 2 ^ 30 ∧
          sqlite3Isdigit (byte_at (fold_case z)) = false ∧ fold_case z ∉ keywords := by
        rw [h]
        decide
      refine ⟨is_c_string_of_fold z hk.1, by simpa [fold_case] using hk.2.1, ?_, hk.2.2.2⟩
      rw [← isdigit_upper_to_lower, ← byte_at_fold_case]
      exact hk.2.2.1
    · exact h
  constructor
  · intro h
    have := getSafetyLevel_keyword sqlite3Atoi z omitFull dflt _ (by decide) h
    rw [this]
    unfold safety_level_of
    by_cases ho : omitFull = 0
    · subst ho
      rfl
    · have : (List.range 8).find? (fun i =>
          decide (c_str "on" = keywords.getD i []) &&
          (decide (omitFull = 0) || decide (iValue.getD i 0 ≤ 1))) = some 0 := by
        simp only [ho, decide_False, Bool.false_or]
        decide
      rw [this]
      rfl
  · intro h
    have hg := hgen (hall h)
    refine ⟨hg omitFull, ?_⟩
    unfold sqlite3GetBoolean
    rw [hg 1]

/-- C28: getSafetyLevel returns 1 for ON, but not for NORMAL, the empty
string or an unrecognized string whatever dflt is: it returns dflt there.
With dflt = 0 the string "NORMAL" and the empty string give 0 (and
sqlite3GetBoolean gives 0), an unknown word with dflt = 3 gives 3; in
general every string that is not a keyword and does not start with a digit
gives dflt. -/
theorem safety_level_default_not_one :
    getSafetyLevel atoi_unused (c_str "NORMAL") 0 0 = 0 ∧
    getSafetyLevel atoi_unused (c_str "") 0 0 = 0 ∧
    getSafetyLevel atoi_unused (c_str "bogus") 0 3 = 3 ∧
    sqlite3GetBoolean atoi_unused (c_str "NORMAL") 0 = 0 ∧
    getSafetyLevel atoi_unused (c_str "ON") 0 0 = 1 ∧
    (∀ (sqlite3Atoi : List Nat → Int) (z : List Nat) (omitFull : Int) (dflt : Nat),
      fold_case z = c_str "on" → getSafetyLevel sqlite3Atoi z omitFull dflt = 1) ∧
    (∀ (sqlite3Atoi : List Nat → Int) (z : List Nat) (omitFull : Int) (dflt : Nat),
      z = [] ∨ fold_case z = c_str "normal" ∨
        (is_c_string z ∧ z.length < 2 ^ 30 ∧ sqlite3Isdigit (byte_at z) = false ∧
          fold_case z ∉ keywords) →
      getSafetyLevel sqlite3Atoi z omitFull dflt = dflt ∧
      sqlite3GetBoolean sqlite3Atoi z dflt = if dflt ≠ 0 then 1 else 0) :=
  ⟨by decide, by decide, by decide, by decide, by decide,
   fun sqlite3Atoi z omitFull dflt =>
     (getSafetyLevel_returns_dflt sqlite3Atoi z omitFull dflt).1,
   fun sqlite3Atoi z omitFull dflt =>
     (getSafetyLevel_returns_dflt sqlite3Atoi z omitFull dflt).2⟩

/-! ## The binary search of the pragma table -/

theorem stricmp_eq (a b : List Nat) :
    sqlite3_stricmp a b =
      if byte_at a ≠ 0 ∧ sqlite3UpperToLower (byte_at a) = sqlite3UpperToLower (byte_at b) then
        sqlite3_stricmp a.tail b.tail
      else (sqlite3UpperToLower (byte_at a) : Int) - (sqlite3UpperToLower (byte_at b) : Int) := by
  cases a with
  | nil => simp [sqlite3_stricmp, byte_at]
  | cons x a => simp [sqlite3_stricmp, byte_at]

/-- The order `sqlite3_stricmp` induces is transitive, and when two steps
make a tie, each of them is a tie. -/
theorem stricmp_trans (a : List Nat) :
    ∀ b c : List Nat, sqlite3_stricmp a b ≤ 0 → sqlite3_stricmp b c ≤ 0 →
      sqlite3_stricmp a c ≤ 0 ∧
      (sqlite3_stricmp a c = 0 → sqlite3_stricmp a b = 0 ∧ sqlite3_stricmp b c = 0) := by
  induction a with
  | nil =>
    intro b c hab hbc
    have eab := stricmp_eq [] b
    have ebc := stricmp_eq b c
    have eac := stricmp_eq [] c
    have h0 := upper_to_lower_eq_zero 0
    have hb := upper_to_lower_eq_zero (byte_at b)
    have hc := upper_to_lower_eq_zero (byte_at c)
    simp only [byte_at, List.headD_nil, ne_eq, not_true_eq_false, false_and, if_false]
      at eab eac
    simp only [byte_at] at hb hc ebc
    split_ifs at ebc with h1
    · omega
    · omega
  | cons x a ih =>
    intro b c hab hbc
    have eab := stricmp_eq (x :: a) b
    have ebc := stricmp_eq b c
    have eac := stricmp_eq (x :: a) c
    have hx := upper_to_lower_eq_zero x
    have hb := upper_to_lower_eq_zero (byte_at b)
    have hc := upper_to_lower_eq_zero (byte_at c)
    simp only [byte_at, List.headD_cons, List.tail_cons] at eab ebc eac hb hc
    by_cases h1 : x ≠ 0 ∧ sqlite3UpperToLower x = sqlite3UpperToLower (b.headD 0)
    · rw [if_pos h1] at eab
      have hb0 : b.headD 0 ≠ 0 := by
        intro h
        have := hb.2 h
        omega
      by_cases h2 : b.headD 0 ≠ 0 ∧
          sqlite3UpperToLower (b.headD 0) = sqlite3UpperToLower (c.headD 0)
      · rw [if_pos h2] at ebc
        rw [if_pos ⟨h1.1, h1.2.trans h2.2⟩] at eac
        have := ih b.tail c.tail (by omega) (by omega)
        rw [eab, ebc, eac]
        exact this
      · rw [if_neg h2] at ebc
        have hne : sqlite3UpperToLower (b.headD 0) ≠ sqlite3UpperToLower (c.headD 0) :=
          fun h => h2 ⟨hb0, h⟩
        have hne' : ¬ (x ≠ 0 ∧ sqlite3UpperToLower x = sqlite3UpperToLower (c.headD 0)) :=
          fun h => hne (h1.2.symm.trans h.2)
        rw [if_neg hne'] at eac
        omega
    · rw [if_neg h1] at eab
      by_cases h2 : b.headD 0 ≠ 0 ∧
          sqlite3UpperToLower (b.headD 0) = sqlite3UpperToLower (c.headD 0)
      · rw [if_pos h2] at ebc
        have hne' : ¬ (x ≠ 0 ∧ sqlite3UpperToLower x = sqlite3UpperToLower (c.headD 0)) := by
          intro h
          apply h1
          exact ⟨h.1, h.2.trans h2.2.symm⟩
        rw [if_neg hne'] at eac
        have := h2.2
        have hb0 := h2.1
        constructor
        · omega
        · intro h
          exfalso
          apply h1
          refine ⟨?_, by omega⟩
          intro hx0
          have := hx.2 hx0
          have := hb.1
          omega
      · rw [if_neg h2] at ebc
        by_cases h3 : x ≠ 0 ∧ sqlite3UpperToLower x = sqlite3UpperToLower (c.headD 0)
        · exfalso
          have := h3.2
          have hxb : sqlite3UpperToLower x = sqlite3UpperToLower (b.headD 0) := by omega
          exact h1 ⟨h3.1, hxb⟩
        · rw [if_neg h3] at eac
          constructor
          · omega
          · intro h
            have hxc : sqlite3UpperToLower x = sqlite3UpperToLower (c.headD 0) := by omega
            have hx0 : x = 0 := by
              by_contra hne
              exact h3 ⟨hne, hxc⟩
            have := hx.2 hx0
            omega

theorem stricmp_swap (a : List Nat) :
    ∀ b : List Nat, sqlite3_stricmp b a = - sqlite3_stricmp a b := by
  induction a with
  | nil =>
    intro b
    rw [stricmp_eq b [], stricmp_eq [] b]
    have hb := upper_to_lower_eq_zero (byte_at b)
    have h0 := upper_to_lower_eq_zero 0
    simp only [byte_at, List.headD_nil, ne_eq, not_true_eq_false, false_and, if_false]
    simp only [byte_at] at hb
    split_ifs with h1
    · exfalso
      have := hb.1
      omega
    · omega
  | cons x a ih =>
    intro b
    rw [stricmp_eq b (x :: a), stricmp_eq (x :: a) b]
    have hx := upper_to_lower_eq_zero x
    have hb := upper_to_lower_eq_zero (byte_at b)
    simp only [byte_at, List.headD_cons, List.tail_cons] at hb ⊢
    by_cases h1 : x ≠ 0 ∧ sqlite3UpperToLower x = sqlite3UpperToLower (b.headD 0)
    · have hb0 : b.headD 0 ≠ 0 := by
        intro h
        have := hb.2 h
        have := hx.1
        omega
      rw [if_pos h1, if_pos ⟨hb0, h1.2.symm⟩]
      exact ih b.tail
    · rw [if_neg h1]
      by_cases h2 : b.headD 0 ≠ 0 ∧ sqlite3UpperToLower (b.headD 0) = sqlite3UpperToLower x
      · exfalso
        apply h1
        refine ⟨?_, h2.2.symm⟩
        intro hx0
        have := hx.2 hx0
        have := hb.1
        omega
      · rw [if_neg h2]
        omega

theorem lex_cons_iff (u v : Nat) (l₁ l₂ : List Nat) :
    List.Lex (fun x y => x < y) (u :: l₁) (v :: l₂) ↔
      u < v ∨ (u = v ∧ List.Lex (fun x y => x < y) l₁ l₂) := by
  constructor
  · intro h
    cases h with
    | cons h => exact Or.inr ⟨rfl, h⟩
    | rel h => exact Or.inl h
  · rintro (h | ⟨rfl, h⟩)
    · exact List.Lex.rel h
    · exact List.Lex.cons h

/-- On C strings `sqlite3_stricmp` is 0 exactly when the lower-cased names
are equal, and negative exactly when the lower-cased left name is
lexicographically before the right one. -/
theorem stricmp_spec (a : List Nat) :
    ∀ b : List Nat, is_c_string a → is_c_string b →
      (sqlite3_stricmp a b = 0 ↔ fold_case a = fold_case b) ∧
      (sqlite3_stricmp a b < 0 ↔
        List.Lex (fun x y => x < y) (fold_case a) (fold_case b)) := by
  induction a with
  | nil =>
    intro b _ hb
    cases b with
    | nil => simp [sqlite3_stricmp, byte_at, fold_case]
    | cons y b =>
      have hy : y ≠ 0 := hb y (by simp)
      have := upper_to_lower_eq_zero y
      have h0 := upper_to_lower_eq_zero 0
      simp only [sqlite3_stricmp, byte_at, List.headD_cons, fold_case, List.map_nil,
        List.map_cons]
      refine ⟨⟨fun h => ?_, fun h => by cases h⟩, ⟨fun _ => List.Lex.nil, fun _ => ?_⟩⟩
      · exfalso
        omega
      · omega
  | cons x a ih =>
    intro b ha hb
    have hx : x ≠ 0 := ha x (by simp)
    have hx0 := upper_to_lower_eq_zero x
    have h0 := upper_to_lower_eq_zero 0
    cases b with
    | nil =>
      simp only [sqlite3_stricmp, byte_at, List.headD_nil, fold_case, List.map_nil,
        List.map_cons]
      have hne : ¬ (x ≠ 0 ∧ sqlite3UpperToLower x = sqlite3UpperToLower 0) := by
        intro h
        omega
      rw [if_neg hne]
      refine ⟨⟨fun h => ?_, fun h => by cases h⟩, ⟨fun h => ?_, fun h => by cases h⟩⟩
      · exfalso
        omega
      · exfalso
        omega
    | cons y b =>
      have hrec := ih b (fun c hc => ha c (List.mem_cons_of_mem _ hc))
        (fun c hc => hb c (List.mem_cons_of_mem _ hc))
      simp only [sqlite3_stricmp, byte_at, List.headD_cons, List.tail_cons, fold_case,
        List.map_cons, List.cons.injEq, lex_cons_iff]
      simp only [fold_case] at hrec
      by_cases h1 : sqlite3UpperToLower x = sqlite3UpperToLower y
      · rw [if_pos ⟨hx, h1⟩, h1]
        refine ⟨by simpa using hrec.1, ?_⟩
        rw [hrec.2]
        simp
      · rw [if_neg (fun h => h1 h.2)]
        refine ⟨⟨fun h => ?_, fun h => absurd h.1 h1⟩, ⟨fun h => ?_, fun h => ?_⟩⟩
        · exfalso
          apply h1
          omega
        · exact Or.inl (by omega)
        · rcases h with h | h
          · omega
          · exact absurd h.1 h1

theorem pairwise_getElem? {R : PragmaName → PragmaName → Prop} {l : List PragmaName}
    (h : l.Pairwise R) {j k : Nat} {a b : PragmaName} (ha : l[j]? = some a)
    (hb : l[k]? = some b) (hjk : j < k) : R a b := by
  obtain ⟨hj, rfl⟩ := List.getElem?_eq_some.1 ha
  obtain ⟨hk, rfl⟩ := List.getElem?_eq_some.1 hb
  exact List.pairwise_iff_getElem.1 h j k hj hk hjk

/-- The loop of `pragmaLocate` on a table in the order of `sqlite3_stricmp`:
with the names before `lwr` below the searched name and those after `upr`
above it, and at least `upr - lwr + 2` iterations to run, it ends, with an
entry that ties with the name or with null when no entry ties. -/
theorem pragmaLocate_loop_correct (tbl : List PragmaName) (zName : List Nat)
    (hs : tbl.Pairwise (fun p q => sqlite3_stricmp p.zName q.zName ≤ 0)) (fuel : Nat) :
    ∀ lwr upr : Int, 0 ≤ lwr → upr < tbl.length → lwr ≤ upr + 1 → upr - lwr + 2 ≤ fuel →
      (∀ (j : Nat) (e : PragmaName), (j : Int) < lwr → tbl[j]? = some e →
        0 < sqlite3_stricmp zName e.zName) →
      (∀ (j : Nat) (e : PragmaName), upr < (j : Int) → tbl[j]? = some e →
        sqlite3_stricmp zName e.zName < 0) →
      ∃ r, pragmaLocate_loop tbl zName fuel lwr upr = some r ∧
        (∀ e, r = some e → e ∈ tbl ∧ sqlite3_stricmp zName e.zName = 0) ∧
        (r = none → ∀ e ∈ tbl, sqlite3_stricmp zName e.zName ≠ 0) := by
  induction fuel with
  | zero =>
    intro lwr upr _ _ h3 h4
    exfalso
    omega
  | succ fuel ih =>
    intro lwr upr h1 h2 h3 h4 hlo hhi
    unfold pragmaLocate_loop
    by_cases hle : lwr ≤ upr
    · rw [if_pos hle]
      have hmid0 : 0 ≤ (lwr + upr) / 2 := by omega
      have hmidN : ((lwr + upr) / 2).toNat < tbl.length := by
        have := Int.toNat_of_nonneg hmid0
        omega
      have hcast : (((lwr + upr) / 2).toNat : Int) = (lwr + upr) / 2 :=
        Int.toNat_of_nonneg hmid0
      obtain ⟨entry, hget⟩ : ∃ entry, tbl[((lwr + upr) / 2).toNat]? = some entry :=
        ⟨_, List.getElem?_eq_getElem hmidN⟩
      simp only [hget]
      by_cases hrc0 : sqlite3_stricmp zName entry.zName = 0
      · rw [if_pos hrc0]
        refine ⟨some entry, rfl, ?_, fun h => (by cases h)⟩
        intro e he
        cases he
        exact ⟨List.mem_iff_getElem?.2 ⟨_, hget⟩, hrc0⟩
      · rw [if_neg hrc0]
        by_cases hrc : sqlite3_stricmp zName entry.zName < 0
        · rw [if_pos hrc]
          apply ih lwr ((lwr + upr) / 2 - 1) h1 (by omega) (by omega) (by push_cast at h4; omega)
            hlo
          intro j e hj he
          by_cases hjm : j = ((lwr + upr) / 2).toNat
          · subst hjm
            rw [hget] at he
            cases he
            exact hrc
          · have hlt : ((lwr + upr) / 2).toNat < j := by omega
            have hord := pairwise_getElem? hs hget he hlt
            have := stricmp_trans zName entry.zName e.zName (le_of_lt hrc) hord
            rcases lt_or_eq_of_le this.1 with h | h
            · exact h
            · exact absurd (this.2 h).1 hrc0
        · rw [if_neg hrc]
          have hpos : 0 < sqlite3_stricmp zName entry.zName := by omega
          apply ih ((lwr + upr) / 2 + 1) upr (by omega) h2 (by omega)
            (by push_cast at h4; omega) _ hhi
          intro j e hj he
          by_cases hjm : j = ((lwr + upr) / 2).toNat
          · subst hjm
            rw [hget] at he
            cases he
            exact hpos
          · have hlt : j < ((lwr + upr) / 2).toNat := by omega
            have hord := pairwise_getElem? hs he hget hlt
            have hsw1 := stricmp_swap zName entry.zName
            have hsw2 := stricmp_swap zName e.zName
            have := stricmp_trans e.zName entry.zName zName hord (by omega)
            rcases lt_or_eq_of_le this.1 with h | h
            · omega
            · have := (this.2 h).2
              omega
    · rw [if_neg hle]
      refine ⟨none, rfl, fun e h => (by cases h), fun _ e he => ?_⟩
      obtain ⟨j, hj, rfl⟩ := List.getElem_of_mem he
      have hget : tbl[j]? = some tbl[j] := List.getElem?_eq_getElem hj
      by_cases hjl : (j : Int) < lwr
      · have := hlo j _ hjl hget
        omega
      · have := hhi j _ (by omega) hget
        omega

/-- C29: pragmaLocate is a correct binary search. On a table of C strings
whose names are in case-insensitive lexicographic order, for every name the
loop ends within one iteration more than the table has entries; an entry it
returns is an entry of the table whose name equals the given name up to
case; and it returns null if and only if no entry has that name. -/
theorem pragmaLocate_correct (aPragmaName : List PragmaName) (zName : List Nat)
    (hs : names_sorted aPragmaName) (hc : ∀ e ∈ aPragmaName, is_c_string e.zName)
    (hz : is_c_string zName) :
    ∃ r, pragmaLocate aPragmaName zName = some r ∧
      (∀ e, r = some e → e ∈ aPragmaName ∧ fold_case e.zName = fold_case zName) ∧
      (r = none ↔ ∀ e ∈ aPragmaName, fold_case e.zName ≠ fold_case zName) := by
  have hs' : aPragmaName.Pairwise (fun p q => sqlite3_stricmp p.zName q.zName ≤ 0) := by
    unfold names_sorted at hs
    refine List.Pairwise.imp_of_mem ?_ hs
    intro p q hp hq h
    have hspec := stricmp_spec p.zName q.zName (hc p hp) (hc q hq)
    rcases h with h | h
    · exact le_of_eq (hspec.1.2 h)
    · exact le_of_lt (hspec.2.2 h)
  obtain ⟨r, hr, hsome, hnone⟩ := pragmaLocate_loop_correct aPragmaName zName hs'
    (aPragmaName.length + 1) 0 ((aPragmaName.length : Int) - 1) (le_refl _) (by omega)
    (by omega) (by push_cast; omega)
    (fun j e hj _ => by omega)
    (fun j e hj he => by
      have := (List.getElem?_eq_some.1 he).1
      omega)
  refine ⟨r, hr, ?_, ?_, ?_⟩
  · intro e he
    have := hsome e he
    exact ⟨this.1, ((stricmp_spec zName e.zName hz (hc e this.1)).1.1 this.2).symm⟩
  · intro h e he heq
    exact hnone h e he ((stricmp_spec zName e.zName hz (hc e he)).1.2 heq.symm)
  · intro h
    cases hr' : r with
    | none => rfl
    | some e =>
      have := hsome e hr'
      exact absurd ((stricmp_spec zName e.zName hz (hc e this.1)).1.1 this.2).symm
        (h e this.1)

/-- Witness of C29: in a sorted table of five pragmas the name
"Count_Changes" is found at the entry "count_changes", and "nosuch" is not
found. -/
theorem pragmaLocate_correct_witness :
    names_sorted small_table ∧
    pragmaLocate small_table (c_str "Count_Changes") =
      some (some { zName := c_str "count_changes", ePragTyp := 3 }) ∧
    pragmaLocate small_table (c_str "nosuch") = some none ∧
    ∃ r, pragmaLocate small_table (c_str "Count_Changes") = some r ∧
      (∀ e, r = some e →
        e ∈ small_table ∧ fold_case e.zName = fold_case (c_str "Count_Changes")) ∧
      (r = none ↔
        ∀ e ∈ small_table, fold_case e.zName ≠ fold_case (c_str "Count_Changes")) :=
  ⟨by decide, by decide, by decide,
   pragmaLocate_correct small_table (c_str "Count_Changes") (by decide) (by decide)
     (by decide)⟩

end pragma

namespace vinyl

/-! ## The key definition check of the vinyl engine -/

theorem keydefCheck_parts_ok (name space_name : String) (parts : List key_part) :
    ∀ i : Nat, keydefCheck_parts name space_name i parts = .ok () ↔
      ∀ (j : Nat) (part : key_part), parts[j]? = some part → part_ok (i + j) part := by
  induction parts with
  | nil =>
    intro i
    simp [keydefCheck_parts]
  | cons p ps ih =>
    intro i
    constructor
    · intro h j part hj
      unfold keydefCheck_parts at h
      split_ifs at h with h1 h2
      cases j with
      | zero =>
        simp only [List.getElem?_cons_zero, Option.some.injEq] at hj
        subst hj
        refine ⟨?_, by simpa using h2⟩
        by_cases hn : p.type = .NUM
        · exact Or.inl hn
        · exact Or.inr (by simpa [hn] using h1)
      | succ j =>
        simp only [List.getElem?_cons_succ] at hj
        have := (ih (i + 1)).1 h j part hj
        rwa [show i + 1 + j = i + (j + 1) by omega] at this
    · intro h
      have h0 := h 0 p (by simp)
      unfold keydefCheck_parts
      have h1 : ¬ (p.type ≠ .NUM ∧ p.type ≠ .STRING) := by
        rcases h0.1 with h | h <;> simp [h]
      have h2 : ¬ p.fieldno ≠ i := by simpa using h0.2
      rw [if_neg h1, if_neg h2]
      apply (ih (i + 1)).2
      intro j part hj
      have := h (j + 1) part (by simpa using hj)
      rwa [show i + (j + 1) = i + 1 + j by omega] at this

theorem keydefCheck_parts_first (name space_name : String) (parts : List key_part) :
    ∀ (i k : Nat) (part : key_part), parts[k]? = some part →
      (∀ (j : Nat) (q : key_part), j < k → parts[j]? = some q → part_ok (i + j) q) →
      ¬ part_ok (i + k) part →
      keydefCheck_parts name space_name i parts =
        .error { code := .ER_MODIFY_INDEX,
                 args := [name, space_name,
                   if part.type ≠ .NUM ∧ part.type ≠ .STRING then
                     "Vinyl index field type must be STR or NUM"
                   else "Vinyl key parts must follow first and cannot be sparse"] } := by
  induction parts with
  | nil =>
    intro i k part hk
    simp at hk
  | cons p ps ih =>
    intro i k part hk hbefore hbad
    cases k with
    | zero =>
      simp only [List.getElem?_cons_zero, Option.some.injEq] at hk
      subst hk
      unfold keydefCheck_parts
      by_cases h1 : p.type ≠ .NUM ∧ p.type ≠ .STRING
      · rw [if_pos h1, if_pos h1]
      · rw [if_neg h1, if_neg h1]
        have h2 : p.fieldno ≠ i := by
          intro h
          apply hbad
          refine ⟨?_, by simpa using h⟩
          by_cases hn : p.type = .NUM
          · exact Or.inl hn
          · exact Or.inr (by simpa [hn] using h1)
        rw [if_pos h2]
    | succ k =>
      simp only [List.getElem?_cons_succ] at hk
      have h0 := hbefore 0 p (by omega) (by simp)
      unfold keydefCheck_parts
      have h1 : ¬ (p.type ≠ .NUM ∧ p.type ≠ .STRING) := by
        rcases h0.1 with h | h <;> simp [h]
      have h2 : ¬ p.fieldno ≠ i := by simpa using h0.2
      rw [if_neg h1, if_neg h2]
      apply ih (i + 1) k part hk
      · intro j q hj hq
        have := hbefore (j + 1) q (by omega) (by simpa using hq)
        rwa [show i + (j + 1) = i + 1 + j by omega] at this
      · rwa [show i + 1 + k = i + (k + 1) by omega]

/-- C30: keydefCheck returns without raising if and only if the type is
TREE, the index is unique, its id is 0 and every part i has type NUM or
STRING and field number i; otherwise it raises a ClientError for the first
violated condition in that order: ER_INDEX_TYPE for a type other than TREE,
and ER_MODIFY_INDEX for a non-unique index, then for a non-zero id, then
for the first part that is not in order (its type before its field
number). -/
theorem keydefCheck_accepts_iff (space_name : String) (kd : key_def) :
    (keydefCheck space_name kd = .ok () ↔
      kd.type = .TREE ∧ kd.opts.is_unique = true ∧ kd.iid = 0 ∧
      ∀ (i : Nat) (part : key_part), kd.parts[i]? = some part → part_ok i part) ∧
    (kd.type ≠ .TREE →
      keydefCheck space_name kd =
        .error { code := .ER_INDEX_TYPE, args := [kd.name, space_name] }) ∧
    (kd.type = .TREE → kd.opts.is_unique = false →
      keydefCheck space_name kd =
        .error { code := .ER_MODIFY_INDEX,
                 args := [kd.name, space_name, "Vinyl index must be unique"] }) ∧
    (kd.type = .TREE → kd.opts.is_unique = true → kd.iid ≠ 0 →
      keydefCheck space_name kd =
        .error { code := .ER_MODIFY_INDEX,
                 args := [kd.name, space_name,
                          "Vinyl secondary indexes are not supported"] }) ∧
    (kd.type = .TREE → kd.opts.is_unique = true → kd.iid = 0 →
      ∀ (k : Nat) (part : key_part), kd.parts[k]? = some part →
        (∀ (j : Nat) (q : key_part), j < k → kd.parts[j]? = some q → part_ok j q) →
        ¬ part_ok k part →
        keydefCheck space_name kd =
          .error { code := .ER_MODIFY_INDEX,
                   args := [kd.name, space_name,
                     if part.type ≠ .NUM ∧ part.type ≠ .STRING then
                       "Vinyl index field type must be STR or NUM"
                     else "Vinyl key parts must follow first and cannot be sparse"] }) := by
  refine ⟨?_, ?_, ?_, ?_, ?_⟩
  · unfold keydefCheck
    by_cases ht : kd.type = .TREE
    · by_cases hu : kd.opts.is_unique = true
      · by_cases hi : kd.iid = 0
        · simp only [ht, hu, hi, ne_eq, not_true_eq_false, if_false, true_and]
          rw [keydefCheck_parts_ok]
          simp
        · simp [ht, hu, hi]
      · simp [ht, hu]
    · simp [ht]
  · intro ht
    simp [keydefCheck, ht]
  · intro ht hu
    simp [keydefCheck, ht, hu]
  · intro ht hu hi
    simp [keydefCheck, ht, hu, hi]
  · intro ht hu hi k part hk hbefore hbad
    simp only [keydefCheck, ht, hu, hi, ne_eq, not_true_eq_false, if_false]
    have := keydefCheck_parts_first kd.name space_name kd.parts 0 k part hk
      (by simpa using hbefore) (by simpa using hbad)
    simpa using this

/-- Witness of C30: a unique TREE primary key over the fields 0 (NUM) and 1
(STRING) is accepted; the same definition with index id 1 is refused as a
secondary index. -/
theorem keydefCheck_accepts_iff_witness :
    keydefCheck "test" primary_key_def = .ok () ∧
    keydefCheck "test" { primary_key_def with iid := 1 } =
      .error { code := .ER_MODIFY_INDEX,
               args := ["primary", "test", "Vinyl secondary indexes are not supported"] } :=
  ⟨(keydefCheck_accepts_iff "test" primary_key_def).1.2
     ⟨rfl, rfl, rfl, by
       intro i part h
       rcases i with _ | _ | i <;> simp [primary_key_def] at h <;> subst h <;> decide⟩,
   (keydefCheck_accepts_iff "test" { primary_key_def with iid := 1 }).2.2.2.1 rfl rfl
     (by decide)⟩

end vinyl
